import Mathlib

/-!
# Verification of the md2docx Mermaid rendering engine

Shallow embedding of the diagram rendering engine of the repository:

* `fix_mermaid_syntax.py` — syntax validator and fixer,
* `mermaid_python_renderer.py` — graph parser and hierarchical layout,
* `mermaid_renderer.py` — rendering orchestrator and document integration.

Python strings are modelled as `List Char`; Python floats appearing in the
layout arithmetic are modelled as exact rationals (`ℚ`); the file system is
modelled as a list of paths.  Whitespace (`str.strip`, regex `\s`) is
modelled as the ASCII whitespace set used by the sources' inputs.
-/

namespace MD2Docx

/-- Python strings, modelled as lists of characters. -/
abbrev Str := List Char

/-- ASCII whitespace, the characters stripped by `str.strip()` and matched
by the regex class `\s` on the inputs this repository handles. -/
def isPySpace (c : Char) : Bool :=
  c == ' ' || c == '\t' || c == '\n' || c == '\r' || c == '\x0b' || c == '\x0c'

/-- `str.strip()`: drop leading and trailing whitespace. -/
def pyStrip (s : Str) : Str :=
  ((s.dropWhile isPySpace).reverse.dropWhile isPySpace).reverse

/-- `str.strip('"')`: drop leading and trailing double-quote characters. -/
def stripQuotes (s : Str) : Str :=
  ((s.dropWhile (· == '"')).reverse.dropWhile (· == '"')).reverse

/-- `sub in s`: Python substring containment. -/
def containsSub (pat : Str) : Str → Bool
  | [] => pat.isEmpty
  | c :: rest => pat.isPrefixOf (c :: rest) || containsSub pat rest

/-- `s.split(sep)`, fueled so that the definition computes by kernel
reduction; `splitOnSub` runs it with fuel `s.length`, which
`splitOnSubF_fuel` shows is always enough. -/
def splitOnSubF (sep : Str) : Nat → Str → List Str
  | _, [] => [[]]
  | 0, s => [s]
  | fuel + 1, c :: rest =>
    if sep.isPrefixOf (c :: rest) && !sep.isEmpty then
      [] :: splitOnSubF sep fuel (rest.drop (sep.length - 1))
    else
      match splitOnSubF sep fuel rest with
      | [] => [[c]]
      | p :: ps => (c :: p) :: ps

/-- `s.split(sep)` for a non-empty separator `sep`: split on every
(leftmost, non-overlapping) occurrence of `sep`. -/
def splitOnSub (sep s : Str) : List Str := splitOnSubF sep s.length s

/-- `sep.join(parts)`. -/
def joinSep (sep : Str) : List Str → Str
  | [] => []
  | [l] => l
  | l :: ls => l ++ sep ++ joinSep sep ls

/-- `s.split('\n')`. -/
def splitLines (s : Str) : List Str := splitOnSub ['\n'] s

/-- `'\n'.join(parts)`. -/
def joinLines (ls : List Str) : Str := joinSep ['\n'] ls

/-- `s.lower()` (ASCII case folding, matching the keywords compared). -/
def pyLower (s : Str) : Str := s.map Char.toLower

/-- The character class `[A-Za-z0-9_]` of the node-reference grammar. -/
def isIdentChar (c : Char) : Bool := c.isAlpha || c.isDigit || c == '_'

/-- A closing bracket character, the class `[\]\}]`. -/
def isCloseBr (c : Char) : Bool := c == ']' || c == '}'

/-! ## Graph parser (`mermaid_python_renderer.py`, `_parse_node` / `_parse_edge`) -/

/-- The anchored match `([A-Za-z0-9_]+)\s*[\[\{]([^\]\}]+)[\]\}]` of
`_parse_node`: an identifier, optional whitespace, an opening bracket, a
non-empty bracket-free body, and a closing bracket.  Returns `(id, label)`. -/
def parseNodeBracket (t : Str) : Option (Str × Str) :=
  let ident := t.takeWhile isIdentChar
  if ident.isEmpty then none
  else
    match (t.dropWhile isIdentChar).dropWhile isPySpace with
    | [] => none
    | o :: r3 =>
      if o == '[' || o == '{' then
        let body := r3.takeWhile (fun c => !isCloseBr c)
        if body.isEmpty then none
        else
          match r3.dropWhile (fun c => !isCloseBr c) with
          | [] => none
          | _ :: _ => some (ident, body)
      else none

/-- `_parse_node`: bracket form first, then the bare identifier match
`^([A-Za-z0-9_]+)` with label = id; `(None, None)` becomes `none`. -/
def parse_node (text : Str) : Option (Str × Str) :=
  let t := pyStrip text
  match parseNodeBracket t with
  | some p => some p
  | none =>
    let ident := t.takeWhile isIdentChar
    if ident.isEmpty then none else some (ident, ident)

/-- `re.search(r'\|([^|]+)\|', s)`: the leftmost position holding `|`,
a non-empty bar-free body, and a closing `|`; returns the body. -/
def searchPipeLabel : Str → Option Str
  | [] => none
  | c :: rest =>
    if c == '|' then
      let body := rest.takeWhile (· != '|')
      if !body.isEmpty && !(rest.dropWhile (· != '|')).isEmpty then some body
      else searchPipeLabel rest
    else searchPipeLabel rest

/-- `nodes[id] = label`: insertion-ordered dict update. -/
def insertNode (nodes : List (Str × Str)) (id label : Str) : List (Str × Str) :=
  if nodes.any (fun p => p.1 == id) then
    nodes.map (fun p => if p.1 == id then (id, label) else p)
  else nodes ++ [(id, label)]

/-- The arrow operator selection of `_parse_edge`: split on `-->` when
present, else on `--->` (unreachable: it contains `-->`), else on `--`. -/
def arrowSplit (line : Str) : Option (List Str) :=
  if containsSub ("-->".toList) line then some (splitOnSub ("-->".toList) line)
  else if containsSub ("--->".toList) line then some (splitOnSub ("--->".toList) line)
  else if containsSub ("--".toList) line then some (splitOnSub ("--".toList) line)
  else none

/-- The body of `_parse_edge` after the split: parse both sides, enter
parsed endpoints into the node map (source first), read an edge label
`|label|` from the source side (`re.search` fails exactly when no label
occurrence exists, subsuming the `'|' in from_part` test), and append the
edge when both endpoints parsed. -/
def parseEdgeParts (parts : List Str) (nodes : List (Str × Str))
    (edges : List (Str × Str × Str)) :
    List (Str × Str) × List (Str × Str × Str) :=
  if parts.length < 2 then (nodes, edges)
  else
    match parse_node (pyStrip (parts.headD [])),
        parse_node (pyStrip ((parts.drop 1).headD [])) with
    | some (f, fl), some (t, tl) =>
      (insertNode (insertNode nodes f fl) t tl,
       edges ++ [(f, t, (searchPipeLabel (pyStrip (parts.headD []))).getD [])])
    | some (f, fl), none => (insertNode nodes f fl, edges)
    | none, some (t, tl) => (insertNode nodes t tl, edges)
    | none, none => (nodes, edges)

/-- `_parse_edge`. -/
def parse_edge (line : Str) (nodes : List (Str × Str))
    (edges : List (Str × Str × Str)) :
    List (Str × Str) × List (Str × Str × Str) :=
  match arrowSplit line with
  | none => (nodes, edges)
  | some parts => parseEdgeParts parts nodes edges

/-- The parsed structural model of a graph diagram. -/
structure GraphModel where
  nodes : List (Str × Str)
  edges : List (Str × Str × Str)
deriving DecidableEq, Repr

/-- The parsing loop of `_render_graph`: each non-blank line after the
header containing an arrow operator is fed to `_parse_edge`. -/
def parseGraphLines (lines : List Str) : GraphModel :=
  lines.foldl (fun m line =>
    let l := pyStrip line
    if l.isEmpty then m
    else if containsSub ("-->".toList) l || containsSub ("--".toList) l then
      let r := parse_edge l m.nodes m.edges
      ⟨r.1, r.2⟩
    else m) ⟨[], []⟩

/-- Parse a whole graph diagram source: strip, split into lines, and run
the `_render_graph` parsing loop over the lines after the header. -/
def parseGraph (code : Str) : GraphModel :=
  match splitLines (pyStrip code) with
  | [] => ⟨[], []⟩
  | _ :: rest => parseGraphLines rest

/-! ## Hierarchical layout (`mermaid_python_renderer.py`, `_hierarchical_layout`)

The networkx `DiGraph` built by `_render_graph` keeps nodes in first
insertion order, keeps at most one copy of each directed edge (re-adding an
edge only overwrites its attributes), and only receives edges whose
endpoints are already nodes.  `gEdges` reproduces exactly that edge set. -/

/-- The node ids of the model, in insertion order (`G.nodes()`). -/
def nodeIds (g : GraphModel) : List Str := g.nodes.map (·.1)

/-- The directed edge set of the networkx graph: edges whose endpoints are
nodes of the model, deduplicated keeping the first occurrence. -/
def gEdges (g : GraphModel) : List (Str × Str) :=
  ((g.edges.filter (fun e =>
      (nodeIds g).any (fun n => n == e.1) &&
      (nodeIds g).any (fun n => n == e.2.1))).map
    (fun e => (e.1, e.2.1))).foldl
    (fun acc p => if p ∈ acc then acc else acc ++ [p]) []

/-- `G.successors n`: targets of the edges leaving `n`, in insertion order. -/
def successors (es : List (Str × Str)) (n : Str) : List Str :=
  (es.filter (fun e => e.1 == n)).map (·.2)

/-- `G.in_degree n`: number of (distinct) edges entering `n`. -/
def inDegree (es : List (Str × Str)) (n : Str) : Nat :=
  (es.filter (fun e => e.2 == n)).length

/-- State of the breadth-first level computation: the `levels` dict in
insertion order, the `visited` set, the `current_level` work list and the
running `level_num`. -/
structure BFSState where
  levels : List (Str × Nat)
  visited : List Str
  current : List Str
  levelNum : Nat
deriving DecidableEq, Repr

/-- Body of `for node in current_level`: an unvisited node is assigned the
current level, marked visited, and its still-unvisited successors are
appended to the next level (duplicates allowed). -/
def processNode (es : List (Str × Str)) (lvl : Nat)
    (acc : List (Str × Nat) × List Str × List Str) (n : Str) :
    List (Str × Nat) × List Str × List Str :=
  if n ∈ acc.2.1 then acc
  else
    (acc.1 ++ [(n, lvl)], acc.2.1 ++ [n],
     acc.2.2 ++ (successors es n).filter (fun s => s ∉ acc.2.1 ++ [n]))

/-- One iteration of the `while current_level` loop. -/
def bfsStep (es : List (Str × Str)) (s : BFSState) : BFSState :=
  let r := s.current.foldl (processNode es s.levelNum) (s.levels, s.visited, [])
  ⟨r.1, r.2.1, r.2.2, s.levelNum + 1⟩

/-- The `while current_level` loop, with explicit fuel; the loop stops as
soon as the work list is empty (`bfs_fuel_sufficient` shows the fuel used
below always reaches that point). -/
def bfsLoop (es : List (Str × Str)) : Nat → BFSState → BFSState
  | 0, s => s
  | fuel + 1, s => if s.current.isEmpty then s else bfsLoop es fuel (bfsStep es s)

/-- Initial state: roots are the in-degree-0 nodes; if none exist the first
node (insertion order) is the sole root. -/
def bfsInit (g : GraphModel) : BFSState :=
  let es := gEdges g
  let roots := (nodeIds g).filter (fun n => inDegree es n == 0)
  ⟨[], [], if roots.isEmpty then (nodeIds g).take 1 else roots, 0⟩

/-- The state after the breadth-first loop, run with fuel `|V| + 1`. -/
def bfsFinal (g : GraphModel) : BFSState :=
  bfsLoop (gEdges g) (g.nodes.length + 1) (bfsInit g)

/-- The final `levels` dict: levels assigned during the traversal, then
every never-visited node assigned `level_num`, in `G.nodes()` order. -/
def levelsOf (g : GraphModel) : List (Str × Nat) :=
  let f := bfsFinal g
  f.levels ++
    ((nodeIds g).filter (fun n => !(f.levels.any (fun p => p.1 == n)))).map
      (fun n => (n, f.levelNum))

/-- `level_nodes[l]`: the nodes of one level, in `levels` iteration order. -/
def levelNodes (levels : List (Str × Nat)) (l : Nat) : List Str :=
  (levels.filter (fun p => p.2 == l)).map (·.1)

/-- `max(levels.values())` (0 for the empty dict). -/
def maxLevel (levels : List (Str × Nat)) : Nat :=
  (levels.map (·.2)).foldl max 0

/-- `list.index`: index of the first occurrence. -/
def idxOf (n : Str) : List Str → Nat
  | [] => 0
  | m :: ms => if m == n then 0 else idxOf n ms + 1

/-- The position assigned to a node of level `l` at index `i` of a level of
`k` nodes (Python float arithmetic modelled exactly over `ℚ`). -/
def posOf (vertical : Bool) (maxL l i k : Nat) : ℚ × ℚ :=
  let cross : ℚ := ((i : ℚ) - ((k : ℚ) - 1) / 2) * (3 / 10)
  let main : ℚ := ((l : ℚ) / (max maxL 1 : ℚ)) * (8 / 10)
  if vertical then (cross, 1 - main) else (main, cross)

/-- The position map generated from the final `levels` dict. -/
def hierPos (g : GraphModel) (vertical : Bool) : List (Str × ℚ × ℚ) :=
  let levels := levelsOf g
  let maxL := maxLevel levels
  levels.map (fun p =>
    (p.1, posOf vertical maxL p.2 (idxOf p.1 (levelNodes levels p.2))
      (levelNodes levels p.2).length))

/-- `_hierarchical_layout`: for a non-empty model the computation above;
for the empty model the `list(G.nodes())[0]` lookup raises and the
`nx.circular_layout` fallback returns the empty position map. -/
def hierarchical_layout (g : GraphModel) (vertical : Bool) : List (Str × ℚ × ℚ) :=
  if g.nodes.isEmpty then [] else hierPos g vertical

/-- Decidable acyclicity of the deduplicated edge relation: every
non-empty subset of the nodes has a member with no predecessor inside the
subset (the standard finite characterisation of an acyclic relation,
stated over sublists to keep it executable). -/
def acyclic (g : GraphModel) : Bool :=
  (nodeIds g).sublists.all (fun S =>
    S.isEmpty || S.any (fun n => S.all (fun u => !(decide ((u, n) ∈ gEdges g)))))

/-! ## Syntax fixer (`fix_mermaid_syntax.py`, `fix_mermaid_syntax`) -/

/-- The canonical pie data line `f'    "{label}" : {value}'`. -/
def canonPieLine (label value : Str) : Str :=
  ("    \"".toList) ++ label ++ ("\" : ".toList) ++ value

/-- One pie line after the first: blank lines are dropped; a line with a
single `:` is re-emitted canonically; a line with several `:` is dropped;
any other non-blank line is kept stripped. -/
def fixPieDataLine (line : Str) : Option Str :=
  let l := pyStrip line
  if l.isEmpty then none
  else if containsSub [':'] l then
    let parts := splitOnSub [':'] l
    if parts.length == 2 then
      some (canonPieLine (stripQuotes (pyStrip (parts.headD [])))
        (pyStrip ((parts.drop 1).headD [])))
    else none
  else some l

/-- Fix 1: normalization of a pie diagram, line by line. -/
def fixPie (code : Str) : Str :=
  match splitLines code with
  | [] => joinLines []
  | l0 :: rest => joinLines (pyStrip l0 :: rest.filterMap fixPieDataLine)

/-- The regex class `[A-Za-z0-9\]]` (`\1` of the arrow substitutions). -/
def isArrowL (c : Char) : Bool := c.isAlpha || c.isDigit || c == ']'

/-- The regex class `[A-Za-z0-9\[]` (`\2` of the arrow substitutions). -/
def isArrowR (c : Char) : Bool := c.isAlpha || c.isDigit || c == '['

/-- After the `\1` character: match `\s*` (greedy, deterministic: no arrow
character is whitespace), the literal arrow, `\s*` again, and a `\2`
character; return the `\2` character and the remaining text. -/
def tryTail (arrow : Str) (s : Str) : Option (Char × Str) :=
  if arrow.isPrefixOf (s.dropWhile isPySpace) then
    match ((s.dropWhile isPySpace).drop arrow.length).dropWhile isPySpace with
    | c :: r => if isArrowR c then some (c, r) else none
    | [] => none
  else none

/-- `re.sub(r'([A-Za-z0-9\]])\s*ARROW\s*([A-Za-z0-9\[])', r'\1 ARROW \2', s)`
for `ARROW = a :: ar`: scan left to right; at a `\1` character whose tail
matches, emit the canonical replacement and resume after the consumed `\2`
character; otherwise copy one character and continue. -/
def subArrowF (a : Char) (ar : Str) : Nat → Str → Str
  | _, [] => []
  | 0, s => s
  | fuel + 1, c :: rest =>
    if isArrowL c then
      match tryTail (a :: ar) rest with
      | some p => c :: ' ' :: ((a :: ar) ++ (' ' :: p.1 :: subArrowF a ar fuel p.2))
      | none => c :: subArrowF a ar fuel rest
    else c :: subArrowF a ar fuel rest

/-- The substitution, run with always-sufficient fuel (`subArrowF_fuel`). -/
def subArrow (a : Char) (ar : Str) (s : Str) : Str := subArrowF a ar s.length s

/-- Fix 2, applied to `graph` sources: space the `-->` arrows, then the
`--` arrows. -/
def fixGraphArrows (code : Str) : Str :=
  subArrow '-' ("-".toList) (subArrow '-' ("->".toList) code)

/-- Fix 3: collapse every run of consecutive blank lines to its first
line (`prev_empty` machine). -/
def collapseLines : Bool → List Str → List Str
  | _, [] => []
  | prevEmpty, l :: ls =>
    if !(pyStrip l).isEmpty then l :: collapseLines false ls
    else if prevEmpty then collapseLines true ls
    else l :: collapseLines true ls

/-- Fix 3 on whole text. -/
def collapseBlank (code : Str) : Str :=
  joinLines (collapseLines false (splitLines code))

/-- `fix_mermaid_syntax`: strip, pie normalization, graph arrow spacing,
blank-line collapse. -/
def fix_mermaid_syntax (s : Str) : Str :=
  let c0 := pyStrip s
  let c1 := if ("pie".toList).isPrefixOf c0 then fixPie c0 else c0
  let c2 := if ("graph".toList).isPrefixOf c1 then fixGraphArrows c1 else c1
  collapseBlank c2

/-- Stability of a string under one arrow substitution: the
`subArrowF` scan finds every match site already in the canonical
`\1 ARROW \2` shape, so the substitution copies the string unchanged. -/
def stabF (a : Char) (ar : Str) : Nat → Str → Bool
  | _, [] => true
  | 0, _ => true
  | fuel + 1, c :: rest =>
    if isArrowL c then
      match tryTail (a :: ar) rest with
      | some p =>
        decide (rest = ' ' :: ((a :: ar) ++ (' ' :: p.1 :: p.2))) &&
          stabF a ar fuel p.2
      | none => stabF a ar fuel rest
    else stabF a ar fuel rest

/-- The stability predicate, with always-sufficient fuel. -/
def stab (a : Char) (ar : Str) (s : Str) : Bool := stabF a ar s.length s

/-- Alignment of two strings that agree on every non-whitespace character
and may differ only inside whitespace runs, a run changing only when it
keeps a newline on both sides (the effect of removing blank lines). -/
inductive WsRel : Str → Str → Prop where
  | nil : WsRel [] []
  | cons {c : Char} {z w : Str} : isPySpace c = false → WsRel z w →
      WsRel (c :: z) (c :: w)
  | run {r s z w : Str} : r ≠ [] → s ≠ [] → (∀ x ∈ r, isPySpace x = true) →
      (∀ x ∈ s, isPySpace x = true) → (r = s ∨ ('\n' ∈ r ∧ '\n' ∈ s)) →
      WsRel z w → WsRel (r ++ z) (s ++ w)

/-- `('\n' + line) * lines`: the glue form of `'\n'.join` used to reason
about line lists. -/
def glue (ls : List Str) : Str := (ls.map (fun l => '\n' :: l)).flatten

/-! ## Float literal acceptance (`float(...)` success) -/

/-- Digit group with Python underscore rule: `digit (digit | '_' digit)*`;
returns the remaining text (an unconsumed `'_'` stays and fails later). -/
def digitsUSCont : Str → Str
  | [] => []
  | [c] => if c.isDigit then [] else [c]
  | c :: d :: rest2 =>
    if c.isDigit then digitsUSCont (d :: rest2)
    else if c == '_' then
      (if d.isDigit then digitsUSCont rest2 else c :: d :: rest2)
    else c :: d :: rest2

/-- Leading digit group: at least one digit, then `digitsUSCont`. -/
def digitsUS : Str → Option Str
  | [] => none
  | c :: rest => if c.isDigit then some (digitsUSCont rest) else none

/-- Mantissa: `digits ['.' [digits]]` or `'.' digits`. -/
def mantissaRest (s : Str) : Option Str :=
  match digitsUS s with
  | some r =>
    match r with
    | '.' :: r2 =>
      match digitsUS r2 with
      | some r3 => some r3
      | none => some r2
    | _ => some r
  | none =>
    match s with
    | '.' :: r2 => digitsUS r2
    | _ => none

/-- Optional exponent ending the literal: empty, or `e|E [sign] digits`. -/
def isExpoEnd (s : Str) : Bool :=
  match s with
  | [] => true
  | c :: r =>
    if c == 'e' || c == 'E' then
      let r2 := match r with
        | s0 :: r1 => if s0 == '+' || s0 == '-' then r1 else s0 :: r1
        | [] => ([] : Str)
      match digitsUS r2 with
      | some rem => rem.isEmpty
      | none => false
    else false

/-- Whether `float(s)` succeeds: optional sign, then a decimal literal with
optional exponent, or one of `inf`, `infinity`, `nan` (case-insensitive),
with surrounding whitespace stripped. -/
def isPyFloat (s0 : Str) : Bool :=
  let s1 := pyStrip s0
  let s := match s1 with
    | c :: r => if c == '+' || c == '-' then r else c :: r
    | [] => ([] : Str)
  let low := pyLower s
  if low == ("inf".toList) || low == ("infinity".toList) || low == ("nan".toList) then
    true
  else
    match mantissaRest s with
    | some r => isExpoEnd r
    | none => false

/-! ## Syntax validator (`fix_mermaid_syntax.py`, `validate_mermaid_syntax`) -/

/-- The keyword set, lowered as the validator compares it. -/
def validTypes : List Str :=
  [("graph".toList), ("flowchart".toList), ("sequencediagram".toList),
   ("pie".toList), ("gantt".toList), ("classdiagram".toList),
   ("statediagram".toList), ("mindmap".toList), ("quadrantchart".toList)]

/-- The first failing pie data line check: a line must split on `:` into
exactly two parts whose second part parses as a float. -/
def firstPieError : List Str → Option Str
  | [] => none
  | l :: ls =>
    let parts := splitOnSub [':'] l
    if parts.length != 2 then some (("数据行格式错误: ".toList) ++ l)
    else if !isPyFloat (pyStrip ((parts.drop 1).headD [])) then
      some (("数值无效: ".toList) ++ (parts.drop 1).headD [])
    else firstPieError ls

/-- `validate_mermaid_syntax`: returns `(is_valid, message)`. -/
def validate_mermaid_syntax (s : Str) : Bool × Str :=
  let code := pyStrip s
  if code.isEmpty then (false, ("代码为空".toList))
  else
    let firstLine := pyLower (pyStrip ((splitLines code).headD []))
    if !(validTypes.any (fun t => t.isPrefixOf firstLine)) then
      (false, ("未识别的图表类型: ".toList) ++ firstLine)
    else if ("pie".toList).isPrefixOf firstLine then
      if !(containsSub [':'] code) then
        (false, ("饼图缺少数据（格式: \"标签\" : 数值）".toList))
      else
        let dataLines := ((splitLines code).drop 1).filter (fun l => containsSub [':'] l)
        if dataLines.isEmpty then (false, ("饼图没有有效的数据行".toList))
        else
          match firstPieError dataLines with
          | some e => (false, e)
          | none => (true, ("语法正确".toList))
    else if (("graph".toList).isPrefixOf firstLine || ("flowchart".toList).isPrefixOf firstLine) then
      if !(containsSub ("-->".toList) code) && !(containsSub ("--".toList) code) then
        (false, ("流程图缺少连接关系".toList))
      else (true, ("语法正确".toList))
    else (true, ("语法正确".toList))

/-! ## Pure-Python renderer success (`mermaid_python_renderer.py`, `render`)

The drawing itself (matplotlib) is an external collaborator; the embedding
records whether the per-kind routine reaches its drawing phase, which is
exactly the renderer's success condition visible in the model. -/

/-- `_render_pie` reaches drawing iff some line after the first has a `:`,
splits into two parts and carries a parseable value. -/
def pieDataOK (code : Str) : Bool :=
  ((splitLines (pyStrip code)).drop 1).any (fun line =>
    let l := pyStrip line
    containsSub [':'] l &&
      (let parts := splitOnSub [':'] l
       parts.length == 2 && isPyFloat (pyStrip ((parts.drop 1).headD []))))

/-- `_render_graph` reaches drawing iff the parsed node map is non-empty. -/
def graphRenderOK (code : Str) : Bool :=
  !(parseGraph code).nodes.isEmpty

/-- `_render_gantt` reaches drawing iff some line after the first is a task
line (non-blank, not a `title`/`section` directive, containing `:`). -/
def ganttRenderOK (code : Str) : Bool :=
  ((splitLines (pyStrip code)).drop 1).any (fun line =>
    let l := pyStrip line
    !l.isEmpty && !(("title".toList).isPrefixOf l) &&
      !(("section".toList).isPrefixOf l) && containsSub [':'] l)

/-- `PurePythonMermaidRenderer.render`: dispatch on the lowered first line;
any other diagram type is reported unsupported and fails. -/
def pureRender (code : Str) : Bool :=
  let first := pyLower ((splitLines (pyStrip code)).headD [])
  if ("pie".toList).isPrefixOf first then pieDataOK code
  else if (("graph".toList).isPrefixOf first || ("flowchart".toList).isPrefixOf first) then
    graphRenderOK code
  else if ("gantt".toList).isPrefixOf first then ganttRenderOK code
  else false

/-! ## Rendering orchestrator (`mermaid_renderer.py`) -/

/-- The file system (paths under the output directory) and a count of
invocations of the drawing renderer. -/
structure RenderState where
  files : List Str
  draws : Nat
deriving DecidableEq, Repr

/-- `MermaidRenderer.render` under the `pure_python` strategy: return the
target path unchanged if it already exists; otherwise validate, run the
fixer when invalid, and invoke the drawing renderer on the (possibly
fixed) source, creating the file exactly on success. -/
def rendererRender (st : RenderState) (code : Str) (filename : Str) :
    Option Str × RenderState :=
  if filename ∈ st.files then (some filename, st)
  else if pureRender (if ( validate_mermaid_syntax code).1 then code
      else fix_mermaid_syntax code) then
    (some filename, ⟨st.files ++ [filename], st.draws + 1⟩)
  else (none, ⟨st.files, st.draws + 1⟩)

/-- Stand-in for `hashlib.md5(code).hexdigest()[:8]`: a deterministic
function of the block content (the determinism, not the digest value, is
what the claims depend on). -/
def hash8 (code : Str) : Str := code

/-- `f"mermaid_{counter}_{hash}.png"`. -/
def blockFilename (ordinal : Nat) (code : Str) : Str :=
  ("mermaid_".toList) ++ (toString ordinal).toList ++ ('_' :: hash8 code) ++ (".png".toList)

/-- Outcome of one diagram block: the image path on success (`none` means
the block is replaced by the fallback text) and the number of render
attempts consumed. -/
structure BlockResult where
  image? : Option Str
  attempts : Nat
deriving DecidableEq, Repr

/-- The per-block body of `replace_mermaid`: strip the block, derive the
filename, and call `render` up to 2 times, stopping on success. -/
def processBlock (st : RenderState) (code0 : Str) (ordinal : Nat) :
    BlockResult × RenderState :=
  let code := pyStrip code0
  let fname := blockFilename ordinal code
  let r1 := rendererRender st code fname
  match r1.1 with
  | some p => (⟨some p, 1⟩, r1.2)
  | none =>
    let r2 := rendererRender r1.2 code fname
    match r2.1 with
    | some p => (⟨some p, 2⟩, r2.2)
    | none => (⟨none, 2⟩, r2.2)

/-- The trailing-whitespace strip (the second half of `str.strip()`). -/
def pyRStrip (s : Str) : Str := (s.reverse.dropWhile isPySpace).reverse

/-! ## Basic lemmas about the embedding -/

theorem length_dropWhile_le (p : Char → Bool) (l : Str) :
    (l.dropWhile p).length ≤ l.length := by
  induction l with
  | nil => simp [List.dropWhile]
  | cons c cs ih =>
    simp only [List.dropWhile]
    split
    · exact Nat.le_succ_of_le ih
    · simp

theorem tryTail_length {a : Char} {ar s : Str} {c2 : Char} {r : Str}
    (h : tryTail (a :: ar) s = some (c2, r)) : r.length < s.length := by
  unfold tryTail at h
  split at h
  case isFalse => simp at h
  case isTrue hpre =>
    split at h
    case h_2 => simp at h
    case h_1 c r' heq =>
      split at h
      case isFalse => simp at h
      case isTrue =>
        simp only [Option.some.injEq, Prod.mk.injEq] at h
        obtain ⟨rfl, rfl⟩ := h
        have hA : (a :: ar).length ≤ (s.dropWhile isPySpace).length :=
          (List.isPrefixOf_iff_prefix.mp hpre).length_le
        have hB : (s.dropWhile isPySpace).length ≤ s.length :=
          length_dropWhile_le _ _
        have hC : (c :: r').length ≤
            ((s.dropWhile isPySpace).drop (a :: ar).length).length := by
          rw [← heq]; exact length_dropWhile_le _ _
        rw [List.length_drop] at hC
        simp only [List.length_cons] at hA hC
        omega

theorem splitOnSubF_congr (sep : Str) :
    ∀ (n : Nat) (s : Str) (f1 f2 : Nat), s.length ≤ n → s.length ≤ f1 →
      s.length ≤ f2 → splitOnSubF sep f1 s = splitOnSubF sep f2 s := by
  intro n
  induction n with
  | zero =>
    intro s f1 f2 h _ _
    obtain rfl : s = [] := List.length_eq_zero.mp (Nat.le_zero.mp h)
    cases f1 <;> cases f2 <;> rfl
  | succ n ih =>
    intro s f1 f2 hn h1 h2
    cases s with
    | nil => cases f1 <;> cases f2 <;> rfl
    | cons c rest =>
      simp only [List.length_cons] at hn h1 h2
      obtain ⟨f1', rfl⟩ : ∃ k, f1 = k + 1 := ⟨f1 - 1, by omega⟩
      obtain ⟨f2', rfl⟩ : ∃ k, f2 = k + 1 := ⟨f2 - 1, by omega⟩
      simp only [splitOnSubF]
      have hdl := List.length_drop (sep.length - 1) rest
      by_cases hp : (sep.isPrefixOf (c :: rest) && !sep.isEmpty) = true
      · rw [if_pos hp, if_pos hp,
          ih (rest.drop (sep.length - 1)) f1' f2' (by omega) (by omega) (by omega)]
      · rw [if_neg hp, if_neg hp, ih rest f1' f2' (by omega) (by omega) (by omega)]

theorem splitOnSub_nil (sep : Str) : splitOnSub sep [] = [[]] := rfl

theorem splitOnSub_cons (sep : Str) (c : Char) (rest : Str) :
    splitOnSub sep (c :: rest) =
      if sep.isPrefixOf (c :: rest) && !sep.isEmpty then
        [] :: splitOnSub sep (rest.drop (sep.length - 1))
      else
        match splitOnSub sep rest with
        | [] => [[c]]
        | p :: ps => (c :: p) :: ps := by
  show splitOnSubF sep (c :: rest).length (c :: rest) = _
  simp only [List.length_cons, splitOnSubF]
  have hdl := List.length_drop (sep.length - 1) rest
  by_cases hp : (sep.isPrefixOf (c :: rest) && !sep.isEmpty) = true
  · rw [if_pos hp, if_pos hp]
    have hc : splitOnSubF sep rest.length (rest.drop (sep.length - 1)) =
        splitOnSubF sep (rest.drop (sep.length - 1)).length
          (rest.drop (sep.length - 1)) :=
      splitOnSubF_congr sep rest.length (rest.drop (sep.length - 1)) rest.length
        (rest.drop (sep.length - 1)).length (by omega) (by omega) (by omega)
    rw [hc]; rfl
  · rw [if_neg hp, if_neg hp]; rfl

theorem subArrowF_congr (a : Char) (ar : Str) :
    ∀ (n : Nat) (s : Str) (f1 f2 : Nat), s.length ≤ n → s.length ≤ f1 →
      s.length ≤ f2 → subArrowF a ar f1 s = subArrowF a ar f2 s := by
  intro n
  induction n with
  | zero =>
    intro s f1 f2 h _ _
    obtain rfl : s = [] := List.length_eq_zero.mp (Nat.le_zero.mp h)
    cases f1 <;> cases f2 <;> rfl
  | succ n ih =>
    intro s f1 f2 hn h1 h2
    cases s with
    | nil => cases f1 <;> cases f2 <;> rfl
    | cons c rest =>
      simp only [List.length_cons] at hn h1 h2
      obtain ⟨f1', rfl⟩ : ∃ k, f1 = k + 1 := ⟨f1 - 1, by omega⟩
      obtain ⟨f2', rfl⟩ : ∃ k, f2 = k + 1 := ⟨f2 - 1, by omega⟩
      simp only [subArrowF]
      by_cases hL : isArrowL c = true
      · rw [if_pos hL, if_pos hL]
        cases htt : tryTail (a :: ar) rest with
        | some p =>
          have hlt := @tryTail_length _ _ _ p.1 p.2 (by rw [htt])
          dsimp only
          rw [ih p.2 f1' f2' (by omega) (by omega) (by omega)]
        | none =>
          dsimp only
          rw [ih rest f1' f2' (by omega) (by omega) (by omega)]
      · rw [if_neg hL, if_neg hL, ih rest f1' f2' (by omega) (by omega) (by omega)]

theorem subArrow_nil (a : Char) (ar : Str) : subArrow a ar [] = [] := rfl

theorem subArrow_cons (a : Char) (ar : Str) (c : Char) (rest : Str) :
    subArrow a ar (c :: rest) =
      if isArrowL c then
        match tryTail (a :: ar) rest with
        | some p => c :: ' ' :: ((a :: ar) ++ (' ' :: p.1 :: subArrow a ar p.2))
        | none => c :: subArrow a ar rest
      else c :: subArrow a ar rest := by
  show subArrowF a ar (c :: rest).length (c :: rest) = _
  simp only [List.length_cons, subArrowF]
  by_cases hL : isArrowL c = true
  · rw [if_pos hL, if_pos hL]
    cases htt : tryTail (a :: ar) rest with
    | some p =>
      have hlt := @tryTail_length _ _ _ p.1 p.2 (by rw [htt])
      dsimp only
      have hc : subArrowF a ar rest.length p.2 = subArrowF a ar p.2.length p.2 :=
        subArrowF_congr a ar rest.length p.2 rest.length p.2.length
          (by omega) (by omega) (by omega)
      rw [hc]; rfl
    | none =>
      dsimp only
      have hc : subArrowF a ar rest.length rest = subArrowF a ar rest.length rest :=
        rfl
      rfl
  · rw [if_neg hL, if_neg hL]; rfl

theorem isPySpace_cases {c : Char} (h : isPySpace c = true) :
    c = ' ' ∨ c = '\t' ∨ c = '\n' ∨ c = '\r' ∨ c = '\x0b' ∨ c = '\x0c' := by
  simp only [isPySpace, Bool.or_eq_true, beq_iff_eq] at h
  tauto

theorem ident_not_space {c : Char} (h : isIdentChar c = true) :
    isPySpace c = false := by
  cases hps : isPySpace c with
  | false => rfl
  | true =>
    exfalso
    rcases isPySpace_cases hps with rfl | rfl | rfl | rfl | rfl | rfl <;>
      exact absurd h (by decide)

theorem ident_ne_dash {c : Char} (h : isIdentChar c = true) : (c == '-') = false := by
  cases hd : (c == '-') with
  | false => rfl
  | true =>
    exfalso
    have : c = '-' := beq_iff_eq.mp hd
    subst this
    exact absurd h (by decide)

theorem mem_of_mem_head? {s : Str} {c : Char} (h : c ∈ s.head?) : c ∈ s := by
  cases s with
  | nil => simp at h
  | cons x t =>
    simp only [List.head?_cons, Option.mem_def, Option.some.injEq] at h
    subst h
    exact List.mem_cons_self _ _

theorem takeWhile_all {p : Char → Bool} {s : Str} (h : ∀ c ∈ s, p c = true) :
    s.takeWhile p = s := by
  induction s with
  | nil => rfl
  | cons c t ih =>
    rw [List.takeWhile_cons, if_pos (h c (List.mem_cons_self c t))]
    rw [ih (fun d hd => h d (List.mem_cons_of_mem c hd))]

theorem dropWhile_all {p : Char → Bool} {s : Str} (h : ∀ c ∈ s, p c = true) :
    s.dropWhile p = [] := by
  induction s with
  | nil => rfl
  | cons c t ih =>
    rw [List.dropWhile_cons, if_pos (h c (List.mem_cons_self c t))]
    exact ih (fun d hd => h d (List.mem_cons_of_mem c hd))

theorem dropWhile_eq_self_of {p : Char → Bool} {s : Str}
    (h : ∀ c ∈ s.head?, p c = false) : s.dropWhile p = s := by
  cases s with
  | nil => rfl
  | cons c t => rw [List.dropWhile_cons, if_neg (by simp [h c (by simp)])]

theorem pyStrip_eq_self {s : Str} (h : ∀ c ∈ s, isPySpace c = false) :
    pyStrip s = s := by
  unfold pyStrip
  rw [dropWhile_eq_self_of (fun c hc => h c (mem_of_mem_head? hc)),
    dropWhile_eq_self_of
      (fun c hc => h c (List.mem_reverse.mp (mem_of_mem_head? hc))),
    List.reverse_reverse]

theorem dropWhile_append_all {p : Char → Bool} {w r : Str}
    (h : ∀ c ∈ w, p c = true) : (w ++ r).dropWhile p = r.dropWhile p := by
  induction w with
  | nil => rfl
  | cons c t ih =>
    rw [List.cons_append, List.dropWhile_cons, if_pos (h c (List.mem_cons_self c t))]
    exact ih (fun d hd => h d (List.mem_cons_of_mem c hd))

theorem dropWhile_last_nonsat (p : Char → Bool) (c : Char) (h : p c = false) :
    ∀ l : Str, ∃ q, ((l ++ [c]).dropWhile p).reverse = c :: q := by
  intro l
  induction l with
  | nil => exact ⟨[], by simp [List.dropWhile_cons, h]⟩
  | cons x t ih =>
    by_cases hx : p x = true
    · simpa [List.dropWhile_cons, hx] using ih
    · exact ⟨t.reverse ++ [x], by simp [List.dropWhile_cons, hx]⟩

theorem pyStrip_cons_nonspace {c : Char} (s : Str) (h : isPySpace c = false) :
    ∃ q, pyStrip (c :: s) = c :: q := by
  unfold pyStrip
  rw [List.dropWhile_cons, if_neg (by simp [h])]
  have hrev : (c :: s).reverse = s.reverse ++ [c] := by simp
  rw [hrev]
  exact dropWhile_last_nonsat isPySpace c h s.reverse

theorem pyStrip_append_ws {s w : Str} (hs : ∀ c ∈ s, isPySpace c = false)
    (hw : ∀ c ∈ w, isPySpace c = true) : pyStrip (s ++ w) = s := by
  cases s with
  | nil => simp only [List.nil_append]; unfold pyStrip
           rw [dropWhile_all hw]; rfl
  | cons c t =>
    unfold pyStrip
    rw [List.cons_append, List.dropWhile_cons,
      if_neg (by simp [hs c (List.mem_cons_self c t)])]
    have hrev : (c :: (t ++ w)).reverse = w.reverse ++ (c :: t).reverse := by simp
    rw [hrev, dropWhile_append_all (fun d hd => hw d (List.mem_reverse.mp hd)),
      dropWhile_eq_self_of
        (fun d hd => hs d (List.mem_reverse.mp (mem_of_mem_head? hd))),
      List.reverse_reverse]

theorem splitOnSub_ne_nil (sep s : Str) : splitOnSub sep s ≠ [] := by
  cases s with
  | nil => simp [splitOnSub_nil]
  | cons c rest =>
    rw [splitOnSub_cons]
    split
    · simp
    · split <;> simp

theorem splitOnSub_append_left {s0 : Char} (st : Str) (a b : Str)
    (ha : ∀ c ∈ a, (c == s0) = false) :
    splitOnSub (s0 :: st) (a ++ b) =
      match splitOnSub (s0 :: st) b with
      | [] => [a]
      | p :: ps => (a ++ p) :: ps := by
  induction a with
  | nil =>
    cases hb : splitOnSub (s0 :: st) b with
    | nil => exact absurd hb (splitOnSub_ne_nil _ _)
    | cons p ps => simp [hb]
  | cons x t ih =>
    rw [List.cons_append, splitOnSub_cons, if_neg (by
      intro hcontra
      rw [Bool.and_eq_true] at hcontra
      obtain ⟨h1, -⟩ := hcontra
      simp only [List.isPrefixOf] at h1
      rw [Bool.and_eq_true] at h1
      obtain ⟨h2, -⟩ := h1
      have hx := ha x (List.mem_cons_self x t)
      rw [beq_iff_eq] at h2
      subst h2
      simp at hx)]
    rw [ih (fun c hc => ha c (List.mem_cons_of_mem x hc))]
    cases hb : splitOnSub (s0 :: st) b with
    | nil => exact absurd hb (splitOnSub_ne_nil _ _)
    | cons p ps => simp

theorem splitOnSub_at_sep (s0 : Char) (st b : Str) :
    splitOnSub (s0 :: st) ((s0 :: st) ++ b) = [] :: splitOnSub (s0 :: st) b := by
  rw [List.cons_append, splitOnSub_cons, if_pos (by
    simp only [Bool.and_eq_true]
    constructor
    · exact List.isPrefixOf_iff_prefix.mpr ⟨b, by simp⟩
    · simp [List.isEmpty])]
  congr 1
  simp only [List.length_cons, Nat.add_sub_cancel]
  rw [List.drop_left]

theorem containsSub_of_isPrefixOf {pat s : Str} (h : pat.isPrefixOf s = true) :
    containsSub pat s = true := by
  cases s with
  | nil =>
    cases pat with
    | nil => rfl
    | cons p pt => simp [List.isPrefixOf] at h
  | cons c rest => simp [containsSub, h]

theorem containsSub_cons_of (pat : Str) (c : Char) (rest : Str)
    (h : containsSub pat rest = true) : containsSub pat (c :: rest) = true := by
  simp [containsSub, h]

theorem containsSub_of_append (pat a b : Str) :
    containsSub pat (a ++ (pat ++ b)) = true := by
  induction a with
  | nil =>
    simp only [List.nil_append]
    exact containsSub_of_isPrefixOf (List.isPrefixOf_iff_prefix.mpr ⟨b, rfl⟩)
  | cons x t ih =>
    rw [List.cons_append]
    exact containsSub_cons_of _ _ _ ih

theorem pyStrip_as_rstrip (s : Str) :
    pyStrip s = pyRStrip (s.dropWhile isPySpace) := rfl

theorem head?_dropWhile_not (p : Char → Bool) (l : Str) :
    ∀ c ∈ (l.dropWhile p).head?, p c = false := by
  induction l with
  | nil => intro c hc; simp at hc
  | cons x t ih =>
    intro c hc
    rw [List.dropWhile_cons] at hc
    split at hc
    · exact ih c hc
    · simp only [List.head?_cons, Option.mem_def, Option.some.injEq] at hc
      subst hc
      rename_i hx
      simpa using hx

theorem head?_of_prefix {l₁ l₂ : Str} (h : l₁ <+: l₂) (hne : l₁ ≠ []) :
    l₁.head? = l₂.head? := by
  obtain ⟨t, rfl⟩ := h
  cases l₁ with
  | nil => exact absurd rfl hne
  | cons c u => rfl

theorem pyRStrip_prefix (s : Str) : pyRStrip s <+: s := by
  unfold pyRStrip
  obtain ⟨t, ht⟩ := List.dropWhile_suffix (l := s.reverse) (p := isPySpace)
  refine ⟨t.reverse, ?_⟩
  rw [← List.reverse_append, ht, List.reverse_reverse]

theorem pyRStrip_head? (s : Str) (hne : pyRStrip s ≠ []) :
    (pyRStrip s).head? = s.head? :=
  head?_of_prefix ( pyRStrip_prefix s) hne

theorem dropWhile_idem (p : Char → Bool) (s : Str) :
    (s.dropWhile p).dropWhile p = s.dropWhile p :=
  dropWhile_eq_self_of (head?_dropWhile_not p s)

theorem pyRStrip_idem (s : Str) : pyRStrip (pyRStrip s) = pyRStrip s := by
  unfold pyRStrip
  rw [List.reverse_reverse, dropWhile_idem]

theorem pyStrip_idem (s : Str) : pyStrip (pyStrip s) = pyStrip s := by
  rw [pyStrip_as_rstrip, pyStrip_as_rstrip]
  have hhead : ∀ c ∈ (pyRStrip (s.dropWhile isPySpace)).head?,
      isPySpace c = false := by
    intro c hc
    by_cases hne : pyRStrip (s.dropWhile isPySpace) = []
    · rw [hne] at hc; simp at hc
    · rw [pyRStrip_head? _ hne] at hc
      exact head?_dropWhile_not isPySpace s c hc
  rw [dropWhile_eq_self_of hhead]
  exact pyRStrip_idem _

theorem pyLower_append (a b : Str) : pyLower (a ++ b) = pyLower a ++ pyLower b :=
  List.map_append _ a b

/-- Stripping text that starts with a non-empty run of non-whitespace
characters keeps that run as a prefix. -/
theorem pyStrip_append_of {a : Str} (t : Str) (hne : a ≠ [])
    (ha : ∀ c ∈ a, isPySpace c = false) :
    ∃ t', pyStrip (a ++ t) = a ++ t' := by
  rw [pyStrip_as_rstrip]
  have hdw : (a ++ t).dropWhile isPySpace = a ++ t := by
    apply dropWhile_eq_self_of
    intro c hc
    cases a with
    | nil => exact absurd rfl hne
    | cons x u =>
      simp only [List.cons_append, List.head?_cons, Option.mem_def,
        Option.some.injEq] at hc
      subst hc
      exact ha _ (List.mem_cons_self _ _)
  rw [hdw]
  unfold pyRStrip
  rw [List.reverse_append, List.dropWhile_append]
  split
  · refine ⟨[], ?_⟩
    rw [dropWhile_eq_self_of (fun c hc => by
      have hmem : c ∈ a.reverse := mem_of_mem_head? hc
      exact ha c (List.mem_reverse.mp hmem))]
    simp
  · refine ⟨(t.reverse.dropWhile isPySpace).reverse, ?_⟩
    simp

/-! ## Parser theorems (C3, C4, C10) -/

theorem keys_update_eq (nodes : List (Str × Str)) (id l : Str) :
    (nodes.map (fun p => if p.1 == id then (id, l) else p)).map (·.1) =
      nodes.map (·.1) := by
  induction nodes with
  | nil => rfl
  | cons p ps ih =>
    simp only [List.map_cons]
    rw [ih]
    by_cases hp : (p.1 == id) = true
    · rw [if_pos hp]
      simp [beq_iff_eq.mp hp]
    · rw [if_neg hp]

theorem keys_insertNode (nodes : List (Str × Str)) (id l : Str) :
    (insertNode nodes id l).map (·.1) = nodes.map (·.1) ∨
    (insertNode nodes id l).map (·.1) = nodes.map (·.1) ++ [id] := by
  unfold insertNode
  split
  · left
    exact keys_update_eq nodes id l
  · right; simp

theorem mem_keys_insertNode_self (nodes : List (Str × Str)) (id l : Str) :
    id ∈ (insertNode nodes id l).map (·.1) := by
  unfold insertNode
  split
  · rename_i hany
    rw [keys_update_eq]
    simp only [List.any_eq_true] at hany
    obtain ⟨p, hp, hpe⟩ := hany
    rw [← beq_iff_eq.mp hpe]
    exact List.mem_map_of_mem _ hp
  · simp

theorem mem_keys_insertNode_mono {k : Str} (nodes : List (Str × Str)) (id l : Str)
    (h : k ∈ nodes.map (·.1)) : k ∈ (insertNode nodes id l).map (·.1) := by
  rcases keys_insertNode nodes id l with heq | heq
  · rwa [heq]
  · rw [heq]; exact List.mem_append_left _ h

/-- The possible shapes of one `_parse_edge` call: nothing happens, one
node is entered, or two nodes are entered and the edge appended. -/
theorem parse_edge_cases (line : Str) (nodes : List (Str × Str))
    (edges : List (Str × Str × Str)) :
    parse_edge line nodes edges = (nodes, edges) ∨
    (∃ i l, parse_edge line nodes edges = (insertNode nodes i l, edges)) ∨
    (∃ f fl t tl lbl, parse_edge line nodes edges =
      (insertNode (insertNode nodes f fl) t tl, edges ++ [(f, t, lbl)])) := by
  have hparts : ∀ parts : List Str,
      parseEdgeParts parts nodes edges = (nodes, edges) ∨
      (∃ i l, parseEdgeParts parts nodes edges = (insertNode nodes i l, edges)) ∨
      (∃ f fl t tl lbl, parseEdgeParts parts nodes edges =
        (insertNode (insertNode nodes f fl) t tl, edges ++ [(f, t, lbl)])) := by
    intro parts
    unfold parseEdgeParts
    split
    · left; rfl
    · split
      · rename_i f fl t tl hf ht
        right; right
        exact ⟨f, fl, t, tl, _, rfl⟩
      · rename_i f fl hf ht
        right; left
        exact ⟨f, fl, rfl⟩
      · rename_i t tl hf ht
        right; left
        exact ⟨t, tl, rfl⟩
      · left; rfl
  unfold parse_edge
  split
  · left; rfl
  · exact hparts _

theorem parse_edge_inv (line : Str) (nodes : List (Str × Str))
    (edges : List (Str × Str × Str))
    (hinv : ∀ e ∈ edges, e.1 ∈ nodes.map (·.1) ∧ e.2.1 ∈ nodes.map (·.1)) :
    (∀ e ∈ (parse_edge line nodes edges).2,
      e.1 ∈ (parse_edge line nodes edges).1.map (·.1) ∧
      e.2.1 ∈ (parse_edge line nodes edges).1.map (·.1)) := by
  rcases parse_edge_cases line nodes edges with heq | ⟨i, l, heq⟩ |
    ⟨f, fl, t, tl, lbl, heq⟩ <;> rw [heq]
  · exact hinv
  · intro e he
    obtain ⟨h1, h2⟩ := hinv e he
    exact ⟨mem_keys_insertNode_mono _ _ _ h1, mem_keys_insertNode_mono _ _ _ h2⟩
  · intro e he
    rcases List.mem_append.mp he with hold | hnew
    · obtain ⟨h1, h2⟩ := hinv e hold
      exact ⟨mem_keys_insertNode_mono _ _ _ (mem_keys_insertNode_mono _ _ _ h1),
        mem_keys_insertNode_mono _ _ _ (mem_keys_insertNode_mono _ _ _ h2)⟩
    · have : e = (f, t, lbl) := by simpa using hnew
      subst this
      exact ⟨mem_keys_insertNode_mono _ _ _ (mem_keys_insertNode_self _ _ _),
        mem_keys_insertNode_self _ _ _⟩

theorem parseGraphLines_inv (lines : List Str) :
    ∀ e ∈ (parseGraphLines lines).edges,
      e.1 ∈ (parseGraphLines lines).nodes.map (·.1) ∧
      e.2.1 ∈ (parseGraphLines lines).nodes.map (·.1) := by
  unfold parseGraphLines
  generalize hstart : (⟨[], []⟩ : GraphModel) = start
  have hbase : ∀ e ∈ start.edges, e.1 ∈ start.nodes.map (·.1) ∧
      e.2.1 ∈ start.nodes.map (·.1) := by
    rw [← hstart]; intro e he; simp at he
  clear hstart
  induction lines generalizing start with
  | nil => simpa using hbase
  | cons line rest ih =>
    simp only [List.foldl_cons]
    apply ih
    dsimp only
    split
    · exact hbase
    · split
      · exact parse_edge_inv _ _ _ hbase
      · exact hbase

/-- C3: the graph parser never produces a dangling edge endpoint; every
endpoint of every edge is a key of the node map, and an endpoint parsed by
the bare-identifier rule (no bracket form) is auto-created with label =
id. -/
theorem c3_no_dangling_endpoints (text : Str) :
    (∀ e ∈ (parseGraph text).edges,
      e.1 ∈ (parseGraph text).nodes.map (·.1) ∧
      e.2.1 ∈ (parseGraph text).nodes.map (·.1)) ∧
    (∀ t p, parseNodeBracket (pyStrip t) = none → parse_node t = some p →
      p.2 = p.1) := by
  constructor
  · unfold parseGraph
    split
    · intro e he; simp at he
    · exact parseGraphLines_inv _
  · intro t p hbr hp
    simp only [parse_node, hbr] at hp
    split at hp
    · exact absurd hp (by simp)
    · simp only [Option.some.injEq] at hp
      rw [← hp]

theorem parseNodeBracket_head_bad {c : Char} {q : Str}
    (hc : isIdentChar c = false) : parseNodeBracket (c :: q) = none := by
  simp [parseNodeBracket, List.takeWhile_cons, hc]

theorem parse_node_head_bad {text : Str} {c : Char} {q : Str}
    (h : pyStrip text = c :: q) (hc : isIdentChar c = false) :
    parse_node text = none := by
  simp [parse_node, h, parseNodeBracket_head_bad hc, List.takeWhile_cons, hc]

theorem parse_node_ident {i : Str} (hne : i ≠ [])
    (hid : ∀ c ∈ i, isIdentChar c = true) : parse_node i = some (i, i) := by
  have hstrip : pyStrip i = i :=
    pyStrip_eq_self (fun c hc => ident_not_space (hid c hc))
  have htake : i.takeWhile isIdentChar = i := takeWhile_all hid
  have hdrop : i.dropWhile isIdentChar = [] := dropWhile_all hid
  have hiempty : i.isEmpty = false := by
    cases i with
    | nil => exact absurd rfl hne
    | cons c t => rfl
  have hb : parseNodeBracket i = none := by
    unfold parseNodeBracket
    rw [htake, hdrop]
    simp [hiempty]
  simp only [parse_node, hstrip, hb, htake, hiempty]
  rfl

/-- C10: a graph line written with the edge label after the arrow, as in
`C -->|yes| D`, loses both the edge and the label: the target side starts
with `|`, which the node grammar rejects, so only the source node is
entered into the model. -/
theorem c10_label_after_arrow (nodes : List (Str × Str))
    (edges : List (Str × Str × Str)) (i lbl j : Str) (hne : i ≠ [])
    (hid : ∀ c ∈ i, isIdentChar c = true) :
    parse_edge (i ++ (" -->|".toList) ++ lbl ++ ("| ".toList) ++ j) nodes edges =
      (insertNode nodes i i, edges) := by
  have hshape : i ++ (" -->|".toList) ++ lbl ++ ("| ".toList) ++ j =
      (i ++ [' ']) ++ (('-' :: '-' :: '>' :: []) ++
        ('|' :: (lbl ++ ('|' :: ' ' :: j)))) := by
    simp only [show (" -->|".toList) = ' ' :: '-' :: '-' :: '>' :: ['|'] from rfl,
      show ("| ".toList) = '|' :: [' '] from rfl, List.append_assoc,
      List.cons_append, List.nil_append]
  rw [hshape]
  have harr : ("-->".toList) = ('-' :: '-' :: '>' :: []) := rfl
  have hcont : containsSub ("-->".toList) ((i ++ [' ']) ++
      (('-' :: '-' :: '>' :: []) ++ ('|' :: (lbl ++ ('|' :: ' ' :: j))))) = true := by
    rw [harr]
    exact containsSub_of_append _ _ _
  have hsplit : splitOnSub ("-->".toList) ((i ++ [' ']) ++
      (('-' :: '-' :: '>' :: []) ++ ('|' :: (lbl ++ ('|' :: ' ' :: j))))) =
      (i ++ [' ']) :: splitOnSub ("-->".toList) ('|' :: (lbl ++ ('|' :: ' ' :: j))) := by
    rw [harr,
      splitOnSub_append_left ('-' :: '>' :: []) (i ++ [' ']) _
        (fun c hc => by
          rcases List.mem_append.mp hc with hci | hcs
          · exact ident_ne_dash (hid c hci)
          · have : c = ' ' := by simpa using hcs
            subst this; decide),
      splitOnSub_at_sep]
    simp
  have htl : splitOnSub ("-->".toList) ('|' :: (lbl ++ ('|' :: ' ' :: j))) =
      match splitOnSub ("-->".toList) (lbl ++ ('|' :: ' ' :: j)) with
      | [] => [['|']]
      | p :: ps => ('|' :: p) :: ps := by
    rw [splitOnSub_cons, if_neg (by rw [harr]; simp [List.isPrefixOf])]
  obtain ⟨q0, qs, hq⟩ :=
    List.exists_cons_of_ne_nil
      (splitOnSub_ne_nil ("-->".toList) (lbl ++ ('|' :: ' ' :: j)))
  rw [hq] at htl
  dsimp only at htl
  unfold parse_edge arrowSplit
  rw [if_pos hcont, hsplit, htl]
  dsimp only
  unfold parseEdgeParts
  rw [if_neg (by simp)]
  have hfromstrip : pyStrip (((i ++ [' ']) :: ('|' :: q0) :: qs).headD []) = i := by
    simp only [List.headD_cons]
    exact pyStrip_append_ws (fun c hc => ident_not_space (hid c hc))
      (fun c hc => by
        have : c = ' ' := by simpa using hc
        subst this; rfl)
  have htostrip : ∃ q2, pyStrip (((((i ++ [' ']) :: ('|' :: q0) :: qs)).drop 1).headD []) =
      '|' :: q2 := by
    simp only [List.drop_succ_cons, List.drop_zero, List.headD_cons]
    exact pyStrip_cons_nonspace q0 (by decide)
  obtain ⟨q2, hto⟩ := htostrip
  have hpto : parse_node
      (pyStrip ((((i ++ [' ']) :: ('|' :: q0) :: qs).drop 1).headD [])) = none := by
    rw [hto]
    obtain ⟨q3, hq3⟩ := pyStrip_cons_nonspace q2 (show isPySpace '|' = false by decide)
    exact parse_node_head_bad hq3 (by decide)
  rw [hfromstrip, parse_node_ident hne hid, hpto]

/-- Witness for C10 at the parameters of the renderer's own test line. -/
theorem c10_label_after_arrow_witness :
    parse_edge (("C".toList) ++ (" -->|".toList) ++ ("yes".toList) ++
        ("| ".toList) ++ ("D".toList)) [] [] =
      (insertNode [] ("C".toList) ("C".toList), []) :=
  c10_label_after_arrow [] [] ("C".toList) ("yes".toList) ("D".toList)
    (by decide) (by decide)

/-- C4: scenario B — parsing `graph TD` + `A-->B` + `B-->C` yields a model
with 3 nodes and 2 edges, and the layout levels are A = 0, B = 1, C = 2. -/
theorem c4_scenario_b :
    (parseGraph ("graph TD\nA-->B\nB-->C".toList)).nodes.length = 3 ∧
    (parseGraph ("graph TD\nA-->B\nB-->C".toList)).edges.length = 2 ∧
    levelsOf (parseGraph ("graph TD\nA-->B\nB-->C".toList)) =
      [("A".toList, 0), ("B".toList, 1), ("C".toList, 2)] := by
  decide

/-! ## Orchestrator theorems (C6, C7, C8) -/

theorem rendererRender_hit (st : RenderState) (c f : Str) (h : f ∈ st.files) :
    rendererRender st c f = (some f, st) := by
  unfold rendererRender
  rw [if_pos h]

theorem rendererRender_success {st : RenderState} {c f : Str} {o : Option Str}
    {st' : RenderState} (h : rendererRender st c f = (o, st'))
    (ho : o ≠ none) : o = some f ∧ f ∈ st'.files := by
  unfold rendererRender at h
  split at h
  · rename_i hmem
    injection h with h1 h2
    exact ⟨h1.symm, by rw [← h2]; exact hmem⟩
  · split at h <;> split at h <;>
      first
        | (injection h with h1 h2
           exact ⟨h1.symm, by
             rw [← h2]
             exact List.mem_append_right _ (List.mem_cons_self _ _)⟩)
        | (injection h with h1 h2
           exact absurd h1.symm ho)

theorem rendererRender_fresh_fail (st : RenderState) (c f : Str)
    (hfresh : f ∉ st.files)
    (hfail : pureRender
      (if ( validate_mermaid_syntax c).1 then c else fix_mermaid_syntax c) = false) :
    rendererRender st c f = (none, ⟨st.files, st.draws + 1⟩) := by
  unfold rendererRender
  rw [if_neg hfresh, hfail]
  simp

/-- Both render attempts of a block fail when the target file is fresh and
the (possibly fixed) source fails the drawing renderer. -/
theorem processBlock_fail (st : RenderState) (code0 : Str) (n : Nat)
    (hfresh : blockFilename n (pyStrip code0) ∉ st.files)
    (hfail : pureRender
      (if ( validate_mermaid_syntax (pyStrip code0)).1 then pyStrip code0
       else fix_mermaid_syntax (pyStrip code0)) = false) :
    processBlock st code0 n = (⟨none, 2⟩, ⟨st.files, st.draws + 2⟩) := by
  have h1 := rendererRender_fresh_fail st (pyStrip code0)
    (blockFilename n (pyStrip code0)) hfresh hfail
  have h2 := rendererRender_fresh_fail ⟨st.files, st.draws + 1⟩ (pyStrip code0)
    (blockFilename n (pyStrip code0)) hfresh hfail
  simp only [processBlock, h1, h2]

/-- C8: a render request whose target path already exists is returned
as-is without re-rendering; consequently a second processing of the same
block after a successful first run returns the identical path, consumes
one cache-hit call, and leaves the state (in particular the count of
drawing invocations) unchanged. -/
theorem c8_cache_short_circuit (st : RenderState) (code0 : Str) (n : Nat)
    (p : Str) (hsucc : (processBlock st code0 n).1.image? = some p) :
    (∀ st' c f, f ∈ st'.files → rendererRender st' c f = (some f, st')) ∧
    processBlock (processBlock st code0 n).2 code0 n =
      (⟨some p, 1⟩, (processBlock st code0 n).2) := by
  refine ⟨fun st' c f h => rendererRender_hit st' c f h, ?_⟩
  rcases h1 : rendererRender st (pyStrip code0) (blockFilename n (pyStrip code0))
    with ⟨o1, st1⟩
  cases o1 with
  | some q =>
    have hqf := rendererRender_success h1 (by simp)
    simp only [Option.some.injEq] at hqf
    obtain ⟨hq, hf⟩ := hqf
    subst hq
    simp only [processBlock, h1] at hsucc ⊢
    simp only [BlockResult.mk.injEq, Option.some.injEq] at hsucc
    subst hsucc
    rw [rendererRender_hit st1 (pyStrip code0) _ hf]
  | none =>
    rcases h2 : rendererRender st1 (pyStrip code0) (blockFilename n (pyStrip code0))
      with ⟨o2, st2⟩
    cases o2 with
    | some q =>
      have hqf := rendererRender_success h2 (by simp)
      simp only [Option.some.injEq] at hqf
      obtain ⟨hq, hf⟩ := hqf
      subst hq
      simp only [processBlock, h1, h2] at hsucc ⊢
      simp only [BlockResult.mk.injEq, Option.some.injEq] at hsucc
      subst hsucc
      rw [rendererRender_hit st2 (pyStrip code0) _ hf]
    | none =>
      simp only [processBlock, h1, h2] at hsucc
      exact absurd hsucc (by simp)

/-- Witness for C8: a graph block renders successfully into an empty
output directory; re-processing it returns the same path and performs no
further drawing. -/
theorem c8_cache_short_circuit_witness :
    (processBlock ⟨[], 0⟩ ("graph TD\nA-->B".toList) 1).1.image? =
      some (blockFilename 1 ("graph TD\nA-->B".toList)) ∧
    processBlock (processBlock ⟨[], 0⟩ ("graph TD\nA-->B".toList) 1).2
        ("graph TD\nA-->B".toList) 1 =
      (⟨some (blockFilename 1 ("graph TD\nA-->B".toList)), 1⟩,
       (processBlock ⟨[], 0⟩ ("graph TD\nA-->B".toList) 1).2) :=
  ⟨by decide,
   (c8_cache_short_circuit ⟨[], 0⟩ ("graph TD\nA-->B".toList) 1
     (blockFilename 1 ("graph TD\nA-->B".toList)) (by decide)).2⟩

/-- C6, counterexample: the pie source with a missing colon is reported
invalid, the fixer cannot repair it, and the block reaches the fallback
only after consuming both render attempts (and two renderer invocations) —
not zero attempts as claimed. -/
theorem c6_counterexample :
    ( validate_mermaid_syntax ("pie title T\n\"A\" 5".toList)).1 = false ∧
    processBlock ⟨[], 0⟩ ("pie title T\n\"A\" 5".toList) 1 =
      (⟨none, 2⟩, ⟨[], 2⟩) ∧
    (processBlock ⟨[], 0⟩ ("pie title T\n\"A\" 5".toList) 1).1.attempts ≠ 0 := by
  decide

/-- C6, amended: an invalid block is passed through the fixer once and the
fixed source is rendered anyway; when the fixed source still fails the
renderer, the block reaches the fallback after consuming both render
attempts (each invoking the drawing renderer once). -/
theorem c6_amended_invalid_consumes_attempts (st : RenderState) (code0 : Str)
    (n : Nat) (hfresh : blockFilename n (pyStrip code0) ∉ st.files)
    (hinvalid : ( validate_mermaid_syntax (pyStrip code0)).1 = false)
    (hfixfail : pureRender ( fix_mermaid_syntax (pyStrip code0)) = false) :
    processBlock st code0 n = (⟨none, 2⟩, ⟨st.files, st.draws + 2⟩) :=
  processBlock_fail st code0 n hfresh (by rw [hinvalid, if_neg (by simp)]; exact hfixfail)

/-- Witness for the amended C6 on the scenario input. -/
theorem c6_amended_invalid_consumes_attempts_witness :
    blockFilename 1 (pyStrip ("pie title T\n\"A\" 5".toList)) ∉
      (⟨[], 0⟩ : RenderState).files ∧
    ( validate_mermaid_syntax (pyStrip ("pie title T\n\"A\" 5".toList))).1 = false ∧
    processBlock ⟨[], 0⟩ ("pie title T\n\"A\" 5".toList) 1 =
      (⟨none, 2⟩, ⟨[], 2⟩) :=
  ⟨by decide, by decide,
   c6_amended_invalid_consumes_attempts ⟨[], 0⟩ ("pie title T\n\"A\" 5".toList) 1
     (by decide) (by decide) (by decide)⟩

/-- C7, counterexample: a `sequenceDiagram` block passes validation and the
renderer rejects it before any drawing, but the block is retried — the
fallback is reached only after 2 attempts, not immediately with none. -/
theorem c7_counterexample :
    ( validate_mermaid_syntax ("sequenceDiagram\nA->>B: hi".toList)).1 = true ∧
    pureRender ("sequenceDiagram\nA->>B: hi".toList) = false ∧
    processBlock ⟨[], 0⟩ ("sequenceDiagram\nA->>B: hi".toList) 1 =
      (⟨none, 2⟩, ⟨[], 2⟩) ∧
    (processBlock ⟨[], 0⟩ ("sequenceDiagram\nA->>B: hi".toList) 1).1.attempts ≠ 1 := by
  decide

/-- C7, amended: for every block whose stripped source begins with
`sequenceDiagram`, the validator accepts the keyword and the renderer
reports the type unsupported before any parsing or drawing, but the block
reaches the fallback only after the full 2-attempt loop. -/
theorem c7_amended_sequence_unsupported (st : RenderState) (code0 : Str)
    (n : Nat) (tail0 : Str)
    (hseq : pyStrip code0 = ("sequenceDiagram".toList) ++ tail0)
    (hfresh : blockFilename n (pyStrip code0) ∉ st.files) :
    ( validate_mermaid_syntax (pyStrip code0)).1 = true ∧
    pureRender (pyStrip code0) = false ∧
    processBlock st code0 n = (⟨none, 2⟩, ⟨st.files, st.draws + 2⟩) := by
  obtain ⟨p0, ps, hps⟩ := List.exists_cons_of_ne_nil
    (splitOnSub_ne_nil ['\n'] tail0)
  have hsplit : splitLines (("sequenceDiagram".toList) ++ tail0) =
      (("sequenceDiagram".toList) ++ p0) :: ps := by
    unfold splitLines
    rw [splitOnSub_append_left ([] : Str) _ _
      (by decide : ∀ c ∈ ("sequenceDiagram".toList), (c == '\n') = false), hps]
  obtain ⟨p0', hp0'⟩ := pyStrip_append_of (a := ("sequenceDiagram".toList)) p0
    (by decide)
    (by decide : ∀ c ∈ ("sequenceDiagram".toList), isPySpace c = false)
  have hlow : ∀ x : Str, pyLower (("sequenceDiagram".toList) ++ x) =
      ("sequencediagram".toList) ++ pyLower x := by
    intro x
    rw [pyLower_append]
    rfl
  have hpie : ∀ x : Str,
      ("pie".toList).isPrefixOf (("sequencediagram".toList) ++ x) = false := by
    intro x
    rw [show ("sequencediagram".toList) = 's' :: ("equencediagram".toList) from rfl,
      show ("pie".toList) = 'p' :: ("ie".toList) from rfl, List.cons_append]
    simp only [List.isPrefixOf]
    simp [show (('p' : Char) == 's') = false from by decide]
  have hgraph : ∀ x : Str,
      ("graph".toList).isPrefixOf (("sequencediagram".toList) ++ x) = false := by
    intro x
    rw [show ("sequencediagram".toList) = 's' :: ("equencediagram".toList) from rfl,
      show ("graph".toList) = 'g' :: ("raph".toList) from rfl, List.cons_append]
    simp only [List.isPrefixOf]
    simp [show (('g' : Char) == 's') = false from by decide]
  have hflow : ∀ x : Str,
      ("flowchart".toList).isPrefixOf (("sequencediagram".toList) ++ x) = false := by
    intro x
    rw [show ("sequencediagram".toList) = 's' :: ("equencediagram".toList) from rfl,
      show ("flowchart".toList) = 'f' :: ("lowchart".toList) from rfl,
      List.cons_append]
    simp only [List.isPrefixOf]
    simp [show (('f' : Char) == 's') = false from by decide]
  have hgantt : ∀ x : Str,
      ("gantt".toList).isPrefixOf (("sequencediagram".toList) ++ x) = false := by
    intro x
    rw [show ("sequencediagram".toList) = 's' :: ("equencediagram".toList) from rfl,
      show ("gantt".toList) = 'g' :: ("antt".toList) from rfl, List.cons_append]
    simp only [List.isPrefixOf]
    simp [show (('g' : Char) == 's') = false from by decide]
  have hfl : pyLower (pyStrip (("sequenceDiagram".toList) ++ p0)) =
      ("sequencediagram".toList) ++ pyLower p0' := by
    rw [hp0', hlow]
  have hany : (validTypes.any fun t =>
      t.isPrefixOf (("sequencediagram".toList) ++ pyLower p0')) = true := by
    apply List.any_eq_true.mpr
    refine ⟨("sequencediagram".toList), by simp [validTypes], ?_⟩
    exact List.isPrefixOf_iff_prefix.mpr ⟨pyLower p0', rfl⟩
  have hempty : (("sequenceDiagram".toList) ++ tail0).isEmpty = false := rfl
  have hstrip0 : pyStrip (("sequenceDiagram".toList) ++ tail0) =
      ("sequenceDiagram".toList) ++ tail0 := by
    conv_lhs => rw [← hseq]
    rw [pyStrip_idem, hseq]
  have hval : ( validate_mermaid_syntax (pyStrip code0)).1 = true := by
    simp only [ validate_mermaid_syntax, hseq, hstrip0, hsplit, hempty,
      List.headD_cons, hfl, hany, hpie (pyLower p0'), hgraph (pyLower p0'),
      hflow (pyLower p0'), Bool.not_true, Bool.false_eq_true, if_false,
      Bool.or_self]
  have hraw : pyLower (("sequenceDiagram".toList) ++ p0) =
      ("sequencediagram".toList) ++ pyLower p0 := hlow p0
  have hpure : pureRender (pyStrip code0) = false := by
    simp only [pureRender, hseq, hstrip0, hsplit, List.headD_cons, hraw,
      hpie (pyLower p0), hgraph (pyLower p0), hflow (pyLower p0),
      hgantt (pyLower p0), Bool.false_eq_true, if_false, Bool.or_self]
  refine ⟨hval, hpure, ?_⟩
  exact processBlock_fail st code0 n hfresh (by rw [hval, if_pos rfl]; exact hpure)

/-- Witness for the amended C7 on the scenario input. -/
theorem c7_amended_sequence_unsupported_witness :
    pyStrip ("sequenceDiagram\nA->>B: hi".toList) =
      ("sequenceDiagram".toList) ++ ("\nA->>B: hi".toList) ∧
    ( validate_mermaid_syntax (pyStrip ("sequenceDiagram\nA->>B: hi".toList))).1 = true ∧
    pureRender (pyStrip ("sequenceDiagram\nA->>B: hi".toList)) = false ∧
    processBlock ⟨[], 0⟩ ("sequenceDiagram\nA->>B: hi".toList) 1 =
      (⟨none, 2⟩, ⟨[], 2⟩) := by
  refine ⟨by decide, ?_⟩
  have h := c7_amended_sequence_unsupported ⟨[], 0⟩
    ("sequenceDiagram\nA->>B: hi".toList) 1 ("\nA->>B: hi".toList)
    (by decide) (by decide)
  exact h

/-! ## Layout theorems: breadth-first traversal invariants (C1, C2) -/

theorem mem_dedupFold {x : Str × Str} :
    ∀ (l acc : List (Str × Str)), x ∈ l.foldl
      (fun acc p => if p ∈ acc then acc else acc ++ [p]) acc →
      x ∈ acc ∨ x ∈ l := by
  intro l
  induction l with
  | nil => intro acc h; exact Or.inl h
  | cons y t ih =>
    intro acc h
    simp only [List.foldl_cons] at h
    rcases ih _ h with hacc | ht
    · by_cases hy : y ∈ acc
      · rw [if_pos hy] at hacc; exact Or.inl hacc
      · rw [if_neg hy] at hacc
        rcases List.mem_append.mp hacc with h1 | h2
        · exact Or.inl h1
        · simp only [List.mem_singleton] at h2
          exact Or.inr (h2 ▸ List.mem_cons_self _ _)
    · exact Or.inr (List.mem_cons_of_mem _ ht)

theorem gEdges_mem {g : GraphModel} {e : Str × Str} (h : e ∈ gEdges g) :
    e.1 ∈ nodeIds g ∧ e.2 ∈ nodeIds g := by
  unfold gEdges at h
  rcases mem_dedupFold ((g.edges.filter (fun e =>
      (nodeIds g).any (fun n => n == e.1) &&
      (nodeIds g).any (fun n => n == e.2.1))).map
    (fun e => (e.1, e.2.1))) [] h with habs | hmem
  · simp at habs
  · obtain ⟨e', he', heq⟩ := List.mem_map.mp hmem
    have hf := List.of_mem_filter he'
    rw [Bool.and_eq_true] at hf
    obtain ⟨h1, h2⟩ := hf
    obtain ⟨n1, hn1, hb1⟩ := List.any_eq_true.mp h1
    obtain ⟨n2, hn2, hb2⟩ := List.any_eq_true.mp h2
    rw [← heq]
    exact ⟨(beq_iff_eq.mp hb1) ▸ hn1, (beq_iff_eq.mp hb2) ▸ hn2⟩

theorem successors_mem {es : List (Str × Str)} {n x : Str}
    (h : x ∈ successors es n) : (n, x) ∈ es := by
  unfold successors at h
  obtain ⟨e, he, heq⟩ := List.mem_map.mp h
  have hf := List.of_mem_filter he
  have h1 : e.1 = n := beq_iff_eq.mp hf
  have := List.mem_filter.mp he
  rw [← h1, ← heq]
  exact this.1

theorem mem_successors {es : List (Str × Str)} {n x : Str}
    (h : (n, x) ∈ es) : x ∈ successors es n := by
  unfold successors
  refine List.mem_map.mpr ⟨(n, x), ?_, rfl⟩
  exact List.mem_filter.mpr ⟨h, by simp⟩

theorem processNode_eq_or (es : List (Str × Str)) (lvl : Nat)
    (acc : List (Str × Nat) × List Str × List Str) (n : Str) :
    (n ∈ acc.2.1 ∧ processNode es lvl acc n = acc) ∨
    (n ∉ acc.2.1 ∧ processNode es lvl acc n =
      (acc.1 ++ [(n, lvl)], acc.2.1 ++ [n],
       acc.2.2 ++ (successors es n).filter (fun s => s ∉ acc.2.1 ++ [n]))) := by
  unfold processNode
  by_cases h : n ∈ acc.2.1
  · exact Or.inl ⟨h, if_pos h⟩
  · exact Or.inr ⟨h, if_neg h⟩

theorem foldl_visited_mono (es : List (Str × Str)) (lvl : Nat) :
    ∀ (ns : List Str) (acc : List (Str × Nat) × List Str × List Str),
      ∃ w, (ns.foldl (processNode es lvl) acc).2.1 = acc.2.1 ++ w := by
  intro ns
  induction ns with
  | nil => exact fun acc => ⟨[], by simp⟩
  | cons n rest ih =>
    intro acc
    obtain ⟨w2, h2⟩ := ih (processNode es lvl acc n)
    simp only [List.foldl_cons]
    rcases processNode_eq_or es lvl acc n with ⟨-, heq⟩ | ⟨-, heq⟩ <;>
      rw [heq] at h2 ⊢
    · exact ⟨w2, h2⟩
    · dsimp only at h2
      exact ⟨[n] ++ w2, by rw [h2, List.append_assoc]⟩

theorem foldl_levels_mono (es : List (Str × Str)) (lvl : Nat) :
    ∀ (ns : List Str) (acc : List (Str × Nat) × List Str × List Str),
      ∃ w, (ns.foldl (processNode es lvl) acc).1 = acc.1 ++ w := by
  intro ns
  induction ns with
  | nil => exact fun acc => ⟨[], by simp⟩
  | cons n rest ih =>
    intro acc
    obtain ⟨w2, h2⟩ := ih (processNode es lvl acc n)
    simp only [List.foldl_cons]
    rcases processNode_eq_or es lvl acc n with ⟨-, heq⟩ | ⟨-, heq⟩ <;>
      rw [heq] at h2 ⊢
    · exact ⟨w2, h2⟩
    · dsimp only at h2
      exact ⟨[(n, lvl)] ++ w2, by rw [h2, List.append_assoc]⟩

theorem foldl_next_mono (es : List (Str × Str)) (lvl : Nat) :
    ∀ (ns : List Str) (acc : List (Str × Nat) × List Str × List Str),
      ∃ w, (ns.foldl (processNode es lvl) acc).2.2 = acc.2.2 ++ w := by
  intro ns
  induction ns with
  | nil => exact fun acc => ⟨[], by simp⟩
  | cons n rest ih =>
    intro acc
    obtain ⟨w2, h2⟩ := ih (processNode es lvl acc n)
    simp only [List.foldl_cons]
    rcases processNode_eq_or es lvl acc n with ⟨-, heq⟩ | ⟨-, heq⟩ <;>
      rw [heq] at h2 ⊢
    · exact ⟨w2, h2⟩
    · dsimp only at h2
      exact ⟨(successors es n).filter (fun s => decide (s ∉ acc.2.1 ++ [n])) ++ w2,
        by rw [h2, List.append_assoc]⟩

theorem foldl_nodup (es : List (Str × Str)) (lvl : Nat) :
    ∀ (ns : List Str) (acc : List (Str × Nat) × List Str × List Str),
      acc.2.1.Nodup → (ns.foldl (processNode es lvl) acc).2.1.Nodup := by
  intro ns
  induction ns with
  | nil => exact fun acc h => h
  | cons n rest ih =>
    intro acc h
    simp only [List.foldl_cons]
    apply ih
    rcases processNode_eq_or es lvl acc n with ⟨-, heq⟩ | ⟨hn, heq⟩
    · rw [heq]; exact h
    · rw [heq]
      dsimp only
      rw [List.nodup_append]
      refine ⟨h, by simp, fun a ha hb => ?_⟩
      simp only [List.mem_singleton] at hb
      exact hn (hb ▸ ha)

theorem foldl_visited_subset (es : List (Str × Str)) (lvl : Nat) (keys : List Str) :
    ∀ (ns : List Str) (acc : List (Str × Nat) × List Str × List Str),
      (∀ v ∈ acc.2.1, v ∈ keys) → (∀ n ∈ ns, n ∈ keys) →
      ∀ v ∈ (ns.foldl (processNode es lvl) acc).2.1, v ∈ keys := by
  intro ns
  induction ns with
  | nil => exact fun acc h _ => h
  | cons n rest ih =>
    intro acc hacc hns
    simp only [List.foldl_cons]
    apply ih
    · rcases processNode_eq_or es lvl acc n with ⟨-, heq⟩ | ⟨-, heq⟩
      · rw [heq]; exact hacc
      · rw [heq]
        intro v hv
        rcases List.mem_append.mp hv with h1 | h2
        · exact hacc v h1
        · simp only [List.mem_singleton] at h2
          exact h2 ▸ hns n (List.mem_cons_self _ _)
    · exact fun m hm => hns m (List.mem_cons_of_mem _ hm)

theorem foldl_next_subset (es : List (Str × Str)) (lvl : Nat) (keys : List Str)
    (hes : ∀ e ∈ es, e.2 ∈ keys) :
    ∀ (ns : List Str) (acc : List (Str × Nat) × List Str × List Str),
      (∀ v ∈ acc.2.2, v ∈ keys) →
      ∀ v ∈ (ns.foldl (processNode es lvl) acc).2.2, v ∈ keys := by
  intro ns
  induction ns with
  | nil => exact fun acc h => h
  | cons n rest ih =>
    intro acc hacc
    simp only [List.foldl_cons]
    apply ih
    rcases processNode_eq_or es lvl acc n with ⟨-, heq⟩ | ⟨-, heq⟩
    · rw [heq]; exact hacc
    · rw [heq]
      intro v hv
      rcases List.mem_append.mp hv with h1 | h2
      · exact hacc v h1
      · have := List.mem_filter.mp h2
        exact hes (n, v) (successors_mem this.1)

theorem foldl_visited_len_mono (es : List (Str × Str)) (lvl : Nat) :
    ∀ (ns : List Str) (acc : List (Str × Nat) × List Str × List Str),
      acc.2.1.length ≤ (ns.foldl (processNode es lvl) acc).2.1.length := by
  intro ns acc
  obtain ⟨w, hw⟩ := foldl_visited_mono es lvl ns acc
  rw [hw]
  simp

theorem foldl_dicho (es : List (Str × Str)) (lvl : Nat) :
    ∀ (ns : List Str) (acc : List (Str × Nat) × List Str × List Str),
      ns.foldl (processNode es lvl) acc = acc ∨
      acc.2.1.length < (ns.foldl (processNode es lvl) acc).2.1.length := by
  intro ns
  induction ns with
  | nil => exact fun acc => Or.inl rfl
  | cons n rest ih =>
    intro acc
    simp only [List.foldl_cons]
    rcases processNode_eq_or es lvl acc n with ⟨-, heq⟩ | ⟨-, heq⟩
    · rw [heq]; exact ih acc
    · right
      calc acc.2.1.length < (processNode es lvl acc n).2.1.length := by
            rw [heq]; simp
        _ ≤ _ := foldl_visited_len_mono es lvl rest _

theorem foldl_processed (es : List (Str × Str)) (lvl : Nat) :
    ∀ (ns : List Str) (acc : List (Str × Nat) × List Str × List Str),
      ∀ n ∈ ns, n ∈ (ns.foldl (processNode es lvl) acc).2.1 := by
  intro ns
  induction ns with
  | nil => intro acc n h; simp at h
  | cons m rest ih =>
    intro acc n h
    simp only [List.foldl_cons]
    rcases List.mem_cons.mp h with rfl | hr
    · have hmem : n ∈ (processNode es lvl acc n).2.1 := by
        rcases processNode_eq_or es lvl acc n with ⟨hin, heq⟩ | ⟨-, heq⟩
        · rw [heq]; exact hin
        · rw [heq]; exact List.mem_append_right _ (List.mem_cons_self _ _)
      obtain ⟨w, hw⟩ := foldl_visited_mono es lvl rest (processNode es lvl acc n)
      rw [hw]
      exact List.mem_append_left _ hmem
    · exact ih _ n hr

theorem foldl_levelkeys (es : List (Str × Str)) (lvl : Nat) :
    ∀ (ns : List Str) (acc : List (Str × Nat) × List Str × List Str),
      acc.1.map (·.1) = acc.2.1 →
      (ns.foldl (processNode es lvl) acc).1.map (·.1) =
        (ns.foldl (processNode es lvl) acc).2.1 := by
  intro ns
  induction ns with
  | nil => exact fun acc h => h
  | cons n rest ih =>
    intro acc h
    simp only [List.foldl_cons]
    apply ih
    rcases processNode_eq_or es lvl acc n with ⟨-, heq⟩ | ⟨-, heq⟩ <;> rw [heq]
    · exact h
    · dsimp only
      rw [List.map_append, h]
      rfl

theorem foldl_closure (es : List (Str × Str)) (lvl : Nat) :
    ∀ (ns : List Str) (acc : List (Str × Nat) × List Str × List Str),
      (∀ u ∈ acc.2.1, ∀ x, (u, x) ∈ es →
        x ∈ acc.2.1 ∨ x ∈ acc.2.2 ∨ x ∈ ns) →
      ∀ u ∈ (ns.foldl (processNode es lvl) acc).2.1, ∀ x, (u, x) ∈ es →
        x ∈ (ns.foldl (processNode es lvl) acc).2.1 ∨
        x ∈ (ns.foldl (processNode es lvl) acc).2.2 := by
  intro ns
  induction ns with
  | nil =>
    intro acc h u hu x hx
    rcases h u hu x hx with h1 | h2 | h3
    · exact Or.inl h1
    · exact Or.inr h2
    · simp at h3
  | cons n rest ih =>
    intro acc h
    simp only [List.foldl_cons]
    apply ih
    rcases processNode_eq_or es lvl acc n with ⟨hn, heq⟩ | ⟨hn, heq⟩ <;> rw [heq]
    · intro u hu x hx
      rcases h u hu x hx with h1 | h2 | h3
      · exact Or.inl h1
      · exact Or.inr (Or.inl h2)
      · rcases List.mem_cons.mp h3 with rfl | hr
        · exact Or.inl hn
        · exact Or.inr (Or.inr hr)
    · dsimp only
      intro u hu x hx
      rcases List.mem_append.mp hu with hu1 | hu2
      · rcases h u hu1 x hx with h1 | h2 | h3
        · exact Or.inl (List.mem_append_left _ h1)
        · exact Or.inr (Or.inl (List.mem_append_left _ h2))
        · rcases List.mem_cons.mp h3 with rfl | hr
          · exact Or.inl (List.mem_append_right _ (List.mem_cons_self _ _))
          · exact Or.inr (Or.inr hr)
      · simp only [List.mem_singleton] at hu2
        subst hu2
        by_cases hxin : x ∈ acc.2.1 ++ [u]
        · exact Or.inl hxin
        · refine Or.inr (Or.inl (List.mem_append_right _ ?_))
          exact List.mem_filter.mpr ⟨mem_successors hx, by simpa using hxin⟩

theorem foldl_next_pred (es : List (Str × Str)) (lvl : Nat) :
    ∀ (ns : List Str) (acc : List (Str × Nat) × List Str × List Str),
      ∀ x ∈ (ns.foldl (processNode es lvl) acc).2.2,
        x ∈ acc.2.2 ∨ ∃ u, (u, x) ∈ es ∧
          (u, lvl) ∈ (ns.foldl (processNode es lvl) acc).1 := by
  intro ns
  induction ns with
  | nil => exact fun acc x h => Or.inl h
  | cons n rest ih =>
    intro acc x
    simp only [List.foldl_cons]
    intro hx
    rcases processNode_eq_or es lvl acc n with ⟨-, heq⟩ | ⟨-, heq⟩ <;> rw [heq] at hx ⊢
    · exact ih acc x hx
    · rcases ih _ x hx with h1 | ⟨u, hu1, hu2⟩
      · dsimp only at h1
        rcases List.mem_append.mp h1 with h2 | h3
        · exact Or.inl h2
        · refine Or.inr ⟨n, successors_mem (List.mem_filter.mp h3).1, ?_⟩
          obtain ⟨w, hw⟩ := foldl_levels_mono es lvl rest
            (acc.1 ++ [(n, lvl)], acc.2.1 ++ [n],
             acc.2.2 ++ (successors es n).filter (fun s => decide (s ∉ acc.2.1 ++ [n])))
          rw [hw]
          exact List.mem_append_left _ (List.mem_append_right _ (List.mem_cons_self _ _))
      · exact Or.inr ⟨u, hu1, hu2⟩

theorem foldl_entry (es : List (Str × Str)) (lvl : Nat) :
    ∀ (ns : List Str) (acc : List (Str × Nat) × List Str × List Str),
      ∀ p ∈ (ns.foldl (processNode es lvl) acc).1,
        p ∈ acc.1 ∨ (p.1 ∈ ns ∧ p.2 = lvl) := by
  intro ns
  induction ns with
  | nil => exact fun acc p h => Or.inl h
  | cons n rest ih =>
    intro acc p
    simp only [List.foldl_cons]
    intro hp
    rcases processNode_eq_or es lvl acc n with ⟨-, heq⟩ | ⟨-, heq⟩ <;> rw [heq] at hp
    · rcases ih acc p hp with h1 | ⟨h2, h3⟩
      · exact Or.inl h1
      · exact Or.inr ⟨List.mem_cons_of_mem _ h2, h3⟩
    · rcases ih _ p hp with h1 | ⟨h2, h3⟩
      · dsimp only at h1
        rcases List.mem_append.mp h1 with h2 | h3
        · exact Or.inl h2
        · simp only [List.mem_singleton] at h3
          subst h3
          exact Or.inr ⟨List.mem_cons_self _ _, rfl⟩
      · exact Or.inr ⟨List.mem_cons_of_mem _ h2, h3⟩

/-! Loop-level lemmas. -/

theorem bfsLoop_empty (es : List (Str × Str)) (fuel : Nat) (s : BFSState)
    (h : s.current = []) : bfsLoop es fuel s = s := by
  cases fuel with
  | zero => rfl
  | succ f => simp [bfsLoop, h]

theorem bfsLoop_visited_mono (es : List (Str × Str)) :
    ∀ (fuel : Nat) (s : BFSState),
      ∃ w, (bfsLoop es fuel s).visited = s.visited ++ w := by
  intro fuel
  induction fuel with
  | zero => exact fun s => ⟨[], by simp [bfsLoop]⟩
  | succ f ih =>
    intro s
    by_cases h : s.current.isEmpty = true
    · exact ⟨[], by simp [bfsLoop, h]⟩
    · obtain ⟨w1, h1⟩ := ih (bfsStep es s)
      obtain ⟨w2, h2⟩ := foldl_visited_mono es s.levelNum s.current
        (s.levels, s.visited, [])
      refine ⟨w2 ++ w1, ?_⟩
      simp only [bfsLoop, h, if_false, Bool.false_eq_true]
      rw [h1]
      show (bfsStep es s).visited ++ w1 = _
      unfold bfsStep
      dsimp only
      rw [h2]
      simp [List.append_assoc]

theorem bfsLoop_levels_mono (es : List (Str × Str)) :
    ∀ (fuel : Nat) (s : BFSState),
      ∃ w, (bfsLoop es fuel s).levels = s.levels ++ w := by
  intro fuel
  induction fuel with
  | zero => exact fun s => ⟨[], by simp [bfsLoop]⟩
  | succ f ih =>
    intro s
    by_cases h : s.current.isEmpty = true
    · exact ⟨[], by simp [bfsLoop, h]⟩
    · obtain ⟨w1, h1⟩ := ih (bfsStep es s)
      obtain ⟨w2, h2⟩ := foldl_levels_mono es s.levelNum s.current
        (s.levels, s.visited, [])
      refine ⟨w2 ++ w1, ?_⟩
      simp only [bfsLoop, h, if_false, Bool.false_eq_true]
      rw [h1]
      show (bfsStep es s).levels ++ w1 = _
      unfold bfsStep
      dsimp only
      rw [h2]
      simp [List.append_assoc]

theorem nodup_subset_length {l keys : List Str} (hn : l.Nodup)
    (hs : ∀ v ∈ l, v ∈ keys) : l.length ≤ keys.length := by
  calc l.length = l.toFinset.card := (List.toFinset_card_of_nodup hn).symm
    _ ≤ keys.toFinset.card := Finset.card_le_card (fun x hx => by
        rw [List.mem_toFinset] at hx ⊢
        exact hs x hx)
    _ ≤ keys.length := keys.toFinset_card_le

theorem bfsLoop_terminates (es : List (Str × Str)) (keys : List Str)
    (hes : ∀ e ∈ es, e.2 ∈ keys) :
    ∀ (fuel : Nat) (s : BFSState), s.visited.Nodup →
      (∀ v ∈ s.visited, v ∈ keys) → (∀ v ∈ s.current, v ∈ keys) →
      keys.length + 1 ≤ fuel + s.visited.length →
      (bfsLoop es fuel s).current = [] ∧
      (bfsLoop es fuel s).visited.Nodup ∧
      (∀ v ∈ (bfsLoop es fuel s).visited, v ∈ keys) := by
  intro fuel
  induction fuel with
  | zero =>
    intro s hnd hvk _ hb
    exact absurd (nodup_subset_length hnd hvk) (by omega)
  | succ f ih =>
    intro s hnd hvk hck hb
    by_cases h : s.current.isEmpty = true
    · refine ⟨?_, ?_, ?_⟩ <;> simp only [bfsLoop, h, if_true]
      · exact List.isEmpty_iff.mp h
      · exact hnd
      · exact hvk
    · simp only [bfsLoop, h, if_false, Bool.false_eq_true]
      have hnd' : (bfsStep es s).visited.Nodup :=
        foldl_nodup es s.levelNum s.current (s.levels, s.visited, []) hnd
      have hvk' : ∀ v ∈ (bfsStep es s).visited, v ∈ keys :=
        foldl_visited_subset es s.levelNum keys s.current
          (s.levels, s.visited, []) hvk hck
      have hck' : ∀ v ∈ (bfsStep es s).current, v ∈ keys :=
        foldl_next_subset es s.levelNum keys hes s.current
          (s.levels, s.visited, []) (by intro v hv; simp at hv)
      rcases foldl_dicho es s.levelNum s.current (s.levels, s.visited, [])
        with heq | hlt
      · have hcur : (bfsStep es s).current = [] := by
          show (s.current.foldl (processNode es s.levelNum)
            (s.levels, s.visited, [])).2.2 = []
          rw [heq]
        rw [bfsLoop_empty es f _ hcur]
        exact ⟨hcur, hnd', hvk'⟩
      · exact ih (bfsStep es s) hnd' hvk' hck' (by
          have : s.visited.length + 1 ≤ (bfsStep es s).visited.length := hlt
          omega)

theorem bfsLoop_levelkeys (es : List (Str × Str)) :
    ∀ (fuel : Nat) (s : BFSState), s.levels.map (·.1) = s.visited →
      (bfsLoop es fuel s).levels.map (·.1) = (bfsLoop es fuel s).visited := by
  intro fuel
  induction fuel with
  | zero => exact fun s h => h
  | succ f ih =>
    intro s h
    by_cases hc : s.current.isEmpty = true
    · simpa only [bfsLoop, hc, if_true] using h
    · simp only [bfsLoop, hc, if_false, Bool.false_eq_true]
      exact ih _ (foldl_levelkeys es s.levelNum s.current (s.levels, s.visited, []) h)

/-- The facts established about the final traversal state: the work list
has emptied (the fuel `|V| + 1` is sufficient, i.e. the `while` loop
terminates), the visited set is duplicate-free, contained in the node set,
and hence holds at most `|V|` entries, and the levels dict enumerates
exactly the visited nodes. -/
theorem bfsFinal_spec (g : GraphModel) :
    (bfsFinal g).current = [] ∧
    (bfsFinal g).visited.Nodup ∧
    (∀ v ∈ (bfsFinal g).visited, v ∈ nodeIds g) ∧
    (bfsFinal g).visited.length ≤ g.nodes.length ∧
    (bfsFinal g).levels.map (·.1) = (bfsFinal g).visited := by
  have hes : ∀ e ∈ gEdges g, e.2 ∈ nodeIds g := fun e he => (gEdges_mem he).2
  have hinit : ∀ v ∈ (bfsInit g).current, v ∈ nodeIds g := by
    unfold bfsInit
    dsimp only
    split
    · exact fun v hv => (nodeIds g).take_subset 1 hv
    · exact fun v hv => List.mem_of_mem_filter hv
  have hkeys : (nodeIds g).length = g.nodes.length := List.length_map _ _
  have h := bfsLoop_terminates (gEdges g) (nodeIds g) hes
    (g.nodes.length + 1) (bfsInit g) (by simp [bfsInit]) (by simp [bfsInit])
    hinit (by simp [bfsInit, hkeys])
  refine ⟨h.1, h.2.1, h.2.2, ?_, ?_⟩
  · rw [← hkeys]
    exact nodup_subset_length h.2.1 h.2.2
  · exact bfsLoop_levelkeys (gEdges g) (g.nodes.length + 1) (bfsInit g)
      (by simp [bfsInit])

theorem levelsOf_keys (g : GraphModel) :
    (levelsOf g).map (·.1) = (bfsFinal g).visited ++
      (nodeIds g).filter
        (fun n => !((bfsFinal g).levels.any (fun p => p.1 == n))) := by
  unfold levelsOf
  rw [List.map_append, (bfsFinal_spec g).2.2.2.2, List.map_map]
  congr 1
  show List.map (fun n => n) _ = _
  simp

theorem levels_any_iff (g : GraphModel) (n : Str) :
    ((bfsFinal g).levels.any (fun p => p.1 == n)) = true ↔
      n ∈ (bfsFinal g).visited := by
  rw [← (bfsFinal_spec g).2.2.2.2]
  constructor
  · intro h
    obtain ⟨p, hp, hb⟩ := List.any_eq_true.mp h
    exact (beq_iff_eq.mp hb) ▸ List.mem_map_of_mem _ hp
  · intro h
    obtain ⟨p, hp, hq⟩ := List.mem_map.mp h
    exact List.any_eq_true.mpr ⟨p, hp, by simp [hq]⟩

/-- C2: for every graph model the breadth-first level assignment, run with
the visited-set guard, terminates — with fuel `|V| + 1` the work list is
exhausted, and at most `|V|` nodes are ever visited, each at most once —
and for a non-empty model (with well-formed, duplicate-free node ids) the
layout assigns every node exactly one coordinate pair. -/
theorem c2_termination_and_coverage (g : GraphModel)
    (hnodup : (nodeIds g).Nodup) :
    (bfsFinal g).current = [] ∧
    (bfsFinal g).visited.Nodup ∧
    (bfsFinal g).visited.length ≤ g.nodes.length ∧
    (∀ vertical : Bool, g.nodes ≠ [] →
      ((hierarchical_layout g vertical).map (·.1)).Nodup ∧
      (∀ n, n ∈ (hierarchical_layout g vertical).map (·.1) ↔ n ∈ nodeIds g)) := by
  obtain ⟨hcur, hnd, hsub, hlen, hJ⟩ := bfsFinal_spec g
  have hkeysOf := levelsOf_keys g
  have hkeysNodup : ((levelsOf g).map (·.1)).Nodup := by
    rw [hkeysOf, List.nodup_append]
    refine ⟨hnd, hnodup.filter _, fun a ha hb => ?_⟩
    have hcond := List.of_mem_filter hb
    rw [Bool.not_eq_true'] at hcond
    rw [← levels_any_iff g a] at ha
    rw [ha] at hcond
    simp at hcond
  have hmemIff : ∀ n, n ∈ (levelsOf g).map (·.1) ↔ n ∈ nodeIds g := by
    intro n
    rw [hkeysOf, List.mem_append]
    constructor
    · rintro (h1 | h2)
      · exact hsub n h1
      · exact List.mem_of_mem_filter h2
    · intro h
      by_cases hv : n ∈ (bfsFinal g).visited
      · exact Or.inl hv
      · refine Or.inr (List.mem_filter.mpr ⟨h, ?_⟩)
        dsimp only
        cases hany : ((bfsFinal g).levels.any (fun p => p.1 == n)) with
        | false => rfl
        | true => exact absurd ((levels_any_iff g n).mp hany) hv
  have hlkeys : ∀ vertical : Bool,
      (hierPos g vertical).map (·.1) = (levelsOf g).map (·.1) := by
    intro vertical
    simp only [hierPos]
    rw [List.map_map]
    rfl
  refine ⟨hcur, hnd, hlen, ?_⟩
  intro vertical hne
  have hne' : g.nodes.isEmpty = false := by
    cases hn : g.nodes with
    | nil => exact absurd hn hne
    | cons a l => rfl
  have hlay : hierarchical_layout g vertical = hierPos g vertical := by
    simp only [hierarchical_layout, hne', Bool.false_eq_true, if_false]
  constructor
  · rw [hlay, hlkeys vertical]
    exact hkeysNodup
  · intro n
    rw [hlay, hlkeys vertical]
    exact hmemIff n

/-- C2 witness: the cyclic two-node graph `A --> B --> A` (no in-degree-0
node, so the first node seeds the traversal): the loop terminates with
both nodes visited once. -/
theorem c2_termination_and_coverage_witness :
    (bfsFinal (parseGraph ("graph TD\nA-->B\nB-->A".toList))).current = [] ∧
    (bfsFinal (parseGraph ("graph TD\nA-->B\nB-->A".toList))).visited.length ≤
      (parseGraph ("graph TD\nA-->B\nB-->A".toList)).nodes.length :=
  ⟨(c2_termination_and_coverage _ (by decide)).1,
   (c2_termination_and_coverage _ (by decide)).2.2.1⟩

/-! Lemmas for the level-assignment claim C1. -/

theorem init_le_foldl_max : ∀ (l : List Nat) (b : Nat), b ≤ l.foldl max b := by
  intro l
  induction l with
  | nil => exact fun b => le_refl b
  | cons x xs ih => exact fun b => le_trans (le_max_left b x) (ih (max b x))

theorem le_foldl_max : ∀ (l : List Nat), ∀ a ∈ l, ∀ b : Nat, a ≤ l.foldl max b := by
  intro l
  induction l with
  | nil => intro a ha; simp at ha
  | cons x xs ih =>
    intro a ha b
    simp only [List.foldl_cons]
    rcases List.mem_cons.mp ha with rfl | h
    · exact le_trans (le_max_right b a) (init_le_foldl_max xs (max b a))
    · exact ih a h (max b x)

theorem acyclic_spec {g : GraphModel} (h : acyclic g = true) :
    ∀ S : List Str, S.Sublist (nodeIds g) → S ≠ [] →
      ∃ n ∈ S, ∀ u ∈ S, (u, n) ∉ gEdges g := by
  intro S hS hne
  rw [acyclic, List.all_eq_true] at h
  have hthis := h S (List.mem_sublists.mpr hS)
  simp only [Bool.or_eq_true] at hthis
  rcases hthis with h1 | h2
  · exact absurd (List.isEmpty_iff.mp h1) hne
  · obtain ⟨n, hn, hall⟩ := List.any_eq_true.mp h2
    refine ⟨n, hn, fun u hu => ?_⟩
    have h3 := List.all_eq_true.mp hall u hu
    simp only [Bool.not_eq_true', decide_eq_false_iff_not] at h3
    exact h3

/-- One step preserves the parent-level invariant: every levels entry with
a positive level has a predecessor entered at the previous level, and
every node of the work list will get such a predecessor. -/
theorem bfsStep_K (es : List (Str × Str)) (s : BFSState)
    (hK : ∀ p ∈ s.levels, 0 < p.2 →
      ∃ u, (u, p.1) ∈ es ∧ (u, p.2 - 1) ∈ s.levels)
    (hC : ∀ x ∈ s.current, 0 < s.levelNum →
      ∃ u, (u, x) ∈ es ∧ (u, s.levelNum - 1) ∈ s.levels) :
    (∀ p ∈ (bfsStep es s).levels, 0 < p.2 →
      ∃ u, (u, p.1) ∈ es ∧ (u, p.2 - 1) ∈ (bfsStep es s).levels) ∧
    (∀ x ∈ (bfsStep es s).current, 0 < (bfsStep es s).levelNum →
      ∃ u, (u, x) ∈ es ∧
        (u, (bfsStep es s).levelNum - 1) ∈ (bfsStep es s).levels) := by
  obtain ⟨w, hw⟩ := foldl_levels_mono es s.levelNum s.current
    (s.levels, s.visited, [])
  have hlev : (bfsStep es s).levels = s.levels ++ w := hw
  constructor
  · intro p hp hpos
    have hp' : p ∈ (s.current.foldl (processNode es s.levelNum)
        (s.levels, s.visited, [])).1 := hp
    rcases foldl_entry es s.levelNum s.current (s.levels, s.visited, []) p hp'
      with hold | ⟨hcur, hlvl⟩
    · obtain ⟨u, hu1, hu2⟩ := hK p hold hpos
      refine ⟨u, hu1, ?_⟩
      rw [hlev]
      exact List.mem_append_left _ hu2
    · obtain ⟨u, hu1, hu2⟩ := hC p.1 hcur (hlvl ▸ hpos)
      refine ⟨u, hu1, ?_⟩
      rw [hlev, hlvl]
      exact List.mem_append_left _ hu2
  · intro x hx hpos
    have hx' : x ∈ (s.current.foldl (processNode es s.levelNum)
        (s.levels, s.visited, [])).2.2 := hx
    rcases foldl_next_pred es s.levelNum s.current (s.levels, s.visited, []) x hx'
      with habs | ⟨u, hu1, hu2⟩
    · simp at habs
    · exact ⟨u, hu1, hu2⟩

theorem bfsLoop_K (es : List (Str × Str)) :
    ∀ (fuel : Nat) (s : BFSState),
      (∀ p ∈ s.levels, 0 < p.2 →
        ∃ u, (u, p.1) ∈ es ∧ (u, p.2 - 1) ∈ s.levels) →
      (∀ x ∈ s.current, 0 < s.levelNum →
        ∃ u, (u, x) ∈ es ∧ (u, s.levelNum - 1) ∈ s.levels) →
      ∀ p ∈ (bfsLoop es fuel s).levels, 0 < p.2 →
        ∃ u, (u, p.1) ∈ es ∧ (u, p.2 - 1) ∈ (bfsLoop es fuel s).levels := by
  intro fuel
  induction fuel with
  | zero => exact fun s hK _ => hK
  | succ f ih =>
    intro s hK hC
    by_cases h : s.current.isEmpty = true
    · simpa only [bfsLoop, h, if_true] using hK
    · simp only [bfsLoop, h, if_false, Bool.false_eq_true]
      exact ih _ (bfsStep_K es s hK hC).1 (bfsStep_K es s hK hC).2

theorem bfsFinal_K (g : GraphModel) :
    ∀ p ∈ (bfsFinal g).levels, 0 < p.2 →
      ∃ u, (u, p.1) ∈ gEdges g ∧ (u, p.2 - 1) ∈ (bfsFinal g).levels :=
  bfsLoop_K (gEdges g) (g.nodes.length + 1) (bfsInit g)
    (by intro p hp; simp [bfsInit] at hp)
    (by intro x hx hpos; simp [bfsInit] at hpos)

theorem bfsLoop_closure (es : List (Str × Str)) :
    ∀ (fuel : Nat) (s : BFSState),
      (∀ u ∈ s.visited, ∀ x, (u, x) ∈ es → x ∈ s.visited ∨ x ∈ s.current) →
      ∀ u ∈ (bfsLoop es fuel s).visited, ∀ x, (u, x) ∈ es →
        x ∈ (bfsLoop es fuel s).visited ∨ x ∈ (bfsLoop es fuel s).current := by
  intro fuel
  induction fuel with
  | zero => exact fun s h => h
  | succ f ih =>
    intro s h
    by_cases hc : s.current.isEmpty = true
    · simpa only [bfsLoop, hc, if_true] using h
    · simp only [bfsLoop, hc, if_false, Bool.false_eq_true]
      apply ih
      intro u hu x hx
      have hu' : u ∈ (s.current.foldl (processNode es s.levelNum)
          (s.levels, s.visited, [])).2.1 := hu
      rcases foldl_closure es s.levelNum s.current (s.levels, s.visited, [])
        (fun u hu x hx => by
          rcases h u hu x hx with h1 | h2
          · exact Or.inl h1
          · exact Or.inr (Or.inr h2)) u hu' x hx with h1 | h2
      · exact Or.inl h1
      · exact Or.inr h2

theorem bfsLoop_current_visited (es : List (Str × Str)) :
    ∀ (fuel : Nat) (s : BFSState), ∀ x ∈ s.current,
      x ∈ (bfsLoop es fuel s).visited ∨ x ∈ (bfsLoop es fuel s).current := by
  intro fuel
  induction fuel with
  | zero => exact fun s x hx => Or.inr hx
  | succ f ih =>
    intro s x hx
    by_cases hc : s.current.isEmpty = true
    · simp only [bfsLoop, hc, if_true]
      exact Or.inr hx
    · simp only [bfsLoop, hc, if_false, Bool.false_eq_true]
      have hv : x ∈ (bfsStep es s).visited :=
        foldl_processed es s.levelNum s.current (s.levels, s.visited, []) x hx
      obtain ⟨w, hw⟩ := bfsLoop_visited_mono es f (bfsStep es s)
      exact Or.inl (by rw [hw]; exact List.mem_append_left _ hv)

theorem bfsFinal_closed (g : GraphModel) :
    ∀ u ∈ (bfsFinal g).visited, ∀ x, (u, x) ∈ gEdges g →
      x ∈ (bfsFinal g).visited := by
  intro u hu x hx
  rcases bfsLoop_closure (gEdges g) (g.nodes.length + 1) (bfsInit g)
    (by intro u hu x hx; simp [bfsInit] at hu) u hu x hx with h1 | h2
  · exact h1
  · have h2' : x ∈ (bfsFinal g).current := h2
    rw [(bfsFinal_spec g).1] at h2'
    simp at h2'

theorem bfsFinal_roots (g : GraphModel) :
    ∀ x ∈ (bfsInit g).current, x ∈ (bfsFinal g).visited := by
  intro x hx
  rcases bfsLoop_current_visited (gEdges g) (g.nodes.length + 1) (bfsInit g) x hx
    with h1 | h2
  · exact h1
  · have h2' : x ∈ (bfsFinal g).current := h2
    rw [(bfsFinal_spec g).1] at h2'
    simp at h2'

theorem inDegree_pos {es : List (Str × Str)} {n : Str}
    (h : 0 < inDegree es n) : ∃ u, (u, n) ∈ es := by
  unfold inDegree at h
  rw [List.length_pos] at h
  obtain ⟨e, he⟩ := List.exists_mem_of_ne_nil _ h
  have hmem := List.mem_of_mem_filter he
  have hcond := List.of_mem_filter he
  have he2 : e.2 = n := beq_iff_eq.mp hcond
  refine ⟨e.1, ?_⟩
  rw [← he2, Prod.mk.eta]
  exact hmem

theorem acyclic_all_visited (g : GraphModel) (hacyc : acyclic g = true) :
    ∀ n ∈ nodeIds g, n ∈ (bfsFinal g).visited := by
  by_contra hcon
  push_neg at hcon
  obtain ⟨n0, hn0, hnv⟩ := hcon
  have hUsub : ((nodeIds g).filter
      (fun n => !decide (n ∈ (bfsFinal g).visited))).Sublist (nodeIds g) :=
    List.filter_sublist _
  have hUne : (nodeIds g).filter
      (fun n => !decide (n ∈ (bfsFinal g).visited)) ≠ [] := by
    intro habs
    have hmem0 : n0 ∈ (nodeIds g).filter
        (fun n => !decide (n ∈ (bfsFinal g).visited)) :=
      List.mem_filter.mpr ⟨hn0, by simp [hnv]⟩
    rw [habs] at hmem0
    simp at hmem0
  obtain ⟨m, hmU, hmin⟩ := acyclic_spec hacyc _ hUsub hUne
  have hmkeys : m ∈ nodeIds g := List.mem_of_mem_filter hmU
  have hmnv : m ∉ (bfsFinal g).visited := by
    have hc := List.of_mem_filter hmU
    simp only [Bool.not_eq_true', decide_eq_false_iff_not] at hc
    exact hc
  by_cases hdeg : inDegree (gEdges g) m = 0
  · have hroot : m ∈ (nodeIds g).filter
        (fun n => inDegree (gEdges g) n == 0) :=
      List.mem_filter.mpr ⟨hmkeys, by simp [hdeg]⟩
    have hne2 : ¬(((nodeIds g).filter
        (fun n => inDegree (gEdges g) n == 0)).isEmpty = true) := by
      intro habs
      rw [List.isEmpty_iff] at habs
      rw [habs] at hroot
      simp at hroot
    have hcur : m ∈ (bfsInit g).current := by
      unfold bfsInit
      dsimp only
      rw [if_neg hne2]
      exact hroot
    exact hmnv (bfsFinal_roots g m hcur)
  · obtain ⟨u, hu⟩ := inDegree_pos (Nat.pos_of_ne_zero hdeg)
    by_cases huv : u ∈ (bfsFinal g).visited
    · exact hmnv (bfsFinal_closed g u huv m hu)
    · have huU : u ∈ (nodeIds g).filter
          (fun n => !decide (n ∈ (bfsFinal g).visited)) :=
        List.mem_filter.mpr ⟨(gEdges_mem hu).1, by simp [huv]⟩
      exact hmin u huU hu

theorem levelsOf_eq_of_all_visited (g : GraphModel)
    (h : ∀ n ∈ nodeIds g, n ∈ (bfsFinal g).visited) :
    levelsOf g = (bfsFinal g).levels := by
  unfold levelsOf
  dsimp only
  have hfil : (nodeIds g).filter
      (fun n => !((bfsFinal g).levels.any (fun p => p.1 == n))) = [] := by
    rw [List.filter_eq_nil_iff]
    intro n hn habs
    simp only [Bool.not_eq_true'] at habs
    rw [(levels_any_iff g n).mpr (h n hn)] at habs
    simp at habs
  rw [hfil]
  simp

/-- C1 counterexample: the acyclic diamond `A-->B, B-->C, C-->D, A-->D`.
The breadth-first layering assigns `C` level 2 and `D` level 1, yet
`C --> D` is an edge: the level does NOT strictly increase along every
edge of an acyclic model. -/
theorem c1_counterexample :
    acyclic (parseGraph ("graph TD\nA-->B\nB-->C\nC-->D\nA-->D".toList)) = true ∧
    ("C".toList, "D".toList) ∈
      gEdges (parseGraph ("graph TD\nA-->B\nB-->C\nC-->D\nA-->D".toList)) ∧
    ("C".toList, 2) ∈
      levelsOf (parseGraph ("graph TD\nA-->B\nB-->C\nC-->D\nA-->D".toList)) ∧
    ("D".toList, 1) ∈
      levelsOf (parseGraph ("graph TD\nA-->B\nB-->C\nC-->D\nA-->D".toList)) ∧
    ¬(2 < 1) := by decide

/-- C1 (amended): for an acyclic model every assigned level lies in
`[0, maxLevel]`, and the layering is a breadth-first (shortest-path) one:
every node assigned a positive level has at least one predecessor assigned
exactly the previous level. (Strict increase along every edge fails, see
the counterexample.) -/
theorem c1_bfs_layering (g : GraphModel) (hacyc : acyclic g = true) :
    (∀ p ∈ levelsOf g, p.2 ≤ maxLevel (levelsOf g)) ∧
    (∀ p ∈ levelsOf g, 0 < p.2 →
      ∃ u, (u, p.1) ∈ gEdges g ∧ (u, p.2 - 1) ∈ levelsOf g) := by
  have heq := levelsOf_eq_of_all_visited g (acyclic_all_visited g hacyc)
  constructor
  · intro p hp
    exact le_foldl_max _ p.2 (List.mem_map_of_mem _ hp) 0
  · rw [heq]
    exact bfsFinal_K g

/-- C1 witness: on the diamond graph, node `D` (level 1) indeed has a
predecessor at level 0. -/
theorem c1_bfs_layering_witness :
    acyclic (parseGraph ("graph TD\nA-->B\nB-->C\nC-->D\nA-->D".toList)) = true ∧
    (∃ u, (u, "D".toList) ∈
        gEdges (parseGraph ("graph TD\nA-->B\nB-->C\nC-->D\nA-->D".toList)) ∧
      (u, 0) ∈
        levelsOf (parseGraph ("graph TD\nA-->B\nB-->C\nC-->D\nA-->D".toList))) :=
  ⟨by decide,
   (c1_bfs_layering _ (by decide)).2 ("D".toList, 1) (by decide) (by decide)⟩

/-! Lemmas for the viewport claim C9. -/

theorem idxOf_lt_length {n : Str} : ∀ {l : List Str}, n ∈ l → idxOf n l < l.length := by
  intro l
  induction l with
  | nil => intro h; simp at h
  | cons m ms ih =>
    intro h
    by_cases hm : (m == n) = true
    · have heq : idxOf n (m :: ms) = 0 := by
        show (if m == n then 0 else idxOf n ms + 1) = 0
        rw [if_pos hm]
      rw [heq]
      exact Nat.succ_pos _
    · have hn : n ∈ ms := by
        rcases List.mem_cons.mp h with rfl | h2
        · simp at hm
        · exact h2
      have heq : idxOf n (m :: ms) = idxOf n ms + 1 := by
        show (if m == n then 0 else idxOf n ms + 1) = _
        rw [if_neg hm]
      rw [heq, List.length_cons]
      exact Nat.succ_lt_succ (ih hn)

theorem posOf_bounds (vertical : Bool) (maxL l i k : Nat)
    (hl : l ≤ maxL) (hik : i < k) (hk : k ≤ 3) :
    -(3/10 : ℚ) ≤ (posOf vertical maxL l i k).1 ∧
    (posOf vertical maxL l i k).1 ≤ 13/10 ∧
    -(3/10 : ℚ) ≤ (posOf vertical maxL l i k).2 ∧
    (posOf vertical maxL l i k).2 ≤ 13/10 := by
  have hi0 : (0:ℚ) ≤ (i:ℚ) := Nat.cast_nonneg i
  have hik' : (i:ℚ) ≤ (k:ℚ) - 1 := by
    have h1 : (i:ℚ) + 1 ≤ (k:ℚ) := by exact_mod_cast hik
    linarith
  have hk3 : (k:ℚ) ≤ 3 := by exact_mod_cast hk
  have hC1 : -(3/10 : ℚ) ≤ ((i:ℚ) - ((k:ℚ) - 1)/2) * (3/10) := by nlinarith
  have hC2 : ((i:ℚ) - ((k:ℚ) - 1)/2) * (3/10) ≤ 3/10 := by nlinarith
  have hpos : (0:ℚ) < max (maxL:ℚ) 1 := lt_of_lt_of_le one_pos (le_max_right _ _)
  have hle : (l:ℚ) ≤ max (maxL:ℚ) 1 :=
    le_trans (by exact_mod_cast hl) (le_max_left _ _)
  have hM1 : (0:ℚ) ≤ ((l:ℚ) / max (maxL:ℚ) 1) * (8/10) :=
    mul_nonneg (div_nonneg (Nat.cast_nonneg l) (le_of_lt hpos)) (by norm_num)
  have hM2 : ((l:ℚ) / max (maxL:ℚ) 1) * (8/10) ≤ 8/10 := by
    have hdiv : (l:ℚ) / max (maxL:ℚ) 1 ≤ 1 := (div_le_one hpos).mpr hle
    nlinarith
  cases vertical with
  | true =>
    refine ⟨?_, ?_, ?_, ?_⟩
    · show -(3/10 : ℚ) ≤ ((i:ℚ) - ((k:ℚ) - 1)/2) * (3/10)
      exact hC1
    · show ((i:ℚ) - ((k:ℚ) - 1)/2) * (3/10) ≤ 13/10
      linarith
    · show -(3/10 : ℚ) ≤ 1 - ((l:ℚ) / max (maxL:ℚ) 1) * (8/10)
      linarith
    · show 1 - ((l:ℚ) / max (maxL:ℚ) 1) * (8/10) ≤ 13/10
      linarith
  | false =>
    refine ⟨?_, ?_, ?_, ?_⟩
    · show -(3/10 : ℚ) ≤ ((l:ℚ) / max (maxL:ℚ) 1) * (8/10)
      linarith
    · show ((l:ℚ) / max (maxL:ℚ) 1) * (8/10) ≤ 13/10
      linarith
    · show -(3/10 : ℚ) ≤ ((i:ℚ) - ((k:ℚ) - 1)/2) * (3/10)
      exact hC1
    · show ((i:ℚ) - ((k:ℚ) - 1)/2) * (3/10) ≤ 13/10
      linarith

/-- C9 counterexample: the fan-in graph `A-->E, B-->E, C-->E, D-->E` puts
four root nodes on level 0; node `A` receives cross-axis coordinate
`(0 - (4-1)/2) * 0.3 = -9/20`, strictly outside the declared viewport
bound `-0.3`. -/
theorem c9_counterexample :
    ((("A".toList : Str), (-(9:ℚ)/20, (1:ℚ))) ∈
      hierarchical_layout
        (parseGraph ("graph TD\nA-->E\nB-->E\nC-->E\nD-->E".toList)) true) ∧
    (-(9:ℚ)/20 < -(3:ℚ)/10) := by
  constructor
  · have hne : (parseGraph ("graph TD\nA-->E\nB-->E\nC-->E\nD-->E".toList)).nodes.isEmpty
        = false := by decide
    have hq : (("A".toList : Str), (0 : Nat)) ∈
        levelsOf (parseGraph ("graph TD\nA-->E\nB-->E\nC-->E\nD-->E".toList)) := by
      decide
    have hml : maxLevel
        (levelsOf (parseGraph ("graph TD\nA-->E\nB-->E\nC-->E\nD-->E".toList))) = 1 := by
      decide
    have hidx : idxOf ("A".toList)
        (levelNodes
          (levelsOf (parseGraph ("graph TD\nA-->E\nB-->E\nC-->E\nD-->E".toList))) 0)
        = 0 := by decide
    have hlen : (levelNodes
        (levelsOf (parseGraph ("graph TD\nA-->E\nB-->E\nC-->E\nD-->E".toList))) 0).length
        = 4 := by decide
    simp only [hierarchical_layout, hne, Bool.false_eq_true, if_false, hierPos]
    refine List.mem_map.mpr ⟨(("A".toList : Str), (0 : Nat)), hq, ?_⟩
    dsimp only
    rw [hml, hidx, hlen]
    norm_num [posOf, Prod.mk.injEq]
  · norm_num

theorem posOf_main_bounds (vertical : Bool) (maxL l i k : Nat)
    (hl : l ≤ maxL) :
    if vertical then
      (1/5 : ℚ) ≤ (posOf vertical maxL l i k).2 ∧
        (posOf vertical maxL l i k).2 ≤ 1
    else
      (0 : ℚ) ≤ (posOf vertical maxL l i k).1 ∧
        (posOf vertical maxL l i k).1 ≤ 4/5 := by
  have hpos : (0:ℚ) < max (maxL:ℚ) 1 := lt_of_lt_of_le one_pos (le_max_right _ _)
  have hle : (l:ℚ) ≤ max (maxL:ℚ) 1 :=
    le_trans (by exact_mod_cast hl) (le_max_left _ _)
  have hM1 : (0:ℚ) ≤ ((l:ℚ) / max (maxL:ℚ) 1) * (8/10) :=
    mul_nonneg (div_nonneg (Nat.cast_nonneg l) (le_of_lt hpos)) (by norm_num)
  have hM2 : ((l:ℚ) / max (maxL:ℚ) 1) * (8/10) ≤ 8/10 := by
    have hdiv : (l:ℚ) / max (maxL:ℚ) 1 ≤ 1 := (div_le_one hpos).mpr hle
    nlinarith
  cases vertical with
  | true =>
    rw [if_pos rfl]
    constructor
    · show (1/5 : ℚ) ≤ 1 - ((l:ℚ) / max (maxL:ℚ) 1) * (8/10)
      linarith
    · show 1 - ((l:ℚ) / max (maxL:ℚ) 1) * (8/10) ≤ 1
      linarith
  | false =>
    rw [if_neg (by simp)]
    constructor
    · show (0 : ℚ) ≤ ((l:ℚ) / max (maxL:ℚ) 1) * (8/10)
      exact hM1
    · show ((l:ℚ) / max (maxL:ℚ) 1) * (8/10) ≤ 4/5
      linarith

/-- C9 (amended): every coordinate produced by the layout is a finite
rational; the main-axis coordinate always lies inside the viewport
(`[0.2, 1.0]` for the vertical layout, `[0, 0.8]` for the horizontal
one), unconditionally; and both coordinates lie inside the declared
viewport `[-0.3, 1.3]` provided every level holds at most 3 nodes. (With
4 or more nodes on one level the cross-axis coordinate escapes the
viewport, see the counterexample.) -/
theorem c9_viewport_bounds (g : GraphModel) (vertical : Bool) :
    (∀ p ∈ hierarchical_layout g vertical,
      if vertical then (1/5 : ℚ) ≤ p.2.2 ∧ p.2.2 ≤ 1
      else (0 : ℚ) ≤ p.2.1 ∧ p.2.1 ≤ 4/5) ∧
    ((∀ l, (levelNodes (levelsOf g) l).length ≤ 3) →
      ∀ p ∈ hierarchical_layout g vertical,
        -(3/10 : ℚ) ≤ p.2.1 ∧ p.2.1 ≤ 13/10 ∧
        -(3/10 : ℚ) ≤ p.2.2 ∧ p.2.2 ≤ 13/10) := by
  constructor
  · intro p hp
    unfold hierarchical_layout at hp
    split at hp
    · simp at hp
    · simp only [hierPos] at hp
      obtain ⟨q, hq, hpq⟩ := List.mem_map.mp hp
      have hl : q.2 ≤ maxLevel (levelsOf g) :=
        le_foldl_max _ q.2 (List.mem_map_of_mem _ hq) 0
      have hb := posOf_main_bounds vertical (maxLevel (levelsOf g)) q.2
        (idxOf q.1 (levelNodes (levelsOf g) q.2))
        ((levelNodes (levelsOf g) q.2).length) hl
      rw [← hpq]
      dsimp only
      exact hb
  · intro hsmall p hp
    unfold hierarchical_layout at hp
    split at hp
    · simp at hp
    · simp only [hierPos] at hp
      obtain ⟨q, hq, hpq⟩ := List.mem_map.mp hp
      have hmem : q.1 ∈ levelNodes (levelsOf g) q.2 := by
        unfold levelNodes
        exact List.mem_map_of_mem _ (List.mem_filter.mpr ⟨hq, by simp⟩)
      have hik : idxOf q.1 (levelNodes (levelsOf g) q.2) <
          (levelNodes (levelsOf g) q.2).length := idxOf_lt_length hmem
      have hl : q.2 ≤ maxLevel (levelsOf g) :=
        le_foldl_max _ q.2 (List.mem_map_of_mem _ hq) 0
      have hb := posOf_bounds vertical (maxLevel (levelsOf g)) q.2
        (idxOf q.1 (levelNodes (levelsOf g) q.2))
        ((levelNodes (levelsOf g) q.2).length) hl hik (hsmall q.2)
      rw [← hpq]
      dsimp only
      exact hb

/-- C9 witness: the chain `A-->B-->C` (one node per level) satisfies the
small-level hypothesis, and its node `A` is placed at `(0, 1)`, inside the
viewport. -/
theorem c9_viewport_bounds_witness :
    ((("A".toList : Str), ((0:ℚ), (1:ℚ))) ∈
      hierarchical_layout (parseGraph ("graph TD\nA-->B\nB-->C".toList)) true) ∧
    ((1/5 : ℚ) ≤ ((0:ℚ), (1:ℚ)).2 ∧ ((0:ℚ), (1:ℚ)).2 ≤ 1) ∧
    (-(3/10 : ℚ) ≤ ((0:ℚ), (1:ℚ)).1 ∧ ((0:ℚ), (1:ℚ)).1 ≤ 13/10 ∧
     -(3/10 : ℚ) ≤ ((0:ℚ), (1:ℚ)).2 ∧ ((0:ℚ), (1:ℚ)).2 ≤ 13/10) := by
  have hsm : ∀ l, (levelNodes
      (levelsOf (parseGraph ("graph TD\nA-->B\nB-->C".toList))) l).length ≤ 3 := by
    intro l
    have h1 : (levelNodes
        (levelsOf (parseGraph ("graph TD\nA-->B\nB-->C".toList))) l).length =
        ((levelsOf (parseGraph ("graph TD\nA-->B\nB-->C".toList))).filter
          (fun p => p.2 == l)).length := by
      unfold levelNodes
      rw [List.length_map]
    have h2 := List.length_filter_le (fun p : Str × Nat => p.2 == l)
      (levelsOf (parseGraph ("graph TD\nA-->B\nB-->C".toList)))
    have h3 : (levelsOf (parseGraph ("graph TD\nA-->B\nB-->C".toList))).length = 3 := by
      decide
    omega
  have hmem : (("A".toList : Str), ((0:ℚ), (1:ℚ))) ∈
      hierarchical_layout (parseGraph ("graph TD\nA-->B\nB-->C".toList)) true := by
    have hne : (parseGraph ("graph TD\nA-->B\nB-->C".toList)).nodes.isEmpty = false := by
      decide
    have hq : (("A".toList : Str), (0 : Nat)) ∈
        levelsOf (parseGraph ("graph TD\nA-->B\nB-->C".toList)) := by decide
    have hml : maxLevel (levelsOf (parseGraph ("graph TD\nA-->B\nB-->C".toList))) = 2 := by
      decide
    have hidx : idxOf ("A".toList)
        (levelNodes (levelsOf (parseGraph ("graph TD\nA-->B\nB-->C".toList))) 0) = 0 := by
      decide
    have hlen : (levelNodes
        (levelsOf (parseGraph ("graph TD\nA-->B\nB-->C".toList))) 0).length = 1 := by
      decide
    simp only [hierarchical_layout, hne, Bool.false_eq_true, if_false, hierPos]
    refine List.mem_map.mpr ⟨(("A".toList : Str), (0 : Nat)), hq, ?_⟩
    dsimp only
    rw [hml, hidx, hlen]
    norm_num [posOf, Prod.mk.injEq]
  have hmain := (c9_viewport_bounds _ true).1 _ hmem
  rw [if_pos rfl] at hmain
  exact ⟨hmem, hmain, (c9_viewport_bounds _ true).2 hsm _ hmem⟩

/-! Lemmas for the fixer idempotence claim C5: arrow-substitution
stability. -/

theorem ws_not_arrowL {c : Char} (h : isPySpace c = true) : isArrowL c = false := by
  rcases isPySpace_cases h with rfl | rfl | rfl | rfl | rfl | rfl <;> decide

theorem ws_not_arrowR {c : Char} (h : isPySpace c = true) : isArrowR c = false := by
  rcases isPySpace_cases h with rfl | rfl | rfl | rfl | rfl | rfl <;> decide

theorem arrowR_not_ws {c : Char} (h : isArrowR c = true) : isPySpace c = false := by
  cases hw : isPySpace c with
  | false => rfl
  | true => rw [ws_not_arrowR hw] at h; simp at h

theorem stabF_congr (a : Char) (ar : Str) :
    ∀ (n : Nat) (s : Str) (f1 f2 : Nat), s.length ≤ n → s.length ≤ f1 →
      s.length ≤ f2 → stabF a ar f1 s = stabF a ar f2 s := by
  intro n
  induction n with
  | zero =>
    intro s f1 f2 h _ _
    obtain rfl : s = [] := List.length_eq_zero.mp (Nat.le_zero.mp h)
    cases f1 <;> cases f2 <;> rfl
  | succ n ih =>
    intro s f1 f2 hn h1 h2
    cases s with
    | nil => cases f1 <;> cases f2 <;> rfl
    | cons c rest =>
      simp only [List.length_cons] at hn h1 h2
      obtain ⟨f1', rfl⟩ : ∃ k, f1 = k + 1 := ⟨f1 - 1, by omega⟩
      obtain ⟨f2', rfl⟩ : ∃ k, f2 = k + 1 := ⟨f2 - 1, by omega⟩
      simp only [stabF]
      by_cases hL : isArrowL c = true
      · rw [if_pos hL, if_pos hL]
        cases htt : tryTail (a :: ar) rest with
        | some p =>
          have hlt := @tryTail_length _ _ _ p.1 p.2 (by rw [htt])
          dsimp only
          rw [ih p.2 f1' f2' (by omega) (by omega) (by omega)]
        | none =>
          dsimp only
          rw [ih rest f1' f2' (by omega) (by omega) (by omega)]
      · rw [if_neg hL, if_neg hL, ih rest f1' f2' (by omega) (by omega) (by omega)]

theorem stab_nil (a : Char) (ar : Str) : stab a ar [] = true := rfl

theorem stab_cons (a : Char) (ar : Str) (c : Char) (rest : Str) :
    stab a ar (c :: rest) =
      if isArrowL c then
        match tryTail (a :: ar) rest with
        | some p =>
          decide (rest = ' ' :: ((a :: ar) ++ (' ' :: p.1 :: p.2))) &&
            stab a ar p.2
        | none => stab a ar rest
      else stab a ar rest := by
  show stabF a ar (c :: rest).length (c :: rest) = _
  simp only [List.length_cons, stabF]
  by_cases hL : isArrowL c = true
  · rw [if_pos hL, if_pos hL]
    cases htt : tryTail (a :: ar) rest with
    | some p =>
      have hlt := @tryTail_length _ _ _ p.1 p.2 (by rw [htt])
      dsimp only
      have hc : stabF a ar rest.length p.2 = stabF a ar p.2.length p.2 :=
        stabF_congr a ar rest.length p.2 rest.length p.2.length
          (by omega) (by omega) (by omega)
      rw [hc]
      rfl
    | none => rfl
  · rw [if_neg hL, if_neg hL]
    rfl

theorem stab_cons_skip (a : Char) (ar : Str) {c : Char} (h : isArrowL c = false)
    (v : Str) : stab a ar (c :: v) = stab a ar v := by
  rw [stab_cons, if_neg (by simp [h])]

theorem stab_append_skip (a : Char) (ar : Str) :
    ∀ {u : Str}, (∀ x ∈ u, isArrowL x = false) → ∀ v,
      stab a ar (u ++ v) = stab a ar v := by
  intro u
  induction u with
  | nil => intro _ v; rfl
  | cons x t ih =>
    intro h v
    rw [List.cons_append, stab_cons_skip a ar (h x (List.mem_cons_self x t)),
      ih (fun y hy => h y (List.mem_cons_of_mem x hy)) v]

theorem subArrow_cons_copy (a : Char) (ar : Str) {c : Char}
    (h : isArrowL c = false) (v : Str) :
    subArrow a ar (c :: v) = c :: subArrow a ar v := by
  rw [subArrow_cons, if_neg (by simp [h])]

theorem subArrow_append_copy (a : Char) (ar : Str) :
    ∀ {u : Str}, (∀ x ∈ u, isArrowL x = false) → ∀ v,
      subArrow a ar (u ++ v) = u ++ subArrow a ar v := by
  intro u
  induction u with
  | nil => intro _ v; rfl
  | cons x t ih =>
    intro h v
    rw [List.cons_append, subArrow_cons_copy a ar (h x (List.mem_cons_self x t)),
      ih (fun y hy => h y (List.mem_cons_of_mem x hy)) v, List.cons_append]

theorem subArrow_head (a : Char) (ar : Str) (c : Char) (rest : Str) :
    ∃ t, subArrow a ar (c :: rest) = c :: t := by
  rw [subArrow_cons]
  by_cases hL : isArrowL c = true
  · rw [if_pos hL]
    cases tryTail (a :: ar) rest with
    | some p => exact ⟨_, rfl⟩
    | none => exact ⟨_, rfl⟩
  · rw [if_neg hL]
    exact ⟨_, rfl⟩

theorem isPrefixOf_subArrow_false (a : Char) (ar : Str) :
    ∀ (B : Str), (∀ x ∈ B, isArrowL x = false) →
      ∀ t, B.isPrefixOf t = false → B.isPrefixOf (subArrow a ar t) = false := by
  intro B
  induction B with
  | nil => intro _ t h; simp [List.isPrefixOf] at h
  | cons b B' ih =>
    intro hB t h
    cases t with
    | nil => rw [subArrow_nil]; exact h
    | cons d t' =>
      simp only [List.isPrefixOf] at h
      by_cases hbd : (b == d) = true
      · have hb : b = d := beq_iff_eq.mp hbd
        subst hb
        rw [beq_self_eq_true, Bool.true_and] at h
        rw [subArrow_cons_copy a ar (hB b (List.mem_cons_self b B')) t']
        simp only [List.isPrefixOf, beq_self_eq_true, Bool.true_and]
        exact ih (fun y hy => hB y (List.mem_cons_of_mem b hy)) t' h
      · have hbd' : (b == d) = false := by
          cases hx : (b == d) with
          | false => rfl
          | true => exact absurd hx hbd
        obtain ⟨t2, ht2⟩ := subArrow_head a ar d t'
        rw [ht2]
        simp only [List.isPrefixOf]
        rw [hbd', Bool.false_and]

theorem subArrow_dropWhile (b : Char) (br : Str) (s : Str) :
    (subArrow b br s).dropWhile isPySpace =
      subArrow b br (s.dropWhile isPySpace) := by
  have hsplit : s = s.takeWhile isPySpace ++ s.dropWhile isPySpace :=
    (List.takeWhile_append_dropWhile ..).symm
  have hts : ∀ x ∈ s.takeWhile isPySpace, isArrowL x = false :=
    fun x hx => ws_not_arrowL (List.mem_takeWhile_imp hx)
  conv_lhs => rw [hsplit]
  rw [subArrow_append_copy b br hts,
    dropWhile_append_all (fun x hx => List.mem_takeWhile_imp hx)]
  cases hD : s.dropWhile isPySpace with
  | nil => rw [subArrow_nil]; rfl
  | cons d D' =>
    obtain ⟨t, ht⟩ := subArrow_head b br d D'
    rw [ht]
    apply dropWhile_eq_self_of
    intro x hx
    simp only [List.head?_cons, Option.mem_def, Option.some.injEq] at hx
    subst hx
    have hh := head?_dropWhile_not isPySpace s
    rw [hD] at hh
    exact hh d (by simp)

theorem tryTail_some_arrowR {arrow s : Str} {c2 : Char} {r : Str}
    (h : tryTail arrow s = some (c2, r)) : isArrowR c2 = true := by
  unfold tryTail at h
  split at h
  case isFalse => simp at h
  case isTrue =>
    split at h
    case h_2 => simp at h
    case h_1 c r' heq =>
      split at h
      case isFalse => simp at h
      case isTrue hR =>
        simp only [Option.some.injEq, Prod.mk.injEq] at h
        obtain ⟨rfl, rfl⟩ := h
        exact hR

theorem tryTail_decomp {a : Char} {ar s : Str} {c2 : Char} {r : Str}
    (h : tryTail (a :: ar) s = some (c2, r)) :
    ∃ u1 u2, s = u1 ++ ((a :: ar) ++ (u2 ++ c2 :: r)) ∧
      (∀ x ∈ u1, isPySpace x = true) ∧ (∀ x ∈ u2, isPySpace x = true) ∧
      isArrowR c2 = true := by
  unfold tryTail at h
  split at h
  case isFalse => simp at h
  case isTrue hpre =>
    split at h
    case h_2 => simp at h
    case h_1 c r' heq =>
      split at h
      case isFalse => simp at h
      case isTrue hR =>
        simp only [Option.some.injEq, Prod.mk.injEq] at h
        obtain ⟨rfl, rfl⟩ := h
        refine ⟨s.takeWhile isPySpace,
          ((s.dropWhile isPySpace).drop (a :: ar).length).takeWhile isPySpace,
          ?_, fun x hx => List.mem_takeWhile_imp hx,
          fun x hx => List.mem_takeWhile_imp hx, hR⟩
        have h2 : s.dropWhile isPySpace =
            (a :: ar) ++ (s.dropWhile isPySpace).drop (a :: ar).length := by
          obtain ⟨t, ht⟩ := List.isPrefixOf_iff_prefix.mp hpre
          rw [← ht, List.drop_left]
        have h3 : (s.dropWhile isPySpace).drop (a :: ar).length =
            ((s.dropWhile isPySpace).drop (a :: ar).length).takeWhile isPySpace ++
            (c :: r') := by
          conv_lhs => rw [← List.takeWhile_append_dropWhile (p := isPySpace)
            (l := (s.dropWhile isPySpace).drop (a :: ar).length)]
          rw [heq]
        have ht0 : s = s.takeWhile isPySpace ++ s.dropWhile isPySpace :=
          (List.takeWhile_append_dropWhile ..).symm
        conv_lhs => rw [ht0, h2, h3]

theorem tryTail_canonical (a : Char) (ar : Str) {c2 : Char} (w : Str)
    (ha : isPySpace a = false) (hc2R : isArrowR c2 = true) :
    tryTail (a :: ar) (' ' :: ((a :: ar) ++ (' ' :: c2 :: w))) = some (c2, w) := by
  unfold tryTail
  have hdw : (' ' :: ((a :: ar) ++ (' ' :: c2 :: w))).dropWhile isPySpace =
      (a :: ar) ++ (' ' :: c2 :: w) := by
    rw [List.dropWhile_cons, if_pos (by decide), List.cons_append,
      List.dropWhile_cons, if_neg (by simp [ha]), ← List.cons_append]
  rw [hdw, if_pos (List.isPrefixOf_iff_prefix.mpr ⟨_, rfl⟩), List.drop_left,
    List.dropWhile_cons, if_pos (by decide),
    dropWhile_eq_self_of (fun x hx => by
      simp only [List.head?_cons, Option.mem_def, Option.some.injEq] at hx
      subst hx
      exact arrowR_not_ws hc2R)]
  show (if isArrowR c2 = true then some (c2, w) else none) = some (c2, w)
  rw [if_pos hc2R]

theorem tryTail_none_sub {a : Char} {ar : Str} (b : Char) (br : Str) {rest : Str}
    (hA : ∀ x ∈ a :: ar, isArrowL x = false)
    (h : tryTail (a :: ar) rest = none) :
    tryTail (a :: ar) (subArrow b br rest) = none := by
  have hcomm : (subArrow b br rest).dropWhile isPySpace =
      subArrow b br (rest.dropWhile isPySpace) := subArrow_dropWhile b br rest
  unfold tryTail at h ⊢
  by_cases hpre : (a :: ar).isPrefixOf (rest.dropWhile isPySpace) = true
  · rw [if_pos hpre] at h
    obtain ⟨t, ht⟩ := List.isPrefixOf_iff_prefix.mp hpre
    have hsub : subArrow b br (rest.dropWhile isPySpace) =
        (a :: ar) ++ subArrow b br t := by
      rw [← ht, subArrow_append_copy b br hA t]
    rw [hcomm, hsub, if_pos (List.isPrefixOf_iff_prefix.mpr ⟨_, rfl⟩),
      List.drop_left]
    rw [← ht, List.drop_left] at h
    rw [subArrow_dropWhile b br t]
    cases hE : t.dropWhile isPySpace with
    | nil => rw [subArrow_nil]
    | cons e E' =>
      rw [hE] at h
      have h' : (if isArrowR e = true then some (e, E') else none) = none := h
      have he : isArrowR e = false := by
        cases hy : isArrowR e with
        | false => rfl
        | true => rw [if_pos hy] at h'; simp at h'
      obtain ⟨t2, ht2⟩ := subArrow_head b br e E'
      rw [ht2]
      show (if isArrowR e = true then some (e, t2) else none) = none
      rw [if_neg (by simp [he])]
  · have hpre' : (a :: ar).isPrefixOf (rest.dropWhile isPySpace) = false := by
      cases hx : (a :: ar).isPrefixOf (rest.dropWhile isPySpace) with
      | false => rfl
      | true => exact absurd hx hpre
    rw [hcomm, if_neg (by
      rw [isPrefixOf_subArrow_false b br (a :: ar) hA _ hpre']
      simp)]

/-- A stable string is a fixed point of the substitution. -/
theorem subArrow_eq_of_stab (a : Char) (ar : Str) :
    ∀ (n : Nat) (s : Str), s.length ≤ n → stab a ar s = true →
      subArrow a ar s = s := by
  intro n
  induction n with
  | zero =>
    intro s h _
    obtain rfl : s = [] := List.length_eq_zero.mp (Nat.le_zero.mp h)
    rfl
  | succ n ih =>
    intro s hn hst
    cases s with
    | nil => rfl
    | cons c rest =>
      simp only [List.length_cons] at hn
      rw [stab_cons] at hst
      rw [subArrow_cons]
      by_cases hL : isArrowL c = true
      · rw [if_pos hL] at hst ⊢
        cases htt : tryTail (a :: ar) rest with
        | some p =>
          rw [htt] at hst
          dsimp only at hst
          rw [Bool.and_eq_true] at hst
          obtain ⟨hcanon, hstp⟩ := hst
          have hceq : rest = ' ' :: ((a :: ar) ++ (' ' :: p.1 :: p.2)) :=
            of_decide_eq_true hcanon
          have hlt := @tryTail_length _ _ _ p.1 p.2 (by rw [htt])
          dsimp only
          rw [ih p.2 (by omega) hstp, hceq]
        | none =>
          rw [htt] at hst
          dsimp only at hst ⊢
          rw [ih rest (by omega) hst]
      · rw [if_neg hL] at hst ⊢
        rw [ih rest (by omega) hst]

/-- The substitution's output is stable: running it again changes
nothing. -/
theorem stab_subArrow (a : Char) (ar : Str)
    (hA : ∀ x ∈ a :: ar, isArrowL x = false) (ha : isPySpace a = false) :
    ∀ (n : Nat) (s : Str), s.length ≤ n →
      stab a ar (subArrow a ar s) = true := by
  intro n
  induction n with
  | zero =>
    intro s h
    obtain rfl : s = [] := List.length_eq_zero.mp (Nat.le_zero.mp h)
    rfl
  | succ n ih =>
    intro s hn
    cases s with
    | nil => rfl
    | cons c rest =>
      simp only [List.length_cons] at hn
      rw [subArrow_cons]
      by_cases hL : isArrowL c = true
      · rw [if_pos hL]
        cases htt : tryTail (a :: ar) rest with
        | some p =>
          dsimp only
          rw [stab_cons, if_pos hL,
            tryTail_canonical a ar (subArrow a ar p.2) ha
              (@tryTail_some_arrowR (a :: ar) rest _ _ (by rw [htt]))]
          dsimp only
          rw [Bool.and_eq_true]
          have hlt := @tryTail_length _ _ _ p.1 p.2 (by rw [htt])
          exact ⟨by simp, ih p.2 (by omega)⟩
        | none =>
          dsimp only
          rw [stab_cons, if_pos hL, tryTail_none_sub a ar hA htt]
          exact ih rest (by omega)
      · rw [if_neg hL]
        rw [stab_cons_skip a ar (by
          cases hx : isArrowL c with
          | false => rfl
          | true => exact absurd hx hL)]
        exact ih rest (by omega)

/-- At one site the two arrow patterns are mutually exclusive: a
successful `--` match forces the character after `--` to be whitespace or
a `\2` character, never the `>` that `-->` would need. -/
theorem tryTail_two_excl {rest : Str} {q : Char × Str}
    (h : tryTail ('-' :: ['-']) rest = some q) :
    tryTail ('-' :: ['-', '>']) rest = none := by
  obtain ⟨u1, u2, hdec, hu1, hu2, hqR⟩ :=
    @tryTail_decomp _ _ _ q.1 q.2 (by rw [h])
  unfold tryTail
  have hdw : rest.dropWhile isPySpace = '-' :: ('-' :: (u2 ++ q.1 :: q.2)) := by
    rw [hdec, dropWhile_append_all hu1]
    show List.dropWhile isPySpace ('-' :: ('-' :: (u2 ++ q.1 :: q.2))) = _
    rw [List.dropWhile_cons, if_neg (by decide)]
  rw [hdw]
  have hnp : ¬(('-' :: ['-', '>']).isPrefixOf
      ('-' :: ('-' :: (u2 ++ q.1 :: q.2))) = true) := by
    intro hcontra
    simp only [List.isPrefixOf, beq_self_eq_true, Bool.true_and] at hcontra
    cases hu2c : u2 with
    | nil =>
      rw [hu2c, List.nil_append] at hcontra
      obtain ⟨t, ht⟩ := List.isPrefixOf_iff_prefix.mp hcontra
      injection ht with h1 h2
      rw [← h1] at hqR
      exact absurd hqR (by decide)
    | cons y u2' =>
      rw [hu2c, List.cons_append] at hcontra
      obtain ⟨t, ht⟩ := List.isPrefixOf_iff_prefix.mp hcontra
      injection ht with h1 h2
      have hy := hu2 y (by rw [hu2c]; exact List.mem_cons_self _ _)
      rw [← h1] at hy
      exact absurd hy (by decide)
  rw [if_neg hnp]

/-- Inside a stable string, stability continues at the `\2` character of a
`--` match site (the leading whitespace and arrow characters are all
skipped by the scan). -/
theorem stab_skip_site {q1 : Char} {q2 u1 u2 p2 : Str}
    (hdec : p2 = u1 ++ (('-' :: ['-']) ++ (u2 ++ q1 :: q2)))
    (hu1 : ∀ x ∈ u1, isPySpace x = true) (hu2 : ∀ x ∈ u2, isPySpace x = true)
    (hstp2 : stab '-' ['-', '>'] p2 = true) :
    stab '-' ['-', '>'] (q1 :: q2) = true := by
  have hseg : ∀ x ∈ u1 ++ (('-' :: ['-']) ++ u2), isArrowL x = false := by
    intro x hx
    rcases List.mem_append.mp hx with hx1 | hx2
    · exact ws_not_arrowL (hu1 x hx1)
    · rcases List.mem_append.mp hx2 with hx3 | hx4
      · rcases List.mem_cons.mp hx3 with rfl | h5
        · decide
        · have hx6 : x = '-' := by simpa using h5
          rw [hx6]
          decide
      · exact ws_not_arrowL (hu2 x hx4)
  rw [hdec, show u1 ++ (('-' :: ['-']) ++ (u2 ++ q1 :: q2))
      = (u1 ++ (('-' :: ['-']) ++ u2)) ++ (q1 :: q2) from by
        simp [List.append_assoc]] at hstp2
  rw [stab_append_skip _ _ hseg] at hstp2
  exact hstp2

/-- Stability under the `-->` substitution is preserved by the `--`
substitution. -/
theorem cross_stab :
    ∀ (n : Nat) (v : Str), v.length ≤ n →
      (stab '-' ['-', '>'] v = true →
        stab '-' ['-', '>'] (subArrow '-' ['-'] v) = true) ∧
      (∀ d : Char, stab '-' ['-', '>'] (d :: v) = true →
        stab '-' ['-', '>'] (d :: subArrow '-' ['-'] v) = true) := by
  intro n
  induction n with
  | zero =>
    intro v hv
    obtain rfl : v = [] := List.length_eq_zero.mp (Nat.le_zero.mp hv)
    exact ⟨fun h => h, fun d h => h⟩
  | succ n ih =>
    have core : ∀ (p1 : Char) (p2 : Str), p2.length ≤ n → isArrowR p1 = true →
        stab '-' ['-', '>'] p2 = true →
        ∃ w2, subArrow '-' ['-']
            (' ' :: (('-' :: ['-', '>']) ++ (' ' :: p1 :: p2))) =
            ' ' :: (('-' :: ['-', '>']) ++ (' ' :: p1 :: w2)) ∧
          stab '-' ['-', '>'] w2 = true := by
      intro p1 p2 hp2 hp1R hstp2
      have hF1 : subArrow '-' ['-']
          (' ' :: (('-' :: ['-', '>']) ++ (' ' :: p1 :: p2))) =
          [' ', '-', '-', '>', ' '] ++ subArrow '-' ['-'] (p1 :: p2) := by
        have hshape : (' ' :: (('-' :: ['-', '>']) ++ (' ' :: p1 :: p2)))
            = [' ', '-', '-', '>', ' '] ++ (p1 :: p2) := rfl
        rw [hshape, subArrow_append_copy _ _ (by decide)]
      by_cases hLp1 : isArrowL p1 = true
      · cases htt2 : tryTail ('-' :: ['-']) p2 with
        | none =>
          refine ⟨subArrow '-' ['-'] p2, ?_, (ih p2 hp2).1 hstp2⟩
          rw [hF1, subArrow_cons, if_pos hLp1, htt2]
          rfl
        | some q =>
          obtain ⟨u1, u2, hdec, hu1, hu2, hqR⟩ :=
            @tryTail_decomp _ _ _ q.1 q.2 (by rw [htt2])
          have hlt := @tryTail_length _ _ _ q.1 q.2 (by rw [htt2])
          refine ⟨' ' :: (('-' :: ['-']) ++
            (' ' :: q.1 :: subArrow '-' ['-'] q.2)), ?_, ?_⟩
          · rw [hF1, subArrow_cons, if_pos hLp1, htt2]
            rfl
          · have hsk : (' ' :: (('-' :: ['-']) ++
                (' ' :: q.1 :: subArrow '-' ['-'] q.2)))
                = [' ', '-', '-', ' '] ++ (q.1 :: subArrow '-' ['-'] q.2) := rfl
            rw [hsk, stab_append_skip _ _ (by decide)]
            exact (ih q.2 (by omega)).2 q.1 (stab_skip_site hdec hu1 hu2 hstp2)
      · have hLp1' : isArrowL p1 = false := by
          cases hx : isArrowL p1 with
          | false => rfl
          | true => exact absurd hx hLp1
        refine ⟨subArrow '-' ['-'] p2, ?_, (ih p2 hp2).1 hstp2⟩
        rw [hF1, subArrow_cons_copy _ _ hLp1']
        rfl
    have main : ∀ v : Str, v.length ≤ n + 1 →
        stab '-' ['-', '>'] v = true →
        stab '-' ['-', '>'] (subArrow '-' ['-'] v) = true := by
      intro v hv hst
      cases v with
      | nil => exact hst
      | cons c rest =>
        simp only [List.length_cons] at hv
        by_cases hL : isArrowL c = true
        · cases htt2 : tryTail ('-' :: ['-']) rest with
          | some q =>
            rw [stab_cons, if_pos hL, tryTail_two_excl htt2] at hst
            dsimp only at hst
            rw [subArrow_cons, if_pos hL, htt2]
            dsimp only
            rw [stab_cons, if_pos hL]
            have hnone : tryTail ('-' :: ['-', '>'])
                (' ' :: (('-' :: ['-']) ++
                  (' ' :: q.1 :: subArrow '-' ['-'] q.2))) = none := rfl
            rw [hnone]
            dsimp only
            have hsk : (' ' :: (('-' :: ['-']) ++
                (' ' :: q.1 :: subArrow '-' ['-'] q.2)))
                = [' ', '-', '-', ' '] ++ (q.1 :: subArrow '-' ['-'] q.2) := rfl
            rw [hsk, stab_append_skip _ _ (by decide)]
            obtain ⟨u1, u2, hdec, hu1, hu2, hqR⟩ :=
              @tryTail_decomp _ _ _ q.1 q.2 (by rw [htt2])
            have hlt := @tryTail_length _ _ _ q.1 q.2 (by rw [htt2])
            exact (ih q.2 (by omega)).2 q.1 (stab_skip_site hdec hu1 hu2 hst)
          | none =>
            rw [subArrow_cons, if_pos hL, htt2]
            dsimp only
            rw [stab_cons, if_pos hL]
            cases htt1 : tryTail ('-' :: ['-', '>']) rest with
            | none =>
              rw [stab_cons, if_pos hL, htt1] at hst
              dsimp only at hst
              rw [tryTail_none_sub '-' ['-'] (by decide) htt1]
              dsimp only
              exact (ih rest (by omega)).1 hst
            | some p =>
              rw [stab_cons, if_pos hL, htt1] at hst
              dsimp only at hst
              rw [Bool.and_eq_true] at hst
              obtain ⟨hcanon, hstp⟩ := hst
              have hceq : rest = ' ' ::
                  (('-' :: ['-', '>']) ++ (' ' :: p.1 :: p.2)) :=
                of_decide_eq_true hcanon
              have hlt := @tryTail_length _ _ _ p.1 p.2 (by rw [htt1])
              obtain ⟨w2, hw2eq, hw2st⟩ := core p.1 p.2 (by omega)
                (tryTail_some_arrowR (by rw [htt1])) hstp
              rw [hceq, hw2eq, tryTail_canonical '-' ['-', '>'] w2 (by decide)
                (@tryTail_some_arrowR ('-' :: ['-', '>']) _ _ _ (by rw [htt1]))]
              dsimp only
              rw [Bool.and_eq_true]
              exact ⟨by simp, hw2st⟩
        · have hL' : isArrowL c = false := by
            cases hx : isArrowL c with
            | false => rfl
            | true => exact absurd hx hL
          rw [stab_cons_skip _ _ hL'] at hst
          rw [subArrow_cons_copy _ _ hL', stab_cons_skip _ _ hL']
          exact (ih rest (by omega)).1 hst
    have aux : ∀ (d : Char) (v : Str), v.length ≤ n + 1 →
        stab '-' ['-', '>'] (d :: v) = true →
        stab '-' ['-', '>'] (d :: subArrow '-' ['-'] v) = true := by
      intro d v hv hst
      by_cases hLd : isArrowL d = true
      · cases htt1 : tryTail ('-' :: ['-', '>']) v with
        | none =>
          rw [stab_cons, if_pos hLd, htt1] at hst
          dsimp only at hst
          rw [stab_cons, if_pos hLd, tryTail_none_sub '-' ['-'] (by decide) htt1]
          dsimp only
          exact main v hv hst
        | some p =>
          rw [stab_cons, if_pos hLd, htt1] at hst
          dsimp only at hst
          rw [Bool.and_eq_true] at hst
          obtain ⟨hcanon, hstp⟩ := hst
          have hceq : v = ' ' :: (('-' :: ['-', '>']) ++ (' ' :: p.1 :: p.2)) :=
            of_decide_eq_true hcanon
          have hlt := @tryTail_length _ _ _ p.1 p.2 (by rw [htt1])
          obtain ⟨w2, hw2eq, hw2st⟩ := core p.1 p.2 (by omega)
            (tryTail_some_arrowR (by rw [htt1])) hstp
          rw [stab_cons, if_pos hLd, hceq, hw2eq,
            tryTail_canonical '-' ['-', '>'] w2 (by decide)
              (@tryTail_some_arrowR ('-' :: ['-', '>']) _ _ _ (by rw [htt1]))]
          dsimp only
          rw [Bool.and_eq_true]
          exact ⟨by simp, hw2st⟩
      · have hLd' : isArrowL d = false := by
          cases hx : isArrowL d with
          | false => rfl
          | true => exact absurd hx hLd
        rw [stab_cons_skip _ _ hLd'] at hst
        rw [stab_cons_skip _ _ hLd']
        exact main v hv hst
    intro v hv
    exact ⟨main v hv, fun d => aux d v hv⟩

/-! The whitespace-run alignment relation and transfer of stability. -/

theorem WsRel_refl : ∀ s : Str, WsRel s s := by
  intro s
  induction s with
  | nil => exact WsRel.nil
  | cons c t ih =>
    cases hw : isPySpace c with
    | false => exact WsRel.cons hw ih
    | true =>
      have hr : WsRel ([c] ++ t) ([c] ++ t) :=
        WsRel.run (by simp) (by simp)
          (by intro x hx; rw [List.mem_singleton] at hx; subst hx; exact hw)
          (by intro x hx; rw [List.mem_singleton] at hx; subst hx; exact hw)
          (Or.inl rfl) ih
      simpa using hr

theorem WsRel_append {z1 w1 z2 w2 : Str} (h1 : WsRel z1 w1) (h2 : WsRel z2 w2) :
    WsRel (z1 ++ z2) (w1 ++ w2) := by
  induction h1 with
  | nil => exact h2
  | cons hc _ ih => exact WsRel.cons hc ih
  | run hr hs hrw hsw hcond _ ih =>
    rw [List.append_assoc, List.append_assoc]
    exact WsRel.run hr hs hrw hsw hcond ih

theorem WsRel_nil_iff {z w : Str} (h : WsRel z w) : z = [] ↔ w = [] := by
  cases h with
  | nil => simp
  | cons _ _ => simp
  | run hr hs _ _ _ _ =>
    constructor
    · intro hx
      exact absurd (List.append_eq_nil.mp hx).1 hr
    · intro hx
      exact absurd (List.append_eq_nil.mp hx).1 hs

theorem WsRel_cons_nonws {a w : Str} (h : WsRel a w) :
    ∀ {c : Char} {z : Str}, a = c :: z → isPySpace c = false →
      ∃ w', w = c :: w' ∧ WsRel z w' := by
  cases h with
  | nil => intro c z hEq _; simp at hEq
  | cons hc' h' =>
    intro c z hEq hcns
    injection hEq with h1 h2
    subst h1
    subst h2
    exact ⟨_, rfl, h'⟩
  | run hr hs hrw hsw hcond h' =>
    intro c z hEq hcns
    rename_i r s z0 w0
    cases r with
    | nil => exact absurd rfl hr
    | cons r0 r' =>
      rw [List.cons_append] at hEq
      injection hEq with h1 h2
      have hws := hrw r0 (List.mem_cons_self _ _)
      rw [h1] at hws
      rw [hws] at hcns
      simp at hcns

theorem WsRel_nonws_chunk {B : Str} (hB : ∀ x ∈ B, isPySpace x = false) :
    ∀ {v w : Str}, WsRel (B ++ v) w → ∃ w', w = B ++ w' ∧ WsRel v w' := by
  induction B with
  | nil => exact fun h => ⟨_, rfl, h⟩
  | cons b B' ih =>
    intro v w h
    obtain ⟨w1, hw1, h1⟩ := WsRel_cons_nonws h rfl (hB b (List.mem_cons_self _ _))
    obtain ⟨w2, hw2, h2⟩ := ih (fun x hx => hB x (List.mem_cons_of_mem _ hx)) h1
    exact ⟨w2, by rw [hw1, hw2]; rfl, h2⟩

theorem WsRel_single_space {zz w : Str} (h : WsRel zz w) :
    ∀ {a0 : Char} {t : Str}, zz = ' ' :: a0 :: t → isPySpace a0 = false →
      ∃ w', w = ' ' :: w' ∧ WsRel (a0 :: t) w' := by
  cases h with
  | nil => intro a0 t hEq _; simp at hEq
  | cons hc h' =>
    intro a0 t hEq _
    injection hEq with h1 h2
    rw [h1] at hc
    exact absurd hc (by decide)
  | run hr hs hrw hsw hcond h' =>
    intro a0 t hEq ha0
    rename_i r s z0 w0
    cases r with
    | nil => exact absurd rfl hr
    | cons r0 r' =>
      rw [List.cons_append] at hEq
      injection hEq with h1 h2
      cases r' with
      | cons r1 r'' =>
        rw [List.cons_append] at h2
        injection h2 with h3 h4
        have hws := hrw r1 (by simp)
        rw [h3] at hws
        rw [hws] at ha0
        simp at ha0
      | nil =>
        simp only [List.nil_append] at h2
        have hseq : s = [r0] := by
          rcases hcond with hceq | ⟨hnr, -⟩
          · exact hceq.symm
          · rw [List.mem_singleton] at hnr
            rw [h1] at hnr
            exact absurd hnr (by decide)
        subst hseq
        rw [h1]
        exact ⟨w0, rfl, h2 ▸ h'⟩

theorem WsRel_dropWhile {z w : Str} (h : WsRel z w) :
    WsRel (z.dropWhile isPySpace) (w.dropWhile isPySpace) := by
  induction h with
  | nil => exact WsRel.nil
  | cons hc h' ih =>
    rw [List.dropWhile_cons, List.dropWhile_cons, if_neg (by simp [hc]),
      if_neg (by simp [hc])]
    exact WsRel.cons hc h'
  | run hr hs hrw hsw hcond h' ih =>
    rw [dropWhile_append_all hrw, dropWhile_append_all hsw]
    exact ih

theorem WsRel_prefix_iff (B : Str) (hB : ∀ x ∈ B, isPySpace x = false) :
    ∀ {z w : Str}, WsRel z w → B.isPrefixOf z = B.isPrefixOf w := by
  induction B with
  | nil => intro z w _; simp [List.isPrefixOf]
  | cons b B' ihB =>
    intro z w h
    cases h with
    | nil => rfl
    | cons hc h' =>
      simp only [List.isPrefixOf]
      rw [ihB (fun x hx => hB x (List.mem_cons_of_mem _ hx)) h']
    | run hr hs hrw hsw hcond h' =>
      rename_i r s z0 w0
      cases r with
      | nil => exact absurd rfl hr
      | cons r0 r' =>
        cases s with
        | nil => exact absurd rfl hs
        | cons s0 s' =>
          rw [List.cons_append, List.cons_append]
          simp only [List.isPrefixOf]
          have h1 : (b == r0) = false := by
            cases hx : (b == r0) with
            | false => rfl
            | true =>
              have hbe : b = r0 := beq_iff_eq.mp hx
              have hbw := hrw r0 (List.mem_cons_self _ _)
              have hbn := hB b (List.mem_cons_self _ _)
              rw [hbe, hbw] at hbn
              simp at hbn
          have h2 : (b == s0) = false := by
            cases hx : (b == s0) with
            | false => rfl
            | true =>
              have hbe : b = s0 := beq_iff_eq.mp hx
              have hbw := hsw s0 (List.mem_cons_self _ _)
              have hbn := hB b (List.mem_cons_self _ _)
              rw [hbe, hbw] at hbn
              simp at hbn
          rw [h1, h2, Bool.false_and, Bool.false_and]

theorem WsRel_drop_prefix (B : Str) (hB : ∀ x ∈ B, isPySpace x = false) :
    ∀ {z w : Str}, WsRel z w → B.isPrefixOf z = true →
      WsRel (z.drop B.length) (w.drop B.length) := by
  induction B with
  | nil => intro z w h _; simpa using h
  | cons b B' ihB =>
    intro z w h hpre
    cases h with
    | nil => simp [List.isPrefixOf] at hpre
    | cons hc h' =>
      simp only [List.isPrefixOf, Bool.and_eq_true] at hpre
      simp only [List.length_cons, List.drop_succ_cons]
      exact ihB (fun x hx => hB x (List.mem_cons_of_mem _ hx)) h' hpre.2
    | run hr hs hrw hsw hcond h' =>
      rename_i r s z0 w0
      cases r with
      | nil => exact absurd rfl hr
      | cons r0 r' =>
        rw [List.cons_append] at hpre
        simp only [List.isPrefixOf, Bool.and_eq_true, beq_iff_eq] at hpre
        obtain ⟨h1, -⟩ := hpre
        have hbw := hrw r0 (List.mem_cons_self _ _)
        have hbn := hB b (List.mem_cons_self _ _)
        rw [h1, hbw] at hbn
        simp at hbn

theorem WsRel_tryTail (a : Char) (ar : Str)
    (hA : ∀ x ∈ a :: ar, isPySpace x = false) {z w : Str} (h : WsRel z w) :
    (tryTail (a :: ar) z = none ∧ tryTail (a :: ar) w = none) ∨
    (∃ c2 r1 r2, tryTail (a :: ar) z = some (c2, r1) ∧
      tryTail (a :: ar) w = some (c2, r2) ∧ WsRel r1 r2) := by
  have hd := WsRel_dropWhile h
  have hpre := WsRel_prefix_iff (a :: ar) hA hd
  unfold tryTail
  by_cases hp : (a :: ar).isPrefixOf (z.dropWhile isPySpace) = true
  · have hpw : (a :: ar).isPrefixOf (w.dropWhile isPySpace) = true := by
      rw [← hpre]; exact hp
    rw [if_pos hp, if_pos hpw]
    have hd3 := WsRel_dropWhile ( WsRel_drop_prefix (a :: ar) hA hd hp)
    cases hz : ((z.dropWhile isPySpace).drop (a :: ar).length).dropWhile isPySpace with
    | nil =>
      have hwnil : ((w.dropWhile isPySpace).drop
          (a :: ar).length).dropWhile isPySpace = [] := by
        rw [hz] at hd3
        exact (WsRel_nil_iff hd3).mp rfl
      rw [hwnil]
      exact Or.inl ⟨rfl, rfl⟩
    | cons e E =>
      rw [hz] at hd3
      have hens : isPySpace e = false := by
        have hh := head?_dropWhile_not isPySpace
          ((z.dropWhile isPySpace).drop (a :: ar).length)
        rw [hz] at hh
        exact hh e (by simp)
      obtain ⟨w', hw', hrel⟩ := WsRel_cons_nonws hd3 rfl hens
      rw [hw']
      by_cases hR : isArrowR e = true
      · refine Or.inr ⟨e, E, w', ?_, ?_, hrel⟩
        · show (if isArrowR e = true then some (e, E) else none) = some (e, E)
          rw [if_pos hR]
        · show (if isArrowR e = true then some (e, w') else none) = some (e, w')
          rw [if_pos hR]
      · have hR' : isArrowR e = false := by
          cases hx : isArrowR e with
          | false => rfl
          | true => exact absurd hx hR
        refine Or.inl ⟨?_, ?_⟩
        · show (if isArrowR e = true then some (e, E) else none) = none
          rw [if_neg (by simp [hR'])]
        · show (if isArrowR e = true then some (e, w') else none) = none
          rw [if_neg (by simp [hR'])]
  · have hp' : (a :: ar).isPrefixOf (z.dropWhile isPySpace) = false := by
      cases hx : (a :: ar).isPrefixOf (z.dropWhile isPySpace) with
      | false => rfl
      | true => exact absurd hx hp
    rw [if_neg (by simp [hp']), if_neg (by rw [← hpre]; simp [hp'])]
    exact Or.inl ⟨rfl, rfl⟩

/-- Stability transfers along the whitespace alignment: shrinking
whitespace runs (while keeping a newline where one was) cannot create a
new un-canonical match site. -/
theorem stab_WsRel (a : Char) (ar : Str)
    (hA : ∀ x ∈ a :: ar, isPySpace x = false) :
    ∀ (n : Nat) (z w : Str), z.length ≤ n → WsRel z w →
      stab a ar z = true → stab a ar w = true := by
  intro n
  induction n with
  | zero =>
    intro z w hz hrel hst
    obtain rfl : z = [] := List.length_eq_zero.mp (Nat.le_zero.mp hz)
    obtain rfl : w = [] := (WsRel_nil_iff hrel).mp rfl
    exact hst
  | succ n ih =>
    intro z w hz hrel hst
    cases hrel with
    | nil => exact hst
    | cons hc h' =>
      rename_i c z0 w0
      simp only [List.length_cons] at hz
      by_cases hL : isArrowL c = true
      · rw [stab_cons, if_pos hL] at hst ⊢
        rcases WsRel_tryTail a ar hA h' with ⟨hn1, hn2⟩ |
          ⟨c2, r1, r2, hs1, hs2, hrr⟩
        · rw [hn1] at hst
          rw [hn2]
          dsimp only at hst ⊢
          exact ih z0 w0 (by omega) h' hst
        · rw [hs1] at hst
          rw [hs2]
          dsimp only at hst ⊢
          rw [Bool.and_eq_true] at hst ⊢
          obtain ⟨hcanon, hstr⟩ := hst
          have hz0eq : z0 = ' ' :: ((a :: ar) ++ (' ' :: c2 :: r1)) :=
            of_decide_eq_true hcanon
          -- push the canonical shape through the relation
          obtain ⟨w1, hw1, hrel1⟩ := WsRel_single_space (hz0eq ▸ h') rfl
            (hA a (List.mem_cons_self _ _))
          obtain ⟨w2, hw2, hrel2⟩ := WsRel_nonws_chunk hA hrel1
          have hc2ns : isPySpace c2 = false := by
            -- c2 is the matched arrow-R character of the z side
            have := @tryTail_some_arrowR (a :: ar) z0 _ _ (by rw [hs1])
            exact arrowR_not_ws this
          obtain ⟨w3, hw3, hrel3⟩ := WsRel_single_space hrel2 rfl hc2ns
          obtain ⟨w4, hw4, hrel4⟩ := WsRel_cons_nonws hrel3 rfl hc2ns
          have hw0eq : w0 = ' ' :: ((a :: ar) ++ (' ' :: c2 :: w4)) := by
            rw [hw1, hw2, hw3, hw4]
          -- the w-side match must return (c2, w4)
          have htw : tryTail (a :: ar) w0 = some (c2, w4) := by
            rw [hw0eq]
            exact tryTail_canonical a ar w4 (hA a (List.mem_cons_self _ _))
              (@tryTail_some_arrowR (a :: ar) z0 _ _ (by rw [hs1]))
          rw [hs2] at htw
          simp only [Option.some.injEq, Prod.mk.injEq] at htw
          obtain ⟨-, hr2w4⟩ := htw
          constructor
          · simp only [decide_eq_true_eq]
            rw [hw0eq, hr2w4]
          · have hlt : r1.length < z0.length := by
              rw [hz0eq]
              simp only [List.length_cons, List.length_append, List.length_cons]
              omega
            exact ih r1 r2 (by omega) (hr2w4 ▸ hrr) hstr
      · have hL' : isArrowL c = false := by
          cases hx : isArrowL c with
          | false => rfl
          | true => exact absurd hx hL
        rw [stab_cons_skip _ _ hL'] at hst
        rw [stab_cons_skip _ _ hL']
        exact ih z0 w0 (by omega) h' hst
    | run hr hs hrw hsw hcond h' =>
      rename_i r s z0 w0
      rw [stab_append_skip a ar (fun x hx => ws_not_arrowL (hrw x hx))] at hst
      rw [stab_append_skip a ar (fun x hx => ws_not_arrowL (hsw x hx))]
      have hrlen : 1 ≤ r.length := by
        cases r with
        | nil => exact absurd rfl hr
        | cons _ _ => simp
      rw [List.length_append] at hz
      exact ih z0 w0 (by omega) h' hst

/-! Line-level lemmas: `'\n'.join`, `split('\n')` and the blank-line
collapse. -/

theorem glue_nil : glue [] = [] := rfl

theorem glue_cons (x : Str) (xs : List Str) :
    glue (x :: xs) = ('\n' :: x) ++ glue xs := rfl

theorem joinSep_cons_head (sep : Str) (c0 : Char) (p : Str) (ps : List Str) :
    joinSep sep ((c0 :: p) :: ps) = c0 :: joinSep sep (p :: ps) := by
  cases ps with
  | nil => rfl
  | cons q t => rfl

theorem joinLines_glue : ∀ (l : Str) (ls : List Str),
    joinLines (l :: ls) = l ++ glue ls := by
  intro l ls
  induction ls generalizing l with
  | nil => simp [joinLines, joinSep, glue]
  | cons l2 ls' ih =>
    show joinSep ['\n'] (l :: l2 :: ls') = _
    rw [show joinSep ['\n'] (l :: l2 :: ls') =
      l ++ ['\n'] ++ joinSep ['\n'] (l2 :: ls') from rfl]
    rw [show joinSep ['\n'] (l2 :: ls') = joinLines (l2 :: ls') from rfl, ih l2,
      glue_cons]
    simp [List.append_assoc]

theorem joinLines_splitLines_fuel : ∀ (n : Nat) (s : Str), s.length ≤ n →
    joinLines (splitLines s) = s := by
  intro n
  induction n with
  | zero =>
    intro s h
    obtain rfl : s = [] := List.length_eq_zero.mp (Nat.le_zero.mp h)
    rfl
  | succ n ih =>
    intro s hn
    cases s with
    | nil => rfl
    | cons c0 rest =>
      simp only [List.length_cons] at hn
      show joinLines (splitOnSub ['\n'] (c0 :: rest)) = c0 :: rest
      rw [splitOnSub_cons]
      by_cases hp : ((['\n'] : Str).isPrefixOf (c0 :: rest) &&
          !(['\n'] : Str).isEmpty) = true
      · rw [if_pos hp]
        have hc0 : c0 = '\n' := by
          rw [Bool.and_eq_true] at hp
          have h1 := hp.1
          simp only [List.isPrefixOf, Bool.and_eq_true, beq_iff_eq] at h1
          exact h1.1.symm
        have hdrop : rest.drop ((['\n'] : Str).length - 1) = rest := by simp
        rw [hdrop]
        cases hsp : splitOnSub ['\n'] rest with
        | nil => exact absurd hsp (splitOnSub_ne_nil _ _)
        | cons p ps =>
          show joinSep ['\n'] ([] :: p :: ps) = c0 :: rest
          rw [show joinSep ['\n'] ([] :: p :: ps) =
            [] ++ ['\n'] ++ joinSep ['\n'] (p :: ps) from rfl]
          have hih : joinSep ['\n'] (p :: ps) = rest := by
            have h2 := ih rest (by omega)
            rw [show splitLines rest = splitOnSub ['\n'] rest from rfl, hsp] at h2
            exact h2
          rw [hih, hc0]
          rfl
      · rw [if_neg hp]
        cases hsp : splitOnSub ['\n'] rest with
        | nil => exact absurd hsp (splitOnSub_ne_nil _ _)
        | cons p ps =>
          show joinSep ['\n'] ((c0 :: p) :: ps) = c0 :: rest
          rw [joinSep_cons_head]
          have hih : joinSep ['\n'] (p :: ps) = rest := by
            have h2 := ih rest (by omega)
            rw [show splitLines rest = splitOnSub ['\n'] rest from rfl, hsp] at h2
            exact h2
          rw [hih]

theorem joinLines_splitLines (s : Str) : joinLines (splitLines s) = s :=
  joinLines_splitLines_fuel s.length s le_rfl

theorem all_ws_of_strip_empty {l : Str} (h : (pyStrip l).isEmpty = true) :
    ∀ x ∈ l, isPySpace x = true := by
  intro x hx
  by_contra hxx
  have hxf : isPySpace x = false := by
    cases hy : isPySpace x with
    | false => rfl
    | true => exact absurd hy hxx
  have hne : l.dropWhile isPySpace ≠ [] := by
    intro hdw
    have hall := List.dropWhile_eq_nil_iff.mp hdw
    have := hall x hx
    rw [hxf] at this
    simp at this
  obtain ⟨d, D', hD⟩ : ∃ d D', l.dropWhile isPySpace = d :: D' := by
    cases hD : l.dropWhile isPySpace with
    | nil => exact absurd hD hne
    | cons d D' => exact ⟨d, D', rfl⟩
  have hd : isPySpace d = false := by
    have hh := head?_dropWhile_not isPySpace l
    rw [hD] at hh
    exact hh d (by simp)
  unfold pyStrip at h
  rw [hD] at h
  have hrev : (d :: D').reverse = D'.reverse ++ [d] := by simp
  rw [hrev] at h
  obtain ⟨q, hq⟩ := dropWhile_last_nonsat isPySpace d hd D'.reverse
  rw [hq] at h
  simp at h

theorem lastOK_tail {l : Str} {ls : List Str}
    (h : ∀ x ∈ (l :: ls).getLast?, (pyStrip x).isEmpty = false)
    (hne : ls ≠ []) :
    ∀ x ∈ ls.getLast?, (pyStrip x).isEmpty = false := by
  intro x hx
  apply h
  cases ls with
  | nil => exact absurd rfl hne
  | cons b bs => rw [List.getLast?_cons_cons]; exact hx

theorem collapseLines_cons_nonblank {l : Str} (b : Bool) (ls : List Str)
    (h : (pyStrip l).isEmpty = false) :
    collapseLines b (l :: ls) = l :: collapseLines false ls := by
  simp [collapseLines, h]

theorem collapseLines_cons_blank_true {l : Str} (ls : List Str)
    (h : (pyStrip l).isEmpty = true) :
    collapseLines true (l :: ls) = collapseLines true ls := by
  simp [collapseLines, h]

theorem collapseLines_cons_blank_false {l : Str} (ls : List Str)
    (h : (pyStrip l).isEmpty = true) :
    collapseLines false (l :: ls) = l :: collapseLines true ls := by
  simp [collapseLines, h]

/-- The whitespace alignment between the glued lines and their blank-line
collapse (joint statement for the two states of the `prev_empty`
machine). -/
theorem glue_collapse : ∀ (n : Nat) (ls : List Str), ls.length ≤ n →
    (∀ l ∈ ls.getLast?, (pyStrip l).isEmpty = false) →
    WsRel (glue ls) (glue (collapseLines false ls)) ∧
    (ls ≠ [] → ∀ (u : Str), u ≠ [] → (∀ x ∈ u, isPySpace x = true) →
      '\n' ∈ u → WsRel (u ++ glue ls) (glue (collapseLines true ls))) := by
  intro n
  induction n with
  | zero =>
    intro ls h _
    obtain rfl : ls = [] := List.length_eq_zero.mp (Nat.le_zero.mp h)
    exact ⟨WsRel.nil, fun hne => absurd rfl hne⟩
  | succ n ih =>
    intro ls hn hlast
    cases ls with
    | nil => exact ⟨WsRel.nil, fun hne => absurd rfl hne⟩
    | cons l ls' =>
      simp only [List.length_cons] at hn
      by_cases hbl : (pyStrip l).isEmpty = true
      · -- blank head
        have hlws : ∀ x ∈ l, isPySpace x = true := all_ws_of_strip_empty hbl
        have hls'ne : ls' ≠ [] := by
          intro hx
          subst hx
          have hcon := hlast l (by simp)
          rw [hbl] at hcon
          simp at hcon
        have hlast' : ∀ x ∈ ls'.getLast?, (pyStrip x).isEmpty = false :=
          lastOK_tail hlast hls'ne
        constructor
        · -- false state: blank kept, switch to true
          rw [collapseLines_cons_blank_false ls' hbl, glue_cons, glue_cons]
          apply WsRel_append (WsRel_refl ('\n' :: l))
          cases ls' with
          | nil => exact absurd rfl hls'ne
          | cons l2 ls'' =>
            simp only [List.length_cons] at hn
            by_cases hbl2 : (pyStrip l2).isEmpty = true
            · rw [collapseLines_cons_blank_true ls'' hbl2, glue_cons]
              have hls''ne : ls'' ≠ [] := by
                intro hx
                subst hx
                have hcon := hlast' l2 (by simp)
                rw [hbl2] at hcon
                simp at hcon
              have hlast'' : ∀ x ∈ ls''.getLast?, (pyStrip x).isEmpty = false :=
                lastOK_tail hlast' hls''ne
              exact ((ih ls'' (by omega) hlast'').2 hls''ne ('\n' :: l2) (by simp)
                (by
                  intro x hx
                  rcases List.mem_cons.mp hx with rfl | hx2
                  · decide
                  · exact all_ws_of_strip_empty hbl2 x hx2)
                (List.mem_cons_self _ _))
            · have hbl2' : (pyStrip l2).isEmpty = false := by
                cases hy : (pyStrip l2).isEmpty with
                | false => rfl
                | true => exact absurd hy hbl2
              rw [collapseLines_cons_nonblank true ls'' hbl2', glue_cons, glue_cons]
              apply WsRel_append (WsRel_refl ('\n' :: l2))
              have hlast'' : ∀ x ∈ ls''.getLast?, (pyStrip x).isEmpty = false := by
                intro x hx
                cases hcase : ls'' with
                | nil => rw [hcase] at hx; simp at hx
                | cons b bs =>
                  apply hlast'
                  rw [hcase] at hx
                  rw [hcase, List.getLast?_cons_cons]
                  exact hx
              exact (ih ls'' (by omega) hlast'').1
        · -- true state with accumulator: blank dropped
          intro _ u hu huw hun
          rw [collapseLines_cons_blank_true ls' hbl, glue_cons]
          rw [show u ++ (('\n' :: l) ++ glue ls') = (u ++ ('\n' :: l)) ++ glue ls'
            from by simp [List.append_assoc]]
          exact (ih ls' (by omega) hlast').2 hls'ne (u ++ ('\n' :: l)) (by simp)
            (by
              intro x hx
              rcases List.mem_append.mp hx with hx1 | hx2
              · exact huw x hx1
              · rcases List.mem_cons.mp hx2 with rfl | hx3
                · decide
                · exact hlws x hx3)
            (by simp [hun])
      · -- non-blank head
        have hbl' : (pyStrip l).isEmpty = false := by
          cases hy : (pyStrip l).isEmpty with
          | false => rfl
          | true => exact absurd hy hbl
        have hlast' : ∀ x ∈ ls'.getLast?, (pyStrip x).isEmpty = false := by
          intro x hx
          cases hls' : ls' with
          | nil => rw [hls'] at hx; simp at hx
          | cons b bs =>
            apply hlast
            rw [hls'] at hx
            rw [hls', List.getLast?_cons_cons]
            exact hx
        have hfalse : WsRel (glue ls') (glue (collapseLines false ls')) :=
          (ih ls' (by omega) hlast').1
        constructor
        · rw [collapseLines_cons_nonblank false ls' hbl', glue_cons, glue_cons]
          exact WsRel_append (WsRel_refl ('\n' :: l)) hfalse
        · intro _ u hu huw hun
          rw [collapseLines_cons_nonblank true ls' hbl', glue_cons, glue_cons]
          rw [show u ++ (('\n' :: l) ++ glue ls') =
            (u ++ ['\n']) ++ (l ++ glue ls') from by simp [List.append_assoc]]
          rw [show ('\n' :: l) ++ glue (collapseLines false ls') =
            ['\n'] ++ (l ++ glue (collapseLines false ls')) from by simp]
          exact WsRel.run (by simp [hu]) (by simp)
            (by
              intro x hx
              rcases List.mem_append.mp hx with hx1 | hx2
              · exact huw x hx1
              · rcases List.mem_singleton.mp hx2 with rfl
                decide)
            (by
              intro x hx
              rcases List.mem_singleton.mp hx with rfl
              decide)
            (Or.inr ⟨by simp [hun], by simp⟩)
            (WsRel_append (WsRel_refl l) hfalse)

theorem glue_collapse_true (ls : List Str)
    (hlast : ∀ l ∈ ls.getLast?, (pyStrip l).isEmpty = false) :
    WsRel (glue ls) (glue (collapseLines true ls)) := by
  cases ls with
  | nil => exact WsRel.nil
  | cons l ls' =>
    by_cases hbl : (pyStrip l).isEmpty = true
    · have hls'ne : ls' ≠ [] := by
        intro hx
        subst hx
        have hcon := hlast l (by simp)
        rw [hbl] at hcon
        simp at hcon
      have hlast' := lastOK_tail hlast hls'ne
      rw [collapseLines_cons_blank_true ls' hbl, glue_cons]
      exact (glue_collapse ls'.length ls' le_rfl hlast').2 hls'ne ('\n' :: l)
        (by simp)
        (by
          intro x hx
          rcases List.mem_cons.mp hx with rfl | hx2
          · decide
          · exact all_ws_of_strip_empty hbl x hx2)
        (List.mem_cons_self _ _)
    · have hbl' : (pyStrip l).isEmpty = false := by
        cases hy : (pyStrip l).isEmpty with
        | false => rfl
        | true => exact absurd hy hbl
      have hlast' : ∀ x ∈ ls'.getLast?, (pyStrip x).isEmpty = false := by
        by_cases hc : ls' = []
        · subst hc; intro x hx; simp at hx
        · exact lastOK_tail hlast hc
      rw [collapseLines_cons_nonblank true ls' hbl', glue_cons, glue_cons]
      exact WsRel_append (WsRel_refl ('\n' :: l))
        (glue_collapse ls'.length ls' le_rfl hlast').1

/-- The collapse of blank lines only deletes whitespace characters inside
newline-bearing whitespace runs: the result is whitespace-aligned with the
input (provided the final line is not blank). -/
theorem WsRel_collapseBlank (code : Str)
    (hlast : ∀ x ∈ (splitLines code).getLast?, (pyStrip x).isEmpty = false) :
    WsRel code (collapseBlank code) := by
  unfold collapseBlank
  conv_lhs => rw [← joinLines_splitLines code]
  cases hsp : splitLines code with
  | nil => exact absurd hsp (splitOnSub_ne_nil _ _)
  | cons l ls =>
    rw [hsp] at hlast
    rw [joinLines_glue]
    have hlast' : ∀ x ∈ ls.getLast?, (pyStrip x).isEmpty = false := by
      by_cases hc : ls = []
      · subst hc; intro x hx; simp at hx
      · exact lastOK_tail hlast hc
    by_cases hbl : (pyStrip l).isEmpty = true
    · rw [collapseLines_cons_blank_false ls hbl, joinLines_glue]
      exact WsRel_append (WsRel_refl l) (glue_collapse_true ls hlast')
    · have hbl' : (pyStrip l).isEmpty = false := by
        cases hy : (pyStrip l).isEmpty with
        | false => rfl
        | true => exact absurd hy hbl
      rw [collapseLines_cons_nonblank false ls hbl', joinLines_glue]
      exact WsRel_append (WsRel_refl l)
        (glue_collapse ls.length ls le_rfl hlast').1

theorem collapseLines_idem : ∀ ls : List Str,
    collapseLines false (collapseLines false ls) = collapseLines false ls ∧
    collapseLines false (collapseLines true ls) = collapseLines true ls ∧
    collapseLines true (collapseLines true ls) = collapseLines true ls := by
  intro ls
  induction ls with
  | nil => exact ⟨rfl, rfl, rfl⟩
  | cons l ls' ih =>
    obtain ⟨hff, hft, htt⟩ := ih
    by_cases hbl : (pyStrip l).isEmpty = true
    · refine ⟨?_, ?_, ?_⟩
      · rw [collapseLines_cons_blank_false ls' hbl,
          collapseLines_cons_blank_false (collapseLines true ls') hbl, htt]
      · rw [collapseLines_cons_blank_true ls' hbl, hft]
      · rw [collapseLines_cons_blank_true ls' hbl, htt]
    · have hbl' : (pyStrip l).isEmpty = false := by
        cases hy : (pyStrip l).isEmpty with
        | false => rfl
        | true => exact absurd hy hbl
      refine ⟨?_, ?_, ?_⟩
      · rw [collapseLines_cons_nonblank false ls' hbl',
          collapseLines_cons_nonblank false (collapseLines false ls') hbl', hff]
      · rw [collapseLines_cons_nonblank true ls' hbl',
          collapseLines_cons_nonblank false (collapseLines false ls') hbl', hff]
      · rw [collapseLines_cons_nonblank true ls' hbl',
          collapseLines_cons_nonblank true (collapseLines false ls') hbl', hff]

theorem collapseLines_false_cons (l : Str) (ls : List Str) :
    ∃ t, collapseLines false (l :: ls) = l :: t := by
  by_cases hbl : (pyStrip l).isEmpty = true
  · exact ⟨_, collapseLines_cons_blank_false ls hbl⟩
  · exact ⟨_, collapseLines_cons_nonblank false ls (by
      cases hy : (pyStrip l).isEmpty with
      | false => rfl
      | true => exact absurd hy hbl)⟩

theorem collapseLines_mem : ∀ (b : Bool) (ls : List Str),
    ∀ x ∈ collapseLines b ls, x ∈ ls := by
  intro b ls
  induction ls generalizing b with
  | nil => intro x hx; simp [collapseLines] at hx
  | cons l ls' ih =>
    intro x hx
    by_cases hbl : (pyStrip l).isEmpty = true
    · cases b with
      | true =>
        rw [collapseLines_cons_blank_true ls' hbl] at hx
        exact List.mem_cons_of_mem _ (ih true x hx)
      | false =>
        rw [collapseLines_cons_blank_false ls' hbl] at hx
        rcases List.mem_cons.mp hx with rfl | hx2
        · exact List.mem_cons_self _ _
        · exact List.mem_cons_of_mem _ (ih true x hx2)
    · have hbl' : (pyStrip l).isEmpty = false := by
        cases hy : (pyStrip l).isEmpty with
        | false => rfl
        | true => exact absurd hy hbl
      rw [collapseLines_cons_nonblank b ls' hbl'] at hx
      rcases List.mem_cons.mp hx with rfl | hx2
      · exact List.mem_cons_self _ _
      · exact List.mem_cons_of_mem _ (ih false x hx2)

theorem splitOnSub_pieces_nl : ∀ (n : Nat) (s : Str), s.length ≤ n →
    ∀ p ∈ splitOnSub ['\n'] s, ∀ c ∈ p, (c == '\n') = false := by
  intro n
  induction n with
  | zero =>
    intro s h p hp c hc
    obtain rfl : s = [] := List.length_eq_zero.mp (Nat.le_zero.mp h)
    rw [splitOnSub_nil] at hp
    rcases List.mem_singleton.mp hp with rfl
    simp at hc
  | succ n ih =>
    intro s hn p hp c hc
    cases s with
    | nil =>
      rw [splitOnSub_nil] at hp
      rcases List.mem_singleton.mp hp with rfl
      simp at hc
    | cons c0 rest =>
      simp only [List.length_cons] at hn
      rw [splitOnSub_cons] at hp
      by_cases hpre : ((['\n'] : Str).isPrefixOf (c0 :: rest) &&
          !(['\n'] : Str).isEmpty) = true
      · rw [if_pos hpre] at hp
        rcases List.mem_cons.mp hp with rfl | hp2
        · simp at hc
        · have hdrop : rest.drop ((['\n'] : Str).length - 1) = rest := by simp
          rw [hdrop] at hp2
          exact ih rest (by omega) p hp2 c hc
      · rw [if_neg hpre] at hp
        have hc0 : (c0 == '\n') = false := by
          cases hx : (c0 == '\n') with
          | false => rfl
          | true =>
            exfalso
            apply hpre
            have : c0 = '\n' := beq_iff_eq.mp hx
            subst this
            simp [List.isPrefixOf]
        cases hsp : splitOnSub ['\n'] rest with
        | nil => exact absurd hsp (splitOnSub_ne_nil _ _)
        | cons p0 ps =>
          rw [hsp] at hp
          rcases List.mem_cons.mp hp with rfl | hp2
          · rcases List.mem_cons.mp hc with rfl | hc2
            · exact hc0
            · exact ih rest (by omega) p0 (by rw [hsp]; simp) c hc2
          · exact ih rest (by omega) p (by rw [hsp]; exact List.mem_cons_of_mem _ hp2)
              c hc

theorem splitLines_pieces_nl (s : Str) :
    ∀ p ∈ splitLines s, ∀ c ∈ p, (c == '\n') = false :=
  splitOnSub_pieces_nl s.length s le_rfl

theorem splitLines_joinLines : ∀ ls : List Str, ls ≠ [] →
    (∀ p ∈ ls, ∀ c ∈ p, (c == '\n') = false) →
    splitLines (joinLines ls) = ls := by
  intro ls
  induction ls with
  | nil => intro h _; exact absurd rfl h
  | cons l ls' ih =>
    intro _ hnl
    cases ls' with
    | nil =>
      show splitOnSub ['\n'] (joinSep ['\n'] [l]) = [l]
      rw [show joinSep ['\n'] [l] = l from rfl]
      rw [show l = l ++ [] from by simp, splitOnSub_append_left _ _ _
        (fun c hc => hnl l (List.mem_cons_self _ _) c hc)]
      rw [splitOnSub_nil]
    | cons l2 t =>
      show splitOnSub ['\n'] (joinSep ['\n'] (l :: l2 :: t)) = l :: l2 :: t
      rw [show joinSep ['\n'] (l :: l2 :: t) =
        l ++ (['\n'] ++ joinSep ['\n'] (l2 :: t)) from by
          rw [show joinSep ['\n'] (l :: l2 :: t) =
            l ++ ['\n'] ++ joinSep ['\n'] (l2 :: t) from rfl]
          simp [List.append_assoc]]
      rw [splitOnSub_append_left _ _ _
        (fun c hc => hnl l (List.mem_cons_self _ _) c hc)]
      rw [show (['\n'] : Str) ++ joinSep ['\n'] (l2 :: t) =
        ('\n' :: ([] : Str)) ++ joinSep ['\n'] (l2 :: t) from rfl]
      rw [splitOnSub_at_sep]
      have hih : splitOnSub ['\n'] (joinSep ['\n'] (l2 :: t)) = l2 :: t :=
        ih (by simp) (fun p hp c hc => hnl p (List.mem_cons_of_mem _ hp) c hc)
      rw [hih]
      simp

theorem collapseBlank_idem (code : Str) :
    collapseBlank (collapseBlank code) = collapseBlank code := by
  unfold collapseBlank
  cases hsp : splitLines code with
  | nil => exact absurd hsp (splitOnSub_ne_nil _ _)
  | cons l ls =>
    obtain ⟨t, ht⟩ := collapseLines_false_cons l ls
    have hnn : ∀ p ∈ collapseLines false (l :: ls), ∀ c ∈ p, (c == '\n') = false := by
      intro p hp
      have hmem : p ∈ splitLines code := by
        rw [hsp]
        exact collapseLines_mem false (l :: ls) p hp
      exact splitLines_pieces_nl code p hmem
    have hne : collapseLines false (l :: ls) ≠ [] := by rw [ht]; simp
    rw [splitLines_joinLines _ hne hnn, (collapseLines_idem (l :: ls)).1]

theorem getLast?_cons_of_ne_nil {x : Char} {t : Str} (h : t ≠ []) :
    (x :: t).getLast? = t.getLast? := by
  cases t with
  | nil => exact absurd rfl h
  | cons a b => exact List.getLast?_cons_cons ..

theorem getLast?_append_right {v : Str} (h : v ≠ []) :
    ∀ u : Str, (u ++ v).getLast? = v.getLast? := by
  intro u
  induction u with
  | nil => rfl
  | cons x u' ih =>
    rw [List.cons_append, getLast?_cons_of_ne_nil (by
      intro hx
      exact h (List.append_eq_nil.mp hx).2), ih]

theorem WsRel_getLast_nonws : ∀ {z w : Str}, WsRel z w →
    (∀ c ∈ z.getLast?, isPySpace c = false) →
    ∀ c ∈ w.getLast?, isPySpace c = false := by
  intro z w h
  induction h with
  | nil => intro _ c hc; simp at hc
  | cons hc0 h' ih =>
    rename_i c0 z0 w0
    intro hlast c hc
    by_cases hz0 : z0 = []
    · subst hz0
      have hw0 : w0 = [] := (WsRel_nil_iff h').mp rfl
      subst hw0
      simp only [List.getLast?_singleton, Option.mem_def, Option.some.injEq] at hc
      subst hc
      exact hc0
    · have hw0 : w0 ≠ [] := by
        intro hx
        exact hz0 ((WsRel_nil_iff h').mpr hx)
      rw [getLast?_cons_of_ne_nil hw0] at hc
      apply ih _ c hc
      intro d hd
      apply hlast
      rw [getLast?_cons_of_ne_nil hz0]
      exact hd
  | run hr hs hrw hsw hcond h' ih =>
    rename_i r s z0 w0
    intro hlast c hc
    by_cases hz0 : z0 = []
    · exfalso
      subst hz0
      cases hrl : r.getLast? with
      | none => exact hr (List.getLast?_eq_none_iff.mp hrl)
      | some d =>
        have hd := hlast d (by rw [List.append_nil, hrl]; rfl)
        have hdw := hrw d (List.mem_of_mem_getLast? (by rw [hrl]; rfl))
        rw [hdw] at hd
        simp at hd
    · have hw0 : w0 ≠ [] := by
        intro hx
        exact hz0 ((WsRel_nil_iff h').mpr hx)
      rw [getLast?_append_right hw0] at hc
      apply ih _ c hc
      intro d hd
      apply hlast
      rw [getLast?_append_right hz0]
      exact hd

theorem pyStrip_id_of_ends {s : Str}
    (h1 : ∀ c ∈ s.head?, isPySpace c = false)
    (h2 : ∀ c ∈ s.getLast?, isPySpace c = false) : pyStrip s = s := by
  unfold pyStrip
  rw [dropWhile_eq_self_of h1, dropWhile_eq_self_of (by
    intro c hc
    rw [List.head?_reverse] at hc
    exact h2 c hc), List.reverse_reverse]

theorem pyStrip_ends (s : Str) :
    (∀ c ∈ (pyStrip s).head?, isPySpace c = false) ∧
    (∀ c ∈ (pyStrip s).getLast?, isPySpace c = false) := by
  constructor
  · intro c hc
    by_cases hne : pyStrip s = []
    · rw [hne] at hc; simp at hc
    · rw [pyStrip_as_rstrip] at hc hne
      rw [pyRStrip_head? _ hne] at hc
      exact head?_dropWhile_not isPySpace s c hc
  · intro c hc
    unfold pyStrip at hc
    rw [List.getLast?_reverse] at hc
    exact head?_dropWhile_not isPySpace _ c hc

theorem tryTail_head_mismatch {a : Char} {ar : Str} {d : Char} {t : Str}
    (hd : isPySpace d = false) (hne : (a == d) = false) :
    tryTail (a :: ar) (d :: t) = none := by
  unfold tryTail
  rw [dropWhile_eq_self_of (by
    intro c hc
    simp only [List.head?_cons, Option.mem_def, Option.some.injEq] at hc
    subst hc
    exact hd)]
  rw [if_neg (by simp [List.isPrefixOf, hne])]

theorem subArrow_cons_nomatch (a : Char) (ar : Str) {c : Char} {rest : Str}
    (h : tryTail (a :: ar) rest = none) :
    subArrow a ar (c :: rest) = c :: subArrow a ar rest := by
  rw [subArrow_cons]
  by_cases hL : isArrowL c = true
  · rw [if_pos hL, h]
  · rw [if_neg hL]

theorem subArrow_graph (ar : Str) (t0 : Str) :
    ∃ t1, subArrow '-' ar (("graph".toList) ++ t0) = ("graph".toList) ++ t1 := by
  obtain ⟨t1, ht1⟩ := subArrow_head '-' ar 'h' t0
  refine ⟨t1, ?_⟩
  show subArrow '-' ar ('g' :: 'r' :: 'a' :: 'p' :: 'h' :: t0) =
    'g' :: 'r' :: 'a' :: 'p' :: 'h' :: t1
  rw [subArrow_cons_nomatch '-' ar (tryTail_head_mismatch (by decide) (by decide)),
    subArrow_cons_nomatch '-' ar (tryTail_head_mismatch (by decide) (by decide)),
    subArrow_cons_nomatch '-' ar (tryTail_head_mismatch (by decide) (by decide)),
    subArrow_cons_nomatch '-' ar (tryTail_head_mismatch (by decide) (by decide)),
    ht1]

/-- The substitution never empties a string and keeps a non-whitespace
final character non-whitespace. -/
theorem subArrow_ends (a : Char) (ar : Str) :
    ∀ (n : Nat) (s : Str), s.length ≤ n →
      (subArrow a ar s = [] ↔ s = []) ∧
      ((∀ d ∈ s.getLast?, isPySpace d = false) →
        ∀ d ∈ (subArrow a ar s).getLast?, isPySpace d = false) := by
  intro n
  induction n with
  | zero =>
    intro s h
    obtain rfl : s = [] := List.length_eq_zero.mp (Nat.le_zero.mp h)
    exact ⟨by rw [subArrow_nil], by rw [subArrow_nil]; exact fun h2 => h2⟩
  | succ n ih =>
    intro s hn
    cases s with
    | nil => exact ⟨by rw [subArrow_nil], by rw [subArrow_nil]; exact fun h2 => h2⟩
    | cons c rest =>
      simp only [List.length_cons] at hn
      have hcopy : subArrow a ar (c :: rest) = c :: subArrow a ar rest →
          (subArrow a ar (c :: rest) = [] ↔ c :: rest = []) ∧
          ((∀ d ∈ (c :: rest).getLast?, isPySpace d = false) →
            ∀ d ∈ (subArrow a ar (c :: rest)).getLast?, isPySpace d = false) := by
        intro hcp
        rw [hcp]
        constructor
        · simp
        · intro hlast d hd
          by_cases hre : rest = []
          · subst hre
            rw [subArrow_nil] at hd
            simp only [List.getLast?_singleton, Option.mem_def,
              Option.some.injEq] at hd
            rw [← hd]
            exact hlast c (by simp)
          · have hsne : subArrow a ar rest ≠ [] := by
              intro hx
              exact hre (((ih rest (by omega)).1).mp hx)
            rw [getLast?_cons_of_ne_nil hsne] at hd
            refine (ih rest (by omega)).2 ?_ d hd
            intro e he
            apply hlast
            rw [getLast?_cons_of_ne_nil hre]
            exact he
      by_cases hL : isArrowL c = true
      · cases htt : tryTail (a :: ar) rest with
        | none => exact hcopy (subArrow_cons_nomatch a ar htt)
        | some p =>
          rw [subArrow_cons, if_pos hL, htt]
          dsimp only
          have hlt := @tryTail_length _ _ _ p.1 p.2 (by rw [htt])
          obtain ⟨u1, u2, hdec, hu1, hu2, hpR⟩ :=
            @tryTail_decomp _ _ _ p.1 p.2 (by rw [htt])
          constructor
          · simp
          · intro hlast d hd
            by_cases hp2 : p.2 = []
            · rw [hp2, subArrow_nil] at hd
              have hshape : (c :: ' ' :: ((a :: ar) ++ (' ' :: p.1 :: []))) =
                  (c :: ' ' :: ((a :: ar) ++ [' '])) ++ [p.1] := by simp
              rw [hshape, getLast?_append_right (by simp)] at hd
              simp only [List.getLast?_singleton, Option.mem_def,
                Option.some.injEq] at hd
              rw [← hd]
              exact arrowR_not_ws hpR
            · have hsne : subArrow a ar p.2 ≠ [] := by
                intro hx
                exact hp2 (((ih p.2 (by omega)).1).mp hx)
              have hshape : (c :: ' ' ::
                  ((a :: ar) ++ (' ' :: p.1 :: subArrow a ar p.2))) =
                  (c :: ' ' :: ((a :: ar) ++ (' ' :: p.1 :: []))) ++
                    subArrow a ar p.2 := by simp
              rw [hshape, getLast?_append_right hsne] at hd
              refine (ih p.2 (by omega)).2 ?_ d hd
              intro e he
              apply hlast
              have hrne : rest ≠ [] := by
                rw [hdec]
                simp
              rw [getLast?_cons_of_ne_nil hrne, hdec,
                getLast?_append_right (by simp),
                getLast?_append_right (by simp),
                getLast?_append_right (by simp),
                getLast?_cons_of_ne_nil hp2]
              exact he
      · exact hcopy (subArrow_cons_copy a ar (by
          cases hx : isArrowL c with
          | false => rfl
          | true => exact absurd hx hL) rest)

/-! String-surgery lemmas for the pie branch of the fixer. -/

theorem mem_of_mem_pyStrip {c : Char} {s : Str} (h : c ∈ pyStrip s) : c ∈ s := by
  unfold pyStrip at h
  rw [List.mem_reverse] at h
  have h1 := (List.dropWhile_sublist (l := (s.dropWhile isPySpace).reverse)
    (p := isPySpace)).mem h
  rw [List.mem_reverse] at h1
  exact (List.dropWhile_sublist (l := s) (p := isPySpace)).mem h1

theorem mem_of_mem_stripQuotes {c : Char} {s : Str} (h : c ∈ stripQuotes s) :
    c ∈ s := by
  unfold stripQuotes at h
  rw [List.mem_reverse] at h
  have h1 := (List.dropWhile_sublist
    (l := (s.dropWhile (· == '"')).reverse) (p := (· == '"'))).mem h
  rw [List.mem_reverse] at h1
  exact (List.dropWhile_sublist (l := s) (p := (· == '"'))).mem h1

theorem splitOnSub_pieces_sep (s0 : Char) : ∀ (n : Nat) (s : Str), s.length ≤ n →
    ∀ p ∈ splitOnSub [s0] s, ∀ c ∈ p, (c == s0) = false := by
  intro n
  induction n with
  | zero =>
    intro s h p hp c hc
    obtain rfl : s = [] := List.length_eq_zero.mp (Nat.le_zero.mp h)
    rw [splitOnSub_nil] at hp
    rcases List.mem_singleton.mp hp with rfl
    simp at hc
  | succ n ih =>
    intro s hn p hp c hc
    cases s with
    | nil =>
      rw [splitOnSub_nil] at hp
      rcases List.mem_singleton.mp hp with rfl
      simp at hc
    | cons c0 rest =>
      simp only [List.length_cons] at hn
      rw [splitOnSub_cons] at hp
      by_cases hpre : (([s0] : Str).isPrefixOf (c0 :: rest) &&
          !([s0] : Str).isEmpty) = true
      · rw [if_pos hpre] at hp
        rcases List.mem_cons.mp hp with rfl | hp2
        · simp at hc
        · have hdrop : rest.drop (([s0] : Str).length - 1) = rest := by simp
          rw [hdrop] at hp2
          exact ih rest (by omega) p hp2 c hc
      · rw [if_neg hpre] at hp
        have hc0 : (c0 == s0) = false := by
          cases hx : (c0 == s0) with
          | false => rfl
          | true =>
            exfalso
            apply hpre
            have : c0 = s0 := beq_iff_eq.mp hx
            subst this
            simp [List.isPrefixOf]
        cases hsp : splitOnSub [s0] rest with
        | nil => exact absurd hsp (splitOnSub_ne_nil _ _)
        | cons p0 ps =>
          rw [hsp] at hp
          rcases List.mem_cons.mp hp with rfl | hp2
          · rcases List.mem_cons.mp hc with rfl | hc2
            · exact hc0
            · exact ih rest (by omega) p0 (by rw [hsp]; simp) c hc2
          · exact ih rest (by omega) p
              (by rw [hsp]; exact List.mem_cons_of_mem _ hp2) c hc

theorem splitOnSub_mem_chars (sep : Str) : ∀ (n : Nat) (s : Str), s.length ≤ n →
    ∀ p ∈ splitOnSub sep s, ∀ c ∈ p, c ∈ s := by
  intro n
  induction n with
  | zero =>
    intro s h p hp c hc
    obtain rfl : s = [] := List.length_eq_zero.mp (Nat.le_zero.mp h)
    rw [splitOnSub_nil] at hp
    rcases List.mem_singleton.mp hp with rfl
    simp at hc
  | succ n ih =>
    intro s hn p hp c hc
    cases s with
    | nil =>
      rw [splitOnSub_nil] at hp
      rcases List.mem_singleton.mp hp with rfl
      simp at hc
    | cons c0 rest =>
      simp only [List.length_cons] at hn
      rw [splitOnSub_cons] at hp
      have hdl := List.length_drop (sep.length - 1) rest
      by_cases hpre : (sep.isPrefixOf (c0 :: rest) && !sep.isEmpty) = true
      · rw [if_pos hpre] at hp
        rcases List.mem_cons.mp hp with rfl | hp2
        · simp at hc
        · have := ih (rest.drop (sep.length - 1)) (by omega) p hp2 c hc
          exact List.mem_cons_of_mem _ (List.drop_subset _ rest this)
      · rw [if_neg hpre] at hp
        cases hsp : splitOnSub sep rest with
        | nil => exact absurd hsp (splitOnSub_ne_nil _ _)
        | cons p0 ps =>
          rw [hsp] at hp
          rcases List.mem_cons.mp hp with rfl | hp2
          · rcases List.mem_cons.mp hc with rfl | hc2
            · exact List.mem_cons_self _ _
            · exact List.mem_cons_of_mem _
                (ih rest (by omega) p0 (by rw [hsp]; simp) c hc2)
          · exact List.mem_cons_of_mem _ (ih rest (by omega) p
              (by rw [hsp]; exact List.mem_cons_of_mem _ hp2) c hc)

theorem splitOnSub_single {s0 : Char} {bs : Str}
    (h : ∀ c ∈ bs, (c == s0) = false) : splitOnSub [s0] bs = [bs] := by
  rw [show bs = bs ++ [] from by simp, splitOnSub_append_left [] bs [] h,
    splitOnSub_nil]

theorem pyStrip_ws_prefix {w : Str} (hw : ∀ c ∈ w, isPySpace c = true)
    (s : Str) : pyStrip (w ++ s) = pyStrip s := by
  unfold pyStrip
  rw [dropWhile_append_all hw]

theorem pyRStrip_id_of_last {s : Str}
    (h : ∀ c ∈ s.getLast?, isPySpace c = false) : pyRStrip s = s := by
  unfold pyRStrip
  rw [dropWhile_eq_self_of (by
    intro c hc
    rw [List.head?_reverse] at hc
    exact h c hc), List.reverse_reverse]

theorem pyStrip_eq_pyRStrip_of_head {s : Str}
    (h : ∀ c ∈ s.head?, isPySpace c = false) : pyStrip s = pyRStrip s := by
  rw [pyStrip_as_rstrip, dropWhile_eq_self_of h]

theorem pyRStrip_ne_nil_of_nonblank {s : Str}
    (h : (pyStrip s).isEmpty = false) : pyRStrip s ≠ [] := by
  intro hx
  unfold pyRStrip at hx
  have h1 : s.reverse.dropWhile isPySpace = [] := by
    have := congrArg List.reverse hx
    rwa [List.reverse_reverse, List.reverse_nil] at this
  have hall : ∀ c ∈ s, isPySpace c = true := by
    intro c hc
    exact List.dropWhile_eq_nil_iff.mp h1 c (List.mem_reverse.mpr hc)
  have hs : pyStrip s = [] := by
    rw [pyStrip_as_rstrip, dropWhile_all hall]
    rfl
  rw [hs] at h
  simp at h

theorem pyRStrip_append_keep {B : Str} (hB : pyRStrip B ≠ []) (A : Str) :
    pyRStrip (A ++ B) = A ++ pyRStrip B := by
  unfold pyRStrip at hB ⊢
  rw [List.reverse_append, List.dropWhile_append]
  have hne : (B.reverse.dropWhile isPySpace).isEmpty = false := by
    cases hx : B.reverse.dropWhile isPySpace with
    | nil => exact absurd (by rw [hx]; rfl) hB
    | cons a b => rfl
  rw [if_neg (by rw [hne]; simp)]
  rw [List.reverse_append, List.reverse_reverse]

theorem pyRStrip_cons {t : Str} (ht : pyRStrip t ≠ []) (c : Char) :
    pyRStrip (c :: t) = c :: pyRStrip t := by
  have := pyRStrip_append_keep ht [c]
  simpa using this

theorem pyStrip_pyRStrip (s : Str) : pyStrip (pyRStrip s) = pyStrip s := by
  rw [pyStrip_as_rstrip, pyStrip_as_rstrip]
  have hcomm : (pyRStrip s).dropWhile isPySpace =
      pyRStrip (s.dropWhile isPySpace) := by
    cases hD : s.dropWhile isPySpace with
    | nil =>
      have hall : ∀ c ∈ s, isPySpace c = true := List.dropWhile_eq_nil_iff.mp hD
      have hrs : pyRStrip s = [] := by
        unfold pyRStrip
        rw [dropWhile_all (fun c hc => hall c (List.mem_reverse.mp hc))]
        rfl
      rw [hrs]
      rfl
    | cons d D' =>
      have hd : isPySpace d = false := by
        have hh := head?_dropWhile_not isPySpace s
        rw [hD] at hh
        exact hh d (by simp)
      obtain ⟨q, hq⟩ := dropWhile_last_nonsat isPySpace d hd D'.reverse
      have hshape : pyRStrip (d :: D') = d :: q := by
        unfold pyRStrip
        rw [show (d :: D').reverse = D'.reverse ++ [d] from by simp]
        exact hq
      have hDne : pyRStrip (d :: D') ≠ [] := by
        rw [hshape]
        simp
      have hsplit : s = s.takeWhile isPySpace ++ (d :: D') := by
        rw [← hD]
        exact (List.takeWhile_append_dropWhile ..).symm
      conv_lhs => rw [hsplit]
      rw [pyRStrip_append_keep hDne,
        dropWhile_append_all (fun c hc => List.mem_takeWhile_imp hc)]
      rw [hshape, List.dropWhile_cons, if_neg (by simp [hd])]
  rw [hcomm, pyRStrip_idem]

theorem pyRStrip_append_ws {w : Str} (hw : ∀ c ∈ w, isPySpace c = true)
    (s : Str) : pyRStrip (s ++ w) = pyRStrip s := by
  unfold pyRStrip
  rw [List.reverse_append,
    dropWhile_append_all (fun c hc => hw c (List.mem_reverse.mp hc))]

theorem revDropWhile_prefix (p : Char → Bool) (s : Str) :
    ((s.reverse.dropWhile p).reverse : Str) <+: s := by
  obtain ⟨t, ht⟩ := List.dropWhile_suffix (l := s.reverse) (p := p)
  refine ⟨t.reverse, ?_⟩
  rw [← List.reverse_append, ht, List.reverse_reverse]

theorem revDropWhile_head? (p : Char → Bool) (s : Str)
    (hne : (s.reverse.dropWhile p).reverse ≠ ([] : Str)) :
    ((s.reverse.dropWhile p).reverse).head? = s.head? :=
  head?_of_prefix ( revDropWhile_prefix p s) hne

theorem stripQuotes_ends (s : Str) :
    (∀ c ∈ (stripQuotes s).head?, (c == '"') = false) ∧
    (∀ c ∈ (stripQuotes s).getLast?, (c == '"') = false) := by
  constructor
  · intro c hc
    by_cases hne : stripQuotes s = []
    · rw [hne] at hc; simp at hc
    · unfold stripQuotes at hc hne
      rw [revDropWhile_head? (· == '"') _ hne] at hc
      exact head?_dropWhile_not (· == '"') s c hc
  · intro c hc
    unfold stripQuotes at hc
    rw [List.getLast?_reverse] at hc
    exact head?_dropWhile_not (· == '"') _ c hc

theorem stripQuotes_wrap {m : Str}
    (h1 : ∀ c ∈ m.head?, (c == '"') = false)
    (h2 : ∀ c ∈ m.getLast?, (c == '"') = false) :
    stripQuotes ('"' :: (m ++ ['"'])) = m := by
  cases m with
  | nil => decide
  | cons m0 mt =>
    unfold stripQuotes
    have hstep1 : ('"' :: ((m0 :: mt) ++ ['"'])).dropWhile (· == '"') =
        (m0 :: mt) ++ ['"'] := by
      rw [List.dropWhile_cons, if_pos (by simp),
        show ((m0 :: mt) ++ ['"']) = m0 :: (mt ++ ['"']) from rfl,
        List.dropWhile_cons, if_neg (by simp [h1 m0 (by simp)])]
    rw [hstep1,
      show ((m0 :: mt) ++ ['"']).reverse = '"' :: (m0 :: mt).reverse from by simp,
      List.dropWhile_cons, if_pos (by simp),
      dropWhile_eq_self_of (by
        intro c hc
        rw [List.head?_reverse] at hc
        exact h2 c hc),
      List.reverse_reverse]

theorem canonPieLine_eq (label value : Str) :
    canonPieLine label value =
      (("    \"".toList : Str)) ++ (label ++ ((("\" : ".toList : Str)) ++ value)) := by
  unfold canonPieLine
  simp [List.append_assoc]

theorem fixPieDataLine_congr {s1 s2 : Str} (h : pyStrip s1 = pyStrip s2) :
    fixPieDataLine s1 = fixPieDataLine s2 := by
  unfold fixPieDataLine
  rw [h]

theorem fixPieDataLine_plain {L : Str} (hne : L ≠ [])
    (hst : pyStrip L = L) (hcol : containsSub [':'] L = false) :
    fixPieDataLine L = some L := by
  simp only [fixPieDataLine, hst]
  rw [if_neg (by
    cases L with
    | nil => exact absurd rfl hne
    | cons a b => simp)]
  rw [hcol, if_neg (by simp)]

theorem fixPieDataLine_canon (lab val : Str)
    (hlabq1 : ∀ c ∈ lab.head?, (c == '"') = false)
    (hlabq2 : ∀ c ∈ lab.getLast?, (c == '"') = false)
    (hlabc : ∀ c ∈ lab, (c == ':') = false)
    (hvalc : ∀ c ∈ val, (c == ':') = false)
    (hvalst : pyStrip val = val) :
    fixPieDataLine (canonPieLine lab val) = some (canonPieLine lab val) := by
  have hC : pyStrip ('"' :: (lab ++ ['"', ' '])) = '"' :: (lab ++ ['"']) := by
    rw [pyStrip_eq_pyRStrip_of_head (by
      intro c hc
      simp only [List.head?_cons, Option.mem_def, Option.some.injEq] at hc
      subst hc
      decide)]
    rw [show ('"' :: (lab ++ ['"', ' '])) = ('"' :: (lab ++ ['"'])) ++ [' ']
      from by simp]
    rw [pyRStrip_append_ws (by decide)]
    exact pyRStrip_id_of_last (by
      intro c hc
      rw [show ('"' :: (lab ++ ['"'])) = ('"' :: lab) ++ ['"'] from by simp,
        getLast?_append_right (by simp)] at hc
      simp only [List.getLast?_singleton, Option.mem_def, Option.some.injEq] at hc
      rw [← hc]
      decide)
  have hColFree : ∀ c ∈ ('"' :: (lab ++ ['"', ' '])), (c == ':') = false := by
    intro c hc
    rcases List.mem_cons.mp hc with rfl | hc2
    · decide
    · rcases List.mem_append.mp hc2 with hc3 | hc4
      · exact hlabc c hc3
      · rcases List.mem_cons.mp hc4 with rfl | hc5
        · decide
        · simp only [List.mem_singleton] at hc5
          subst hc5
          decide
  by_cases hv : val = []
  · subst hv
    have hl : pyStrip (canonPieLine lab []) =
        ('"' :: (lab ++ ['"', ' '])) ++ [':'] := by
      have h0 : canonPieLine lab [] =
          ([' ', ' ', ' ', ' '] : Str) ++
            ('"' :: (lab ++ (['"', ' ', ':', ' '] ++ ([] : Str)))) := by
        rw [canonPieLine_eq]
        rfl
      rw [h0, pyStrip_ws_prefix (by decide)]
      rw [pyStrip_eq_pyRStrip_of_head (by
        intro c hc
        simp only [List.head?_cons, Option.mem_def, Option.some.injEq] at hc
        subst hc
        decide)]
      rw [show ('"' :: (lab ++ (['"', ' ', ':', ' '] ++ ([] : Str)))) =
        ('"' :: (lab ++ ['"', ' '])) ++ [':', ' '] from by simp]
      rw [pyRStrip_append_keep (by decide),
        show pyRStrip ([':', ' '] : Str) = [':'] from by decide]
    have hparts : splitOnSub [':'] (('"' :: (lab ++ ['"', ' '])) ++ [':']) =
        [('"' :: (lab ++ ['"', ' '])), []] := by
      rw [show (('"' :: (lab ++ ['"', ' '])) ++ [':']) =
        ('"' :: (lab ++ ['"', ' '])) ++ ((':' :: []) ++ []) from by simp]
      rw [splitOnSub_append_left [] _ _ hColFree, splitOnSub_at_sep,
        splitOnSub_nil]
      simp
    simp only [fixPieDataLine, hl]
    rw [if_neg (by simp)]
    rw [show containsSub [':'] (('"' :: (lab ++ ['"', ' '])) ++ [':']) = true from by
      rw [show (('"' :: (lab ++ ['"', ' '])) ++ [':']) =
        ('"' :: (lab ++ ['"', ' '])) ++ (([':'] : Str) ++ []) from by simp]
      exact containsSub_of_append _ _ _]
    rw [if_pos rfl, hparts]
    rw [if_pos (by rfl)]
    rw [show ([('"' :: (lab ++ ['"', ' '])), ([] : Str)].headD []) =
      ('"' :: (lab ++ ['"', ' '])) from rfl]
    rw [hC, stripQuotes_wrap hlabq1 hlabq2]
    rfl
  · obtain ⟨v0, vt, hvv⟩ : ∃ v0 vt, val = v0 :: vt := by
      cases val with
      | nil => exact absurd rfl hv
      | cons v0 vt => exact ⟨v0, vt, rfl⟩
    have hvlast : ∀ c ∈ val.getLast?, isPySpace c = false := by
      rw [← hvalst]
      exact (pyStrip_ends val).2
    have hvrs : pyRStrip val = val := pyRStrip_id_of_last hvlast
    have hvne : pyRStrip val ≠ [] := by
      rw [hvrs, hvv]
      simp
    have hl : pyStrip (canonPieLine lab val) =
        ('"' :: (lab ++ ['"', ' ', ':', ' '])) ++ val := by
      have h0 : canonPieLine lab val =
          ([' ', ' ', ' ', ' '] : Str) ++
            ('"' :: (lab ++ (['"', ' ', ':', ' '] ++ val))) := by
        rw [canonPieLine_eq]
        rfl
      rw [h0, pyStrip_ws_prefix (by decide)]
      rw [pyStrip_eq_pyRStrip_of_head (by
        intro c hc
        simp only [List.head?_cons, Option.mem_def, Option.some.injEq] at hc
        subst hc
        decide)]
      rw [show ('"' :: (lab ++ (['"', ' ', ':', ' '] ++ val))) =
        ('"' :: (lab ++ ['"', ' ', ':', ' '])) ++ val from by simp]
      rw [pyRStrip_append_keep hvne, hvrs]
    have hshape : (('"' :: (lab ++ ['"', ' ', ':', ' '])) ++ val) =
        ('"' :: (lab ++ ['"', ' '])) ++ ((':' :: []) ++ (' ' :: val)) := by
      simp
    have hparts : splitOnSub [':']
        ((('"' :: (lab ++ ['"', ' ', ':', ' '])) ++ val)) =
        [('"' :: (lab ++ ['"', ' '])), ' ' :: val] := by
      rw [hshape, splitOnSub_append_left [] _ _ hColFree, splitOnSub_at_sep,
        splitOnSub_single (by
          intro c hc
          rcases List.mem_cons.mp hc with rfl | hc2
          · decide
          · exact hvalc c hc2)]
      simp
    simp only [fixPieDataLine, hl]
    rw [if_neg (by simp)]
    rw [show containsSub [':']
        ((('"' :: (lab ++ ['"', ' ', ':', ' '])) ++ val)) = true from by
      rw [hshape]
      exact containsSub_of_append _ _ _]
    rw [if_pos rfl, hparts]
    rw [if_pos (by rfl)]
    rw [show ([('"' :: (lab ++ ['"', ' '])), ' ' :: val].headD []) =
      ('"' :: (lab ++ ['"', ' '])) from rfl]
    rw [hC, stripQuotes_wrap hlabq1 hlabq2]
    rw [show (([('"' :: (lab ++ ['"', ' '])), ' ' :: val].drop 1).headD []) =
      (' ' :: val) from rfl]
    rw [show (' ' :: val) = [' '] ++ val from rfl, pyStrip_ws_prefix (by decide),
      hvalst]

theorem fixPieDataLine_out {line L : Str} (h : fixPieDataLine line = some L) :
    (∀ c ∈ L, c ∈ line ∨ c ∈ (("    \" : ".toList) : Str)) ∧
    (pyStrip L).isEmpty = false ∧
    fixPieDataLine L = some L := by
  simp only [fixPieDataLine] at h
  by_cases h1 : (pyStrip line).isEmpty = true
  · rw [if_pos h1] at h
    simp at h
  · rw [if_neg h1] at h
    by_cases h2 : containsSub [':'] (pyStrip line) = true
    · rw [if_pos h2] at h
      by_cases h3 : ((splitOnSub [':'] (pyStrip line)).length == 2) = true
      · rw [if_pos h3] at h
        simp only [Option.some.injEq] at h
        have hlen : (splitOnSub [':'] (pyStrip line)).length = 2 :=
          eq_of_beq h3
        obtain ⟨A, B, hAB⟩ : ∃ A B, splitOnSub [':'] (pyStrip line) = [A, B] := by
          cases hx : splitOnSub [':'] (pyStrip line) with
          | nil => rw [hx] at hlen; simp at hlen
          | cons a t =>
            cases t with
            | nil => rw [hx] at hlen; simp at hlen
            | cons b t2 =>
              cases t2 with
              | nil => exact ⟨a, b, rfl⟩
              | cons x y => rw [hx] at hlen; simp at hlen
        rw [hAB] at h
        have h' : canonPieLine (stripQuotes (pyStrip A)) (pyStrip B) = L := h
        subst h'
        have hA : A ∈ splitOnSub [':'] (pyStrip line) := by rw [hAB]; simp
        have hB : B ∈ splitOnSub [':'] (pyStrip line) := by rw [hAB]; simp
        refine ⟨?_, ?_, ?_⟩
        · intro c hc
          have hs1 : ∀ c ∈ (("    \"".toList) : Str),
              c ∈ (("    \" : ".toList) : Str) := by decide
          have hs2 : ∀ c ∈ (("\" : ".toList) : Str),
              c ∈ (("    \" : ".toList) : Str) := by decide
          simp only [canonPieLine, List.mem_append] at hc
          rcases hc with ((hc1 | hc2) | hc3) | hc4
          · exact Or.inr (hs1 c hc1)
          · exact Or.inl (mem_of_mem_pyStrip
              (splitOnSub_mem_chars [':'] (pyStrip line).length _ le_rfl A hA c
                (mem_of_mem_pyStrip (mem_of_mem_stripQuotes hc2))))
          · exact Or.inr (hs2 c hc3)
          · exact Or.inl (mem_of_mem_pyStrip
              (splitOnSub_mem_chars [':'] (pyStrip line).length _ le_rfl B hB c
                (mem_of_mem_pyStrip hc4)))
        · cases hx : (pyStrip (canonPieLine (stripQuotes (pyStrip A))
              (pyStrip B))).isEmpty with
          | false => rfl
          | true =>
            have hq := all_ws_of_strip_empty hx '"' (by
              rw [canonPieLine_eq]
              exact List.mem_append.mpr (Or.inl (by decide)))
            exact absurd hq (by decide)
        · apply fixPieDataLine_canon
          · exact (stripQuotes_ends _).1
          · exact (stripQuotes_ends _).2
          · intro c hc
            exact splitOnSub_pieces_sep ':' (pyStrip line).length _ le_rfl A hA c
              (mem_of_mem_pyStrip (mem_of_mem_stripQuotes hc))
          · intro c hc
            exact splitOnSub_pieces_sep ':' (pyStrip line).length _ le_rfl B hB c
              (mem_of_mem_pyStrip hc)
          · exact pyStrip_idem B
      · rw [if_neg h3] at h
        simp at h
    · rw [if_neg h2] at h
      simp only [Option.some.injEq] at h
      subst h
      have hcolL : containsSub [':'] (pyStrip line) = false := by
        cases hx : containsSub [':'] (pyStrip line) with
        | false => rfl
        | true => exact absurd hx h2
      refine ⟨?_, ?_, ?_⟩
      · intro c hc
        exact Or.inl (mem_of_mem_pyStrip hc)
      · rw [pyStrip_idem]
        cases hx : (pyStrip line).isEmpty with
        | false => rfl
        | true => exact absurd hx h1
      · apply fixPieDataLine_plain
        · intro hx
          apply h1
          rw [hx]
          rfl
        · exact pyStrip_idem line
        · exact hcolL

theorem filterMap_id_of {f : Str → Option Str} :
    ∀ {l : List Str}, (∀ x ∈ l, f x = some x) → l.filterMap f = l := by
  intro l
  induction l with
  | nil => intro _; rfl
  | cons x t ih =>
    intro h
    rw [List.filterMap_cons, h x (List.mem_cons_self _ _),
      ih (fun y hy => h y (List.mem_cons_of_mem _ hy))]

theorem collapseLines_all_nonblank : ∀ (ls : List Str) (b : Bool),
    (∀ l ∈ ls, (pyStrip l).isEmpty = false) → collapseLines b ls = ls := by
  intro ls
  induction ls with
  | nil => intro b _; rfl
  | cons l t ih =>
    intro b h
    rw [collapseLines_cons_nonblank b t (h l (List.mem_cons_self _ _)),
      ih false (fun x hx => h x (List.mem_cons_of_mem _ hx))]

theorem glue_append (A B : List Str) : glue (A ++ B) = glue A ++ glue B := by
  unfold glue
  rw [List.map_append, List.flatten_append]

theorem nonblank_of_last_nonws {l : Str}
    (h : ∀ c ∈ l.getLast?, isPySpace c = false) (hne : l ≠ []) :
    (pyStrip l).isEmpty = false := by
  cases hx : (pyStrip l).isEmpty with
  | false => rfl
  | true =>
    obtain ⟨c, hc⟩ : ∃ c, l.getLast? = some c :=
      ⟨l.getLast hne, List.getLast?_eq_getLast l hne⟩
    have hws := all_ws_of_strip_empty hx c
      (List.mem_of_mem_getLast? (by rw [hc]; rfl))
    have hnw := h c (by rw [hc]; rfl)
    rw [hnw] at hws
    exact absurd hws (by simp)

theorem lastline_nonblank {z : Str} (hne : z ≠ [])
    (hlast : ∀ c ∈ z.getLast?, isPySpace c = false) :
    ∀ x ∈ (splitLines z).getLast?, (pyStrip x).isEmpty = false := by
  intro x hx
  cases hsp : splitLines z with
  | nil => exact absurd hsp (splitOnSub_ne_nil _ _)
  | cons l0 ls =>
    rw [hsp] at hx
    have hz : z = joinLines (l0 :: ls) := by rw [← hsp, joinLines_splitLines]
    obtain hls | ⟨init, lastl, hc⟩ := ls.eq_nil_or_concat
    · subst hls
      simp only [List.getLast?_singleton, Option.mem_def, Option.some.injEq] at hx
      subst hx
      have hz0 : z = l0 := by rw [hz]; rfl
      rw [← hz0]
      exact nonblank_of_last_nonws hlast hne
    · subst hc
      rw [List.concat_eq_append] at hx hz
      rw [show l0 :: (init ++ [lastl]) = (l0 :: init) ++ [lastl] from rfl,
        List.getLast?_concat] at hx
      simp only [Option.mem_def, Option.some.injEq] at hx
      subst hx
      have hz2 : z = (l0 ++ glue init) ++ ('\n' :: lastl) := by
        rw [hz, joinLines_glue, glue_append]
        simp [glue]
      have hxne : lastl ≠ [] → ∀ c ∈ lastl.getLast?, isPySpace c = false := by
        intro hxn c hcc
        apply hlast
        rw [hz2, getLast?_append_right (by simp), getLast?_cons_of_ne_nil hxn]
        exact hcc
      by_cases hxn : lastl = []
      · exfalso
        rw [hxn] at hz2
        have h1 : ('\n' : Char) ∈ z.getLast? := by
          rw [hz2, getLast?_append_right (by simp)]
          simp
        exact absurd (hlast '\n' h1) (by decide)
      · exact nonblank_of_last_nonws (hxne hxn) hxn

theorem WsRel_isPrefixOf {z w : Str} (h : WsRel z w) :
    ∀ pat : Str, (∀ c ∈ pat, isPySpace c = false) →
      pat.isPrefixOf z = pat.isPrefixOf w := by
  induction h with
  | nil => intro pat _; rfl
  | cons hc0 h' ih =>
    rename_i c z0 w0
    intro pat hpat
    cases pat with
    | nil => rfl
    | cons p pt =>
      show (p == c && pt.isPrefixOf z0) = (p == c && pt.isPrefixOf w0)
      rw [ih pt (fun d hd => hpat d (List.mem_cons_of_mem p hd))]
  | run hr hs hrws hsws hor h' ih =>
    rename_i r s z0 w0
    intro pat hpat
    obtain ⟨r0, r', rfl⟩ : ∃ r0 r', r = r0 :: r' := by
      cases r with
      | nil => exact absurd rfl hr
      | cons a b => exact ⟨a, b, rfl⟩
    obtain ⟨s0, s', rfl⟩ : ∃ s0 s', s = s0 :: s' := by
      cases s with
      | nil => exact absurd rfl hs
      | cons a b => exact ⟨a, b, rfl⟩
    cases pat with
    | nil => rfl
    | cons p pt =>
      have hp : isPySpace p = false := hpat p (List.mem_cons_self p pt)
      have hpr : (p == r0) = false := by
        cases hq : p == r0 with
        | false => rfl
        | true =>
          rw [beq_iff_eq] at hq
          rw [hq, hrws r0 (List.mem_cons_self _ _)] at hp
          simp at hp
      have hps : (p == s0) = false := by
        cases hq : p == s0 with
        | false => rfl
        | true =>
          rw [beq_iff_eq] at hq
          rw [hq, hsws s0 (List.mem_cons_self _ _)] at hp
          simp at hp
      show (p == r0 && pt.isPrefixOf (r' ++ z0)) =
        (p == s0 && pt.isPrefixOf (s' ++ w0))
      rw [hpr, hps]
      simp

theorem isPrefixOf_append_nl : ∀ (pat A B : Str),
    (∀ c ∈ pat, (c == '\n') = false) →
    pat.isPrefixOf (A ++ '\n' :: B) = true → pat.isPrefixOf A = true := by
  intro pat
  induction pat with
  | nil => intro A B _ _; cases A <;> rfl
  | cons p pt ih =>
    intro A B hno hp
    cases A with
    | nil =>
      simp only [List.nil_append, List.isPrefixOf, Bool.and_eq_true,
        beq_iff_eq] at hp
      obtain ⟨h1, -⟩ := hp
      have := hno p (List.mem_cons_self p pt)
      rw [h1] at this
      simp at this
    | cons a A' =>
      simp only [List.cons_append, List.isPrefixOf, Bool.and_eq_true] at hp ⊢
      obtain ⟨h1, h2⟩ := hp
      exact ⟨h1, ih A' B (fun d hd => hno d (List.mem_cons_of_mem p hd)) h2⟩

theorem splitLines_head_prefix {pat s : Str} (hp : pat.isPrefixOf s = true)
    (hpat : ∀ c ∈ pat, (c == '\n') = false) :
    ∃ l0 rest, splitLines s = l0 :: rest ∧ pat.isPrefixOf l0 = true := by
  cases hsp : splitLines s with
  | nil => exact absurd hsp (splitOnSub_ne_nil _ _)
  | cons l0 ls =>
    refine ⟨l0, ls, rfl, ?_⟩
    have hz : s = joinLines (l0 :: ls) := by rw [← hsp, joinLines_splitLines]
    cases hls : ls with
    | nil =>
      have hsl : s = l0 := by rw [hz, hls]; rfl
      rw [hsl] at hp
      exact hp
    | cons l1 lt =>
      have hz2 : s = l0 ++ ('\n' :: (l1 ++ glue lt)) := by
        rw [hz, hls, joinLines_glue, glue_cons]
        simp
      rw [hz2] at hp
      exact isPrefixOf_append_nl pat l0 _ hpat hp

theorem isPrefixOf_pyRStrip {pat s : Str} (hp : pat.isPrefixOf s = true)
    (hpat : ∀ c ∈ pat, isPySpace c = false) :
    pat.isPrefixOf (pyRStrip s) = true := by
  obtain ⟨t, ht⟩ := List.isPrefixOf_iff_prefix.mp hp
  subst ht
  by_cases hT : pyRStrip t = []
  · have hall : ∀ c ∈ t, isPySpace c = true := by
      intro c hc
      have h1 : t.reverse.dropWhile isPySpace = [] := by
        unfold pyRStrip at hT
        have h2 := congrArg List.reverse hT
        rwa [List.reverse_reverse, List.reverse_nil] at h2
      exact List.dropWhile_eq_nil_iff.mp h1 c (List.mem_reverse.mpr hc)
    rw [pyRStrip_append_ws hall]
    cases pat with
    | nil => rfl
    | cons p pt =>
      rw [pyRStrip_id_of_last (by
        intro c hc
        exact hpat c (List.mem_of_mem_getLast? hc))]
      exact List.isPrefixOf_iff_prefix.mpr (List.prefix_refl _)
  · rw [pyRStrip_append_keep hT]
    exact List.isPrefixOf_iff_prefix.mpr ⟨pyRStrip t, rfl⟩

theorem isPrefixOf_append_self (pat t : Str) :
    pat.isPrefixOf (pat ++ t) = true :=
  List.isPrefixOf_iff_prefix.mpr ⟨t, rfl⟩

theorem collapseBlank_of_nonblank {code : Str}
    (h : ∀ l ∈ splitLines code, (pyStrip l).isEmpty = false) :
    collapseBlank code = code := by
  unfold collapseBlank
  rw [collapseLines_all_nonblank _ false h, joinLines_splitLines]

theorem isPrefixOf_append_left (pat A B : Str) (h : pat.isPrefixOf A = true) :
    pat.isPrefixOf (A ++ B) = true := by
  obtain ⟨u, hu⟩ := List.isPrefixOf_iff_prefix.mp h
  rw [← hu, List.append_assoc]
  exact isPrefixOf_append_self pat (u ++ B)

theorem isPrefixOf_head_ne {p b : Char} {pt t : Str} (h : (p == b) = false) :
    (p :: pt).isPrefixOf (b :: t) = false := by
  show (p == b && pt.isPrefixOf t) = false
  rw [h]
  simp

theorem mem_of_mem_pyRStrip {c : Char} {s : Str} (h : c ∈ pyRStrip s) : c ∈ s :=
  (( revDropWhile_prefix isPySpace s).sublist).subset h

theorem bool_ne_true {b : Bool} (h : b = false) : ¬(b = true) := by
  intro hc
  rw [h] at hc
  exact Bool.noConfusion hc

theorem fix_fixed_point_nonpie {y : Str}
    (h0 : pyStrip y = y)
    (hpie : (("pie".toList) : Str).isPrefixOf y = false)
    (h2 : (("graph".toList) : Str).isPrefixOf y = true → fixGraphArrows y = y)
    (h3 : collapseBlank y = y) :
    fix_mermaid_syntax y = y := by
  simp only [ fix_mermaid_syntax, h0]
  rw [if_neg (bool_ne_true hpie)]
  by_cases hg : (("graph".toList) : Str).isPrefixOf y = true
  · rw [if_pos hg, h2 hg, h3]
  · rw [if_neg hg, h3]

theorem fix_fixed_point_pie {y : Str}
    (hpie : (("pie".toList) : Str).isPrefixOf (pyStrip y) = true)
    (h1 : fixPie (pyStrip y) = y)
    (hgraph : (("graph".toList) : Str).isPrefixOf y = false)
    (h3 : collapseBlank y = y) :
    fix_mermaid_syntax y = y := by
  simp only [ fix_mermaid_syntax]
  rw [if_pos hpie, h1, if_neg (bool_ne_true hgraph), h3]

theorem fix_scenario_neither {s : Str}
    (hpie : (("pie".toList) : Str).isPrefixOf (pyStrip s) = false)
    (hgraph : (("graph".toList) : Str).isPrefixOf (pyStrip s) = false) :
    fix_mermaid_syntax ( fix_mermaid_syntax s) = fix_mermaid_syntax s := by
  have hy : fix_mermaid_syntax s = collapseBlank (pyStrip s) := by
    simp only [ fix_mermaid_syntax]
    rw [if_neg (bool_ne_true hpie), if_neg (bool_ne_true hgraph)]
  by_cases hc0 : pyStrip s = []
  · rw [hy, hc0]
    decide
  · have hlast0 : ∀ c ∈ (pyStrip s).getLast?, isPySpace c = false :=
      (pyStrip_ends s).2
    have hhead0 : ∀ c ∈ (pyStrip s).head?, isPySpace c = false :=
      (pyStrip_ends s).1
    have hW : WsRel (pyStrip s) ( fix_mermaid_syntax s) := by
      rw [hy]
      exact WsRel_collapseBlank _ (lastline_nonblank hc0 hlast0)
    have hyhead : ∀ c ∈ ( fix_mermaid_syntax s).head?, isPySpace c = false := by
      obtain ⟨ch, t, hct⟩ : ∃ ch t, pyStrip s = ch :: t := by
        cases hq : pyStrip s with
        | nil => exact absurd hq hc0
        | cons a b => exact ⟨a, b, rfl⟩
      have hchw : isPySpace ch = false := hhead0 ch (by rw [hct]; rfl)
      obtain ⟨w', hw', -⟩ := WsRel_nonws_chunk (B := [ch])
        (by
          intro x hx
          simp only [List.mem_singleton] at hx
          rw [hx]
          exact hchw)
        (hct ▸ hW)
      intro c hc
      rw [hw'] at hc
      simp only [List.singleton_append, List.head?_cons, Option.mem_def,
        Option.some.injEq] at hc
      rw [← hc]
      exact hchw
    have hylast : ∀ c ∈ ( fix_mermaid_syntax s).getLast?, isPySpace c = false :=
      WsRel_getLast_nonws hW hlast0
    apply fix_fixed_point_nonpie
    · exact pyStrip_id_of_ends hyhead hylast
    · rw [← WsRel_isPrefixOf hW _ (by decide)]
      exact hpie
    · intro hg
      exfalso
      rw [← WsRel_isPrefixOf hW _ (by decide), hgraph] at hg
      simp at hg
    · rw [hy]
      exact collapseBlank_idem _

theorem fix_scenario_graph {s : Str}
    (hpie : (("pie".toList) : Str).isPrefixOf (pyStrip s) = false)
    (hgraph : (("graph".toList) : Str).isPrefixOf (pyStrip s) = true) :
    fix_mermaid_syntax ( fix_mermaid_syntax s) = fix_mermaid_syntax s := by
  have hy : fix_mermaid_syntax s = collapseBlank (fixGraphArrows (pyStrip s)) := by
    simp only [ fix_mermaid_syntax]
    rw [if_neg (bool_ne_true hpie), if_pos hgraph]
  obtain ⟨t0, ht0⟩ := List.isPrefixOf_iff_prefix.mp hgraph
  have hzdef : fixGraphArrows (pyStrip s) =
      subArrow '-' ['-'] (subArrow '-' ['-', '>'] (pyStrip s)) := rfl
  obtain ⟨t1, ht1⟩ := subArrow_graph ['-', '>'] t0
  obtain ⟨t2, ht2⟩ := subArrow_graph ['-'] t1
  have hz : fixGraphArrows (pyStrip s) = (("graph".toList) : Str) ++ t2 := by
    rw [hzdef, ← ht0, ht1, ht2]
  have hzne : fixGraphArrows (pyStrip s) ≠ [] := by
    rw [hz]
    simp
  have hlast0 : ∀ c ∈ (pyStrip s).getLast?, isPySpace c = false :=
    (pyStrip_ends s).2
  have hlast1 : ∀ c ∈ (subArrow '-' ['-', '>'] (pyStrip s)).getLast?,
      isPySpace c = false :=
    (subArrow_ends '-' ['-', '>'] (pyStrip s).length (pyStrip s) le_rfl).2 hlast0
  have hlastz : ∀ c ∈ (fixGraphArrows (pyStrip s)).getLast?,
      isPySpace c = false := by
    rw [hzdef]
    exact (subArrow_ends '-' ['-'] _ _ le_rfl).2 hlast1
  have hW : WsRel (fixGraphArrows (pyStrip s)) ( fix_mermaid_syntax s) := by
    rw [hy]
    exact WsRel_collapseBlank _ (lastline_nonblank hzne hlastz)
  have hst1v : stab '-' ['-', '>'] (subArrow '-' ['-', '>'] (pyStrip s)) = true :=
    stab_subArrow '-' ['-', '>'] (by decide) (by decide) _ _ le_rfl
  have hst1z : stab '-' ['-', '>'] (fixGraphArrows (pyStrip s)) = true := by
    rw [hzdef]
    exact (cross_stab _ _ le_rfl).1 hst1v
  have hst2z : stab '-' ['-'] (fixGraphArrows (pyStrip s)) = true := by
    rw [hzdef]
    exact stab_subArrow '-' ['-'] (by decide) (by decide) _ _ le_rfl
  have hst1y : stab '-' ['-', '>'] ( fix_mermaid_syntax s) = true :=
    stab_WsRel '-' ['-', '>'] (by decide) _ _ _ le_rfl hW hst1z
  have hst2y : stab '-' ['-'] ( fix_mermaid_syntax s) = true :=
    stab_WsRel '-' ['-'] (by decide) _ _ _ le_rfl hW hst2z
  obtain ⟨w', hyw, -⟩ := WsRel_nonws_chunk (B := (("graph".toList) : Str))
    (by decide) (hz ▸ hW)
  have hylast : ∀ c ∈ ( fix_mermaid_syntax s).getLast?, isPySpace c = false :=
    WsRel_getLast_nonws hW hlastz
  have hyhead : ∀ c ∈ ( fix_mermaid_syntax s).head?, isPySpace c = false := by
    intro c hc
    rw [hyw] at hc
    have hh : ((("graph".toList) : Str) ++ w').head? = some 'g' := rfl
    rw [hh] at hc
    simp only [Option.mem_def, Option.some.injEq] at hc
    rw [← hc]
    decide
  apply fix_fixed_point_nonpie
  · exact pyStrip_id_of_ends hyhead hylast
  · rw [hyw]
    exact isPrefixOf_head_ne (by decide)
  · intro _
    show subArrow '-' ['-'] (subArrow '-' ['-', '>'] ( fix_mermaid_syntax s)) = _
    rw [subArrow_eq_of_stab '-' ['-', '>'] _ _ le_rfl hst1y,
      subArrow_eq_of_stab '-' ['-'] _ _ le_rfl hst2y]
  · rw [hy]
    exact collapseBlank_idem _

theorem fix_scenario_pie {s : Str}
    (hpie : (("pie".toList) : Str).isPrefixOf (pyStrip s) = true) :
    fix_mermaid_syntax ( fix_mermaid_syntax s) = fix_mermaid_syntax s := by
  obtain ⟨l0, rest, hsp, hl0p⟩ := splitLines_head_prefix hpie (by decide)
  have hfp : fixPie (pyStrip s) =
      joinLines (pyStrip l0 :: rest.filterMap fixPieDataLine) := by
    unfold fixPie
    rw [hsp]
  have hL0p : (("pie".toList) : Str).isPrefixOf (pyStrip l0) = true := by
    rw [pyStrip_eq_pyRStrip_of_head (by
      obtain ⟨u, hu⟩ := List.isPrefixOf_iff_prefix.mp hl0p
      intro c hc
      rw [← hu] at hc
      have hh : ((("pie".toList) : Str) ++ u).head? = some 'p' := rfl
      rw [hh] at hc
      simp only [Option.mem_def, Option.some.injEq] at hc
      rw [← hc]
      decide)]
    exact isPrefixOf_pyRStrip hl0p (by decide)
  have hL0ne : pyStrip l0 ≠ [] := by
    obtain ⟨u, hu⟩ := List.isPrefixOf_iff_prefix.mp hL0p
    rw [← hu]
    simp
  have hL0nb : (pyStrip (pyStrip l0)).isEmpty = false :=
    nonblank_of_last_nonws (pyStrip_ends l0).2 hL0ne
  have hmem : ∀ L ∈ rest.filterMap fixPieDataLine,
      (∀ c ∈ L, (c == '\n') = false) ∧
      (pyStrip L).isEmpty = false ∧ fixPieDataLine L = some L := by
    intro L hL
    obtain ⟨line, hline, hfl⟩ := List.mem_filterMap.mp hL
    obtain ⟨hchars, hnb, hstab⟩ := fixPieDataLine_out hfl
    refine ⟨?_, hnb, hstab⟩
    intro c hc
    rcases hchars c hc with h1 | h2
    · exact splitLines_pieces_nl (pyStrip s) line
        (by rw [hsp]; exact List.mem_cons_of_mem _ hline) c h1
    · have htmpl : ∀ c ∈ (("    \" : ".toList) : Str), (c == '\n') = false := by
        decide
      exact htmpl c h2
  have hLSnn : ∀ p ∈ (pyStrip l0 :: rest.filterMap fixPieDataLine),
      ∀ c ∈ p, (c == '\n') = false := by
    intro p hp
    rcases List.mem_cons.mp hp with rfl | hp2
    · intro c hc
      exact splitLines_pieces_nl (pyStrip s) l0
        (by rw [hsp]; exact List.mem_cons_self _ _) c (mem_of_mem_pyStrip hc)
    · exact (hmem p hp2).1
  have hsplity :
      splitLines (joinLines (pyStrip l0 :: rest.filterMap fixPieDataLine)) =
      pyStrip l0 :: rest.filterMap fixPieDataLine :=
    splitLines_joinLines _ (by simp) hLSnn
  have hLSnb : ∀ p ∈ (pyStrip l0 :: rest.filterMap fixPieDataLine),
      (pyStrip p).isEmpty = false := by
    intro p hp
    rcases List.mem_cons.mp hp with rfl | hp2
    · exact hL0nb
    · exact (hmem p hp2).2.1
  have hcoll :
      collapseBlank (joinLines (pyStrip l0 :: rest.filterMap fixPieDataLine)) =
      joinLines (pyStrip l0 :: rest.filterMap fixPieDataLine) :=
    collapseBlank_of_nonblank (by rw [hsplity]; exact hLSnb)
  have hyhead : (("pie".toList) : Str).isPrefixOf
      (joinLines (pyStrip l0 :: rest.filterMap fixPieDataLine)) = true := by
    rw [joinLines_glue]
    exact isPrefixOf_append_left _ _ _ hL0p
  have hgf : (("graph".toList) : Str).isPrefixOf
      (joinLines (pyStrip l0 :: rest.filterMap fixPieDataLine)) = false := by
    rw [joinLines_glue]
    obtain ⟨u, hu⟩ := List.isPrefixOf_iff_prefix.mp hL0p
    rw [← hu]
    exact isPrefixOf_head_ne (by decide)
  have hy : fix_mermaid_syntax s =
      joinLines (pyStrip l0 :: rest.filterMap fixPieDataLine) := by
    simp only [ fix_mermaid_syntax]
    rw [if_pos hpie, hfp, if_neg (bool_ne_true hgf), hcoll]
  have hmain :
      fix_mermaid_syntax (joinLines (pyStrip l0 :: rest.filterMap fixPieDataLine)) =
      joinLines (pyStrip l0 :: rest.filterMap fixPieDataLine) := by
    obtain hre | ⟨init, Lz, hconc⟩ := (rest.filterMap fixPieDataLine).eq_nil_or_concat
    · rw [hre] at hsplity hcoll hyhead hgf ⊢
      have hj : joinLines [pyStrip l0] = pyStrip l0 := rfl
      rw [hj] at hsplity hcoll hyhead hgf ⊢
      apply fix_fixed_point_pie
      · rw [pyStrip_idem]
        exact hyhead
      · rw [pyStrip_idem]
        unfold fixPie
        rw [hsplity]
        show joinLines (pyStrip (pyStrip l0) ::
          List.filterMap fixPieDataLine []) = pyStrip l0
        rw [pyStrip_idem]
        rfl
      · exact hgf
      · exact hcoll
    · rw [List.concat_eq_append] at hconc
      rw [hconc] at hsplity hcoll hyhead hgf hmem hLSnn ⊢
      have hLz := hmem Lz (by simp)
      have hYsh : joinLines (pyStrip l0 :: (init ++ [Lz])) =
          (pyStrip l0 ++ glue init) ++ ('\n' :: Lz) := by
        rw [joinLines_glue, glue_append]
        simp [glue, List.append_assoc]
      have hpyR : pyRStrip Lz ≠ [] := pyRStrip_ne_nil_of_nonblank hLz.2.1
      have hhead : ∀ c ∈ (joinLines (pyStrip l0 :: (init ++ [Lz]))).head?,
          isPySpace c = false := by
        obtain ⟨u, hu⟩ := List.isPrefixOf_iff_prefix.mp hyhead
        intro c hc
        rw [← hu] at hc
        have hh : ((("pie".toList) : Str) ++ u).head? = some 'p' := rfl
        rw [hh] at hc
        simp only [Option.mem_def, Option.some.injEq] at hc
        rw [← hc]
        decide
      have hstrip : pyStrip (joinLines (pyStrip l0 :: (init ++ [Lz]))) =
          joinLines (pyStrip l0 :: (init ++ [pyRStrip Lz])) := by
        rw [pyStrip_eq_pyRStrip_of_head hhead, hYsh,
          pyRStrip_append_keep (by rw [pyRStrip_cons hpyR]; simp),
          pyRStrip_cons hpyR]
        rw [joinLines_glue, glue_append]
        simp [glue, List.append_assoc]
      have hnnR : ∀ p ∈ (pyStrip l0 :: (init ++ [pyRStrip Lz])),
          ∀ c ∈ p, (c == '\n') = false := by
        intro p hp
        rcases List.mem_cons.mp hp with rfl | hp2
        · exact hLSnn _ (List.mem_cons_self _ _)
        · rcases List.mem_append.mp hp2 with h3 | h4
          · exact hLSnn p
              (List.mem_cons_of_mem _ (List.mem_append.mpr (Or.inl h3)))
          · simp only [List.mem_singleton] at h4
            subst h4
            intro c hc
            exact hLSnn Lz (by simp) c (mem_of_mem_pyRStrip hc)
      have hsplit2 :
          splitLines (joinLines (pyStrip l0 :: (init ++ [pyRStrip Lz]))) =
          pyStrip l0 :: (init ++ [pyRStrip Lz]) :=
        splitLines_joinLines _ (by simp) hnnR
      have hflz : fixPieDataLine (pyRStrip Lz) = some Lz := by
        rw [fixPieDataLine_congr (pyStrip_pyRStrip Lz)]
        exact hLz.2.2
      have hfp2 : fixPie (joinLines (pyStrip l0 :: (init ++ [pyRStrip Lz]))) =
          joinLines (pyStrip l0 :: (init ++ [Lz])) := by
        unfold fixPie
        rw [hsplit2]
        show joinLines (pyStrip (pyStrip l0) ::
          List.filterMap fixPieDataLine (init ++ [pyRStrip Lz])) =
          joinLines (pyStrip l0 :: (init ++ [Lz]))
        rw [pyStrip_idem, List.filterMap_append,
          filterMap_id_of
            (fun x hx => (hmem x (List.mem_append.mpr (Or.inl hx))).2.2),
          show ([pyRStrip Lz].filterMap fixPieDataLine) = [Lz] from by
            rw [List.filterMap_cons, hflz]
            rfl]
      apply fix_fixed_point_pie
      · rw [hstrip, joinLines_glue]
        exact isPrefixOf_append_left _ _ _ hL0p
      · rw [hstrip, hfp2]
      · exact hgf
      · exact hcoll
  rw [hy]
  exact hmain

/-- C5: the syntax fixer is idempotent: for every input string `x`,
`fix_mermaid_syntax ( fix_mermaid_syntax x) = fix_mermaid_syntax x`. The
output of one pass is already stripped up to a possible trailing space on
a regenerated pie data line, its `-->`/`--` arrows are already canonically
spaced, its pie data lines are already canonical, and it has no
consecutive blank lines, so the second pass reproduces it unchanged. -/
theorem c5 (x : Str) :
    fix_mermaid_syntax ( fix_mermaid_syntax x) = fix_mermaid_syntax x := by
  by_cases hp : (("pie".toList) : Str).isPrefixOf (pyStrip x) = true
  · exact fix_scenario_pie hp
  · have hp' : (("pie".toList) : Str).isPrefixOf (pyStrip x) = false := by
      cases hq : (("pie".toList) : Str).isPrefixOf (pyStrip x) with
      | false => rfl
      | true => exact absurd hq hp
    by_cases hg : (("graph".toList) : Str).isPrefixOf (pyStrip x) = true
    · exact fix_scenario_graph hp' hg
    · exact fix_scenario_neither hp' (by
        cases hq : (("graph".toList) : Str).isPrefixOf (pyStrip x) with
        | false => rfl
        | true => exact absurd hq hg)

end MD2Docx
